import Mathlib

/-!
Verification of the schema-inference / schema-merge core of a JSON-to-Avro
benchmark program (src/src/avro.rs).  The data model and the three functions
`merge_schemas`, `infer_schema` and `infer_schema_serde` are translated from
the Rust source; recursion is realised with an explicit fuel parameter (the
fuel is always sufficient, see the adequacy lemmas below), so that every
definition is structurally recursive and computable.
-/

set_option maxHeartbeats 1000000

/-- Model of a record field's default value (avro_rs `RecordField.default`,
a `serde_json::Value`).  The program only ever stores `None` there, so only
the distinction between the JSON null default and any other default is
modelled. -/
inductive AvroDefault where
  | nullDefault
  | otherDefault
deriving Repr, DecidableEq

/-- avro_rs `SchemaKind`: the top-level tag of a schema. -/
inductive SchemaKind where
  | null
  | boolean
  | int
  | long
  | float
  | double
  | bytes
  | string
  | array
  | map
  | union
  | record
deriving Repr, DecidableEq

/-- avro_rs `Schema`.  A record field (avro_rs `RecordField`) is modelled as
the tuple (name, default, schema, position); the `doc` and `order` components
of `RecordField` are constant (`None` / `Ascending`) and never read by the
program, so they are omitted.  A record's `Name` is modelled by its `name`
string (namespace and aliases are always `None`).  The `lookup` map
(`HashMap<String, usize>`) is modelled as an association list with unique
keys. -/
inductive Schema where
  | null
  | boolean
  | int
  | long
  | float
  | double
  | bytes
  | string
  | array (items : Schema)
  | map (values : Schema)
  | union (variants : List Schema)
  | record (name : String) (doc : Option String)
      (fields : List (String × Option AvroDefault × Schema × Nat))
      (lookup : List (String × Nat))

abbrev RecordField := String × Option AvroDefault × Schema × Nat

def RecordField.fname (f : RecordField) : String := f.1

def RecordField.fdefault (f : RecordField) : Option AvroDefault := f.2.1

def RecordField.fschema (f : RecordField) : Schema := f.2.2.1

def RecordField.fpos (f : RecordField) : Nat := f.2.2.2

def RecordField.setSchema (f : RecordField) (s : Schema) : RecordField :=
  (f.1, f.2.1, s, f.2.2.2)

def RecordField.setSchemaPos (f : RecordField) (s : Schema) (p : Nat) : RecordField :=
  (f.1, f.2.1, s, p)

/-- `SchemaKind::from(&Schema)`. -/
def Schema.kind : Schema → SchemaKind
  | .null => .null
  | .boolean => .boolean
  | .int => .int
  | .long => .long
  | .float => .float
  | .double => .double
  | .bytes => .bytes
  | .string => .string
  | .array _ => .array
  | .map _ => .map
  | .union _ => .union
  | .record _ _ _ _ => .record

/-- The Rust test `schema == Schema::Null` (`PartialEq` against the unit
variant holds exactly for the `Null` variant). -/
def Schema.isNull : Schema → Bool
  | .null => true
  | _ => false

def Schema.isUnionB : Schema → Bool
  | .union _ => true
  | _ => false

/-- The `PRIMITIVES` set of `SchemaKind`s from the `lazy_static` block. -/
def PRIMITIVES : List SchemaKind :=
  [.null, .string, .boolean, .double, .long, .bytes, .float, .int]

/-- The `DUMMY_FIELD` used by `merge_schemas` when moving a field out of
`fields2`. -/
def dummyField : RecordField := ("", none, Schema.null, 0)

mutual

/-- Size of a schema: the number of `Schema` constructors it contains.  Used
as the fuel bound for `merge_schemas`' recursion. -/
def Schema.sz : Schema → Nat
  | .null => 1
  | .boolean => 1
  | .int => 1
  | .long => 1
  | .float => 1
  | .double => 1
  | .bytes => 1
  | .string => 1
  | .array s => s.sz + 1
  | .map s => s.sz + 1
  | .union vs => Schema.szL vs + 1
  | .record _ _ fs _ => Schema.szF fs + 1

def Schema.szL : List Schema → Nat
  | [] => 0
  | s :: rest => s.sz + Schema.szL rest

def Schema.szF : List (String × Option AvroDefault × Schema × Nat) → Nat
  | [] => 0
  | (_, _, s, _) :: rest => s.sz + Schema.szF rest

end

/-- Errors of the model.  `unionErr` is avro_rs's schema-construction error
(the spec's UnionConstructionError); `panicErr` models a Rust panic
(out-of-bounds `Vec` indexing or `.unwrap()` on `None`); `outOfFuel` is an
artefact of the fuel encoding and is never produced when a function is called
through its public wrapper (the fuel bounds below are always sufficient). -/
inductive MErr where
  | unionErr
  | panicErr
  | outOfFuel
deriving Repr, DecidableEq

/-- `HashMap::remove`: remove the entry with the given key (keys are unique)
and return the removed value together with the remaining map. -/
def lookupRemove : List (String × Nat) → String → Option Nat × List (String × Nat)
  | [], _ => (none, [])
  | (k, v) :: rest, key =>
      if k = key then (some v, rest)
      else
        let r := lookupRemove rest key
        (r.1, (k, v) :: r.2)

/-- `HashMap::insert`: overwrite the entry with the given key, or append. -/
def lookupInsert : List (String × Nat) → String → Nat → List (String × Nat)
  | [], k, v => [(k, v)]
  | (k', v') :: rest, k, v =>
      if k' = k then (k, v) :: rest
      else (k', v') :: lookupInsert rest k v

/-- `HashMap::get`-style lookup (used only to state invariants). -/
def lookupFind (lk : List (String × Nat)) (k : String) : Option Nat :=
  (lk.find? (fun p => p.1 = k)).map (·.2)

/-- avro_rs `UnionSchema::new` (library code, not part of this repository's
sources).  Modelled from the spec: §3.3 union well-formedness / §7
UnionConstructionError; it rejects a union that directly contains a union and
a union with two variants of the same kind, and accepts anything else. -/
def unionNew (ss : List Schema) : Except MErr (List Schema) :=
  let rec check : List Schema → List SchemaKind → Except MErr Unit
    | [], _ => .ok ()
    | s :: rest, seen =>
        if s.isUnionB then .error .unionErr
        else if s.kind ∈ seen then .error .unionErr
        else check rest (s.kind :: seen)
  match check ss [] with
  | .error e => .error e
  | .ok _ => .ok ss

/-- `UnionSchema::find_schema_kind_mut` (library code): the index of the first
variant whose kind matches.  Modelled from the spec (§4.2 case 3: "if a
variant of the union has the same kind as S"). -/
def findSchemaKind : List Schema → SchemaKind → Option Nat
  | [], _ => none
  | v :: rest, sk =>
      if v.kind = sk then some 0
      else (findSchemaKind rest sk).map (· + 1)

/-- First loop of `merge_schemas`' Record × Record case, without the recursive
merge calls: walk `fields1` in order; for each field remove its name from
`lookup2`; when an index is found, take `fields2[idx2].schema` out (leaving
`Null` behind, as `std::mem::replace` does), otherwise pair with `Null`.
Returns the (field1, schema2) pairs, the final `fields2`, and the remaining
`lookup2`.  `none` models the panic of an out-of-bounds `fields2[idx2]`. -/
def extractPairs : List RecordField → List RecordField → List (String × Nat) →
    Option (List (RecordField × Schema) × List RecordField × List (String × Nat))
  | [], fs2, lk2 => some ([], fs2, lk2)
  | f1 :: rest, fs2, lk2 =>
      let r := lookupRemove lk2 (RecordField.fname f1)
      match r.1 with
      | some idx2 =>
          match fs2.get? idx2 with
          | none => none
          | some f2 =>
              match extractPairs rest (fs2.set idx2 (RecordField.setSchema f2 .null)) r.2 with
              | none => none
              | some (ps, fs2x, lk2x) => some ((f1, RecordField.fschema f2) :: ps, fs2x, lk2x)
      | none =>
          match extractPairs rest fs2 r.2 with
          | none => none
          | some (ps, fs2x, lk2x) => some ((f1, Schema.null) :: ps, fs2x, lk2x)

/-- Second loop of the Record × Record case, without the recursive merge
calls: for each remaining `lookup2` entry, take `fields2[idx2]` out (replacing
it with `DUMMY_FIELD`).  Returns the (key, field2) list in iteration order.
`none` models the panic of an out-of-bounds index. -/
def extractLeftover : List (String × Nat) → List RecordField →
    Option (List (String × RecordField) × List RecordField)
  | [], fs2 => some ([], fs2)
  | (name, idx2) :: rest, fs2 =>
      match fs2.get? idx2 with
      | none => none
      | some f2 =>
          match extractLeftover rest (fs2.set idx2 dummyField) with
          | none => none
          | some (ps, fs2x) => some ((name, f2) :: ps, fs2x)

/-- Bucket map `HashMap<SchemaKind, Vec<Schema>>` of the Union × Union case,
modelled as an association list in first-insertion order.  Bucket contents are
stored with `push = cons`, so the head is the most recently pushed element
(the element `Vec::pop` returns). -/
def bucketInsert : List (SchemaKind × List Schema) → SchemaKind → List Schema →
    List (SchemaKind × List Schema)
  | [], k, v => [(k, v)]
  | (k', v') :: rest, k, v =>
      if k' = k then (k, v) :: rest
      else (k', v') :: bucketInsert rest k v

def bucketPush : List (SchemaKind × List Schema) → SchemaKind → Schema →
    List (SchemaKind × List Schema)
  | [], k, s => [(k, [s])]
  | (k', v') :: rest, k, s =>
      if k' = k then (k, s :: v') :: rest
      else (k', v') :: bucketPush rest k s

def bucketRemove : List (SchemaKind × List Schema) → SchemaKind →
    Option (List Schema) × List (SchemaKind × List Schema)
  | [], _ => (none, [])
  | (k, v) :: rest, key =>
      if k = key then (some v, rest)
      else
        let r := bucketRemove rest key
        (r.1, (k, v) :: r.2)

/-- The two `while let Some(schema) = us.variants_mut().pop()` loops of the
Union × Union case: popping processes the variant vector from the back, so the
folds run over the reversed lists.  Variants of `us1` are `insert`ed (each
replacing any bucket of the same kind), variants of `us2` are pushed. -/
def buildBuckets (us1 us2 : List Schema) : List (SchemaKind × List Schema) :=
  let b1 := us1.reverse.foldl (fun m s => bucketInsert m s.kind [s]) []
  us2.reverse.foldl (fun m s => bucketPush m s.kind s) b1

/-- First loop of the Record × Record case, merge part: merge each extracted
pair with the given merge function (`field1.schema = merge(field1.schema,
schema2)?`). -/
def mergePairsGo (mrg : Schema → Schema → Except MErr Schema) :
    List (RecordField × Schema) → Except MErr (List RecordField)
  | [] => .ok []
  | (f1, s2) :: rest => do
      let m ← mrg (RecordField.fschema f1) s2
      let tl ← mergePairsGo mrg rest
      .ok (RecordField.setSchema f1 m :: tl)

/-- Second loop of the Record × Record case, merge part: append each leftover
field2 with `position = fields1.len()`, extend the lookup accordingly, and
nullable-merge its schema (`merge_schemas(Schema::Null, field2.schema)?`). -/
def mergeLeftoverGo (mrg : Schema → Schema → Except MErr Schema) :
    List (String × RecordField) → List RecordField → List (String × Nat) →
    Except MErr (List RecordField × List (String × Nat))
  | [], fs1, lk => .ok (fs1, lk)
  | (name, f2) :: rest, fs1, lk => do
      let pos := fs1.length
      let lk' := lookupInsert lk name pos
      let m ← mrg Schema.null (RecordField.fschema f2)
      mergeLeftoverGo mrg rest (fs1 ++ [RecordField.setSchemaPos f2 m pos]) lk'

/-- The bucket loop of the Union × Union case: a bucket with a single member
or with a primitive kind emits its most recently pushed member; otherwise the
two most recently pushed members are merged (any further members are
dropped, as in the source).  An empty bucket models `pop().unwrap()`
panicking. -/
def mergeBucketsGo (mrg : Schema → Schema → Except MErr Schema) :
    List (SchemaKind × List Schema) → List Schema → Except MErr (List Schema)
  | [], acc => .ok acc
  | (sk, ss) :: rest, acc =>
      if ss.length = 1 ∨ sk ∈ PRIMITIVES then
        match ss with
        | s :: _ => mergeBucketsGo mrg rest (acc ++ [s])
        | [] => .error .panicErr
      else
        match ss with
        | s :: t :: _ => do
            let m ← mrg s t
            mergeBucketsGo mrg rest (acc ++ [m])
        | _ => .error .panicErr

/-- `merge_schemas`, with an explicit fuel parameter decremented at every
recursive call.  The match arms are in source order: Record × Record,
Union × Union, Union × S, S × Union, Array × Array, Map × Map, equal kinds,
and the mixed pair. -/
def mergeFuel : Nat → Schema → Schema → Except MErr Schema
  | 0, _, _ => .error .outOfFuel
  | n + 1, a, b =>
      let mrg := mergeFuel n
      match a, b with
      | .record name1 doc1 fs1 lk1, .record _ _ fs2 lk2 =>
          match extractPairs fs1 fs2 lk2 with
          | none => .error .panicErr
          | some (ps, fs2x, lk2x) => do
              let fs1' ← mergePairsGo mrg ps
              match extractLeftover lk2x fs2x with
              | none => .error .panicErr
              | some (extras, _) => do
                  let (fs1'', lk') ← mergeLeftoverGo mrg extras fs1' lk1
                  .ok (.record name1 doc1 fs1'' lk')
      | .union us1, .union us2 => do
          let buckets := buildBuckets us1 us2
          let r := bucketRemove buckets .null
          let init : List Schema :=
            match r.1 with
            | some _ => [Schema.null]
            | none => []
          let merged ← mergeBucketsGo mrg r.2 init
          let vs ← unionNew merged
          .ok (.union vs)
      | .union us1, s2 =>
          match findSchemaKind us1 s2.kind with
          | some i =>
              match us1.get? i with
              | none => .error .panicErr
              | some s1 => do
                  let m ← mrg s1 s2
                  .ok (.union (us1.set i m))
          | none => .ok (.union (us1 ++ [s2]))
      | s2, .union us1 =>
          match findSchemaKind us1 s2.kind with
          | some i =>
              match us1.get? i with
              | none => .error .panicErr
              | some s1 => do
                  let m ← mrg s1 s2
                  .ok (.union (us1.set i m))
          | none => .ok (.union (us1 ++ [s2]))
      | .array s1, .array s2 => do
          let m ← mrg s1 s2
          .ok (.array m)
      | .map s1, .map s2 => do
          let m ← mrg s1 s2
          .ok (.map m)
      | s1, s2 =>
          if s1.kind = s2.kind then .ok s1
          else
            let schemas := if s1.isNull then [s1, s2] else [s2, s1]
            match unionNew schemas with
            | .error e => .error e
            | .ok vs => .ok (.union vs)

/-- `merge_schemas`.  `Schema.sz a + Schema.sz b` is always enough fuel
(adequacy is proved below). -/
def merge_schemas (a b : Schema) : Except MErr Schema :=
  mergeFuel (Schema.sz a + Schema.sz b) a b

/-- The json crate's `JsonValue`.  A `Number` is represented by its
`as_parts()` decomposition (positive sign, u64 mantissa, i16 decimal
exponent).  `short` is `JsonValue::Short`, the crate's inlined representation
of strings of at most 30 bytes; `json::parse` produces it instead of
`JsonValue::String` for all such strings. -/
inductive JsonValue where
  | null
  | short (s : String)
  | str (s : String)
  | number (positive : Bool) (mantissa : Nat) (exponent : Int)
  | boolean (b : Bool)
  | object (entries : List (String × JsonValue))
  | array (items : List JsonValue)

mutual

/-- Size of a `JsonValue` (fuel bound for `infer_schema`). -/
def JsonValue.vsz : JsonValue → Nat
  | .null => 1
  | .short _ => 1
  | .str _ => 1
  | .number _ _ _ => 1
  | .boolean _ => 1
  | .object entries => JsonValue.vszO entries + 1
  | .array items => JsonValue.vszA items + 1

def JsonValue.vszO : List (String × JsonValue) → Nat
  | [] => 0
  | (_, v) :: rest => v.vsz + JsonValue.vszO rest

def JsonValue.vszA : List JsonValue → Nat
  | [] => 0
  | v :: rest => v.vsz + JsonValue.vszA rest

end

/-- The array fold of `infer_schema`: fold `merge_schemas` over the inferred
schemas of the remaining elements, starting from the first element's
schema. -/
def inferFoldGo (inf : JsonValue → String → Except MErr Schema) :
    List JsonValue → String → Schema → Except MErr Schema
  | [], _, base => .ok base
  | el :: rest, name, base => do
      let s ← inf el name
      let base' ← merge_schemas base s
      inferFoldGo inf rest name base'

/-- The object loop of `infer_schema`: build the field vector in entry order,
with `position = fields.len()` at insertion time. -/
def inferObjGo (inf : JsonValue → String → Except MErr Schema) :
    List (String × JsonValue) → List RecordField → Except MErr (List RecordField)
  | [], fs => .ok fs
  | (fieldName, v) :: rest, fs => do
      let s ← inf v fieldName
      inferObjGo inf rest (fs ++ [(fieldName, none, s, fs.length)])

/-- The lookup built by `infer_schema`:
`fields.iter().enumerate().map(|(i,f)| (f.name.clone(), i)).collect()`
(collecting into a `HashMap`, so a later duplicate name overwrites an earlier
entry). -/
def buildLookup (fs : List RecordField) : List (String × Nat) :=
  (fs.enum).foldl (fun lk p => lookupInsert lk (RecordField.fname p.2) p.1) []

/-- `infer_schema` over `json::JsonValue`, with fuel.  Match arms in source
order: Boolean, String, Number, Array, Object, Null, Short. -/
def inferFuel : Nat → JsonValue → String → Except MErr Schema
  | 0, _, _ => .error .outOfFuel
  | n + 1, v, name =>
      let inf := inferFuel n
      match v with
      | .boolean _ => .ok .boolean
      | .str _ => .ok .string
      | .number _ _ exponent =>
          if exponent = 0 then .ok .long else .ok .double
      | .array vector =>
          match vector with
          | first :: rest => do
              let initial ← inf first name
              let items ← inferFoldGo inf rest name initial
              .ok (.array items)
          | [] => .ok (.array .null)
      | .object entries => do
          let fields ← inferObjGo inf entries []
          .ok (.record name none fields (buildLookup fields))
      | .null => .ok .null
      | .short _ => .ok .long

/-- `infer_schema`.  `JsonValue.vsz v` is always enough fuel. -/
def infer_schema (v : JsonValue) (name : String) : Except MErr Schema :=
  inferFuel (JsonValue.vsz v) v name

/-- The numeric part of `serde_json::Value::Number`: `PosInt(u64)`,
`NegInt(i64)` or `Float(f64)` (the float's value is never inspected by the
program, so it is not carried). -/
inductive SNumber where
  | uintVal (n : Nat)
  | intVal (n : Int)
  | floatVal

/-- `serde_json::Value`. -/
inductive SValue where
  | null
  | bool (b : Bool)
  | number (n : SNumber)
  | str (s : String)
  | array (items : List SValue)
  | object (entries : List (String × SValue))

mutual

def SValue.vsz : SValue → Nat
  | .null => 1
  | .bool _ => 1
  | .number _ => 1
  | .str _ => 1
  | .array items => SValue.vszA items + 1
  | .object entries => SValue.vszO entries + 1

def SValue.vszA : List SValue → Nat
  | [] => 0
  | v :: rest => v.vsz + SValue.vszA rest

def SValue.vszO : List (String × SValue) → Nat
  | [] => 0
  | (_, v) :: rest => v.vsz + SValue.vszO rest

end

def inferSerdeFoldGo (inf : SValue → String → Except MErr Schema) :
    List SValue → String → Schema → Except MErr Schema
  | [], _, base => .ok base
  | el :: rest, name, base => do
      let s ← inf el name
      let base' ← merge_schemas base s
      inferSerdeFoldGo inf rest name base'

def inferSerdeObjGo (inf : SValue → String → Except MErr Schema) :
    List (String × SValue) → List RecordField → Except MErr (List RecordField)
  | [], fs => .ok fs
  | (fieldName, v) :: rest, fs => do
      let s ← inf v fieldName
      inferSerdeObjGo inf rest (fs ++ [(fieldName, none, s, fs.length)])

/-- `infer_schema_serde` over `serde_json::Value`, with fuel.  Match arms in
source order: Bool, String, Number, Array, Object, Null.  A number maps to
`Long` iff `is_u64() || is_i64()` holds, i.e. iff it is not a float.  The
array case pops the LAST element as the initial schema and folds over the
remaining prefix; the object case leaves `lookup` at its `Default::default()`
(empty). -/
def inferSerdeFuel : Nat → SValue → String → Except MErr Schema
  | 0, _, _ => .error .outOfFuel
  | n + 1, v, name =>
      let inf := inferSerdeFuel n
      match v with
      | .bool _ => .ok .boolean
      | .str _ => .ok .string
      | .number num =>
          match num with
          | .uintVal _ => .ok .long
          | .intVal _ => .ok .long
          | .floatVal => .ok .double
      | .array vector =>
          match vector.getLast? with
          | some lastEl => do
              let initial ← inf lastEl name
              let items ← inferSerdeFoldGo inf vector.dropLast name initial
              .ok (.array items)
          | none => .ok (.array .null)
      | .object entries => do
          let fields ← inferSerdeObjGo inf entries []
          .ok (.record name none fields [])
      | .null => .ok .null

/-- `infer_schema_serde`.  `SValue.vsz v` is always enough fuel. -/
def infer_schema_serde (v : SValue) (name : String) : Except MErr Schema :=
  inferSerdeFuel (SValue.vsz v) v name

/-- The spec's nullable helper (§4.2.1), following the spec's words: Null for
Null; a union containing Null unchanged; Null PREPENDED for a union not
containing Null; otherwise the two-variant union with Null first. -/
def nullableSpec (s : Schema) : Schema :=
  match s with
  | .null => .null
  | .union vs =>
      if vs.any Schema.isNull then .union vs else .union (Schema.null :: vs)
  | s => .union [.null, s]

/-- What `merge_schemas(s, Null)` and `merge_schemas(Null, s)` actually
compute (proved below): as `nullableSpec`, except that for a union not
containing Null the code APPENDS Null at the end of the variant list. -/
def nullableCode (s : Schema) : Schema :=
  match s with
  | .null => .null
  | .union vs =>
      match findSchemaKind vs .null with
      | some _ => .union vs
      | none => .union (vs ++ [.null])
  | s => .union [.null, s]

/-- The spec's numeric side condition: the number given by (sign, decimal
mantissa) fits in a 64-bit signed integer. -/
def fitsInI64 (positive : Bool) (mantissa : Nat) : Prop :=
  if positive then mantissa < 2 ^ 63 else mantissa ≤ 2 ^ 63

/-- The Null-first property of a union's variant list (spec §3.3.3 / §8.5):
Null is at index 0 exactly when Null occurs among the variants. -/
def nullFirstHolds (vs : List Schema) : Prop :=
  Schema.null ∈ vs ↔ vs.head? = some Schema.null

/-- Record lookup consistency (spec §3.3.1): every field's position is its
index and is what the lookup returns for its name; lookup keys are field
names; field names and lookup keys are duplicate-free. -/
def recordConsistent (fs : List RecordField) (lk : List (String × Nat)) : Prop :=
  (∀ p ∈ fs.enum, RecordField.fpos p.2 = p.1 ∧
      lookupFind lk (RecordField.fname p.2) = some p.1)
  ∧ (∀ q ∈ lk, q.1 ∈ fs.map RecordField.fname)
  ∧ (fs.map RecordField.fname).Nodup
  ∧ (lk.map Prod.fst).Nodup

instance (fs : List RecordField) (lk : List (String × Nat)) :
    Decidable (recordConsistent fs lk) := by
  unfold recordConsistent
  infer_instance

mutual

/-- Union well-formedness (spec §3.3.2), recursively: within every union, no
two variants share a kind and no variant is itself a union. -/
def Schema.unionsOKB : Schema → Bool
  | .null => true
  | .boolean => true
  | .int => true
  | .long => true
  | .float => true
  | .double => true
  | .bytes => true
  | .string => true
  | .array s => s.unionsOKB
  | .map s => s.unionsOKB
  | .union vs => decide ((vs.map Schema.kind).Nodup)
      && vs.all (fun v => !v.isUnionB) && Schema.unionsOKBL vs
  | .record _ _ fs _ => Schema.unionsOKBF fs

def Schema.unionsOKBL : List Schema → Bool
  | [] => true
  | s :: rest => s.unionsOKB && Schema.unionsOKBL rest

def Schema.unionsOKBF : List RecordField → Bool
  | [] => true
  | (_, _, s, _) :: rest => s.unionsOKB && Schema.unionsOKBF rest

end

mutual

/-- The precondition under which `merge_schemas` cannot fail: union
well-formedness plus, for every record, that each lookup value is a valid
index into the field vector. -/
def Schema.mergeSafeB : Schema → Bool
  | .null => true
  | .boolean => true
  | .int => true
  | .long => true
  | .float => true
  | .double => true
  | .bytes => true
  | .string => true
  | .array s => s.mergeSafeB
  | .map s => s.mergeSafeB
  | .union vs => decide ((vs.map Schema.kind).Nodup)
      && vs.all (fun v => !v.isUnionB) && Schema.mergeSafeBL vs
  | .record _ _ fs lk =>
      lk.all (fun q => q.2 < fs.length) && Schema.mergeSafeBF fs

def Schema.mergeSafeBL : List Schema → Bool
  | [] => true
  | s :: rest => s.mergeSafeB && Schema.mergeSafeBL rest

def Schema.mergeSafeBF : List RecordField → Bool
  | [] => true
  | (_, _, s, _) :: rest => s.mergeSafeB && Schema.mergeSafeBF rest

end

mutual

/-- Record lookup consistency (spec §3.3.1), recursively at every record. -/
def Schema.recordsOKB : Schema → Bool
  | .null => true
  | .boolean => true
  | .int => true
  | .long => true
  | .float => true
  | .double => true
  | .bytes => true
  | .string => true
  | .array s => s.recordsOKB
  | .map s => s.recordsOKB
  | .union vs => Schema.recordsOKBL vs
  | .record _ _ fs lk => decide (recordConsistent fs lk) && Schema.recordsOKBF fs

def Schema.recordsOKBL : List Schema → Bool
  | [] => true
  | s :: rest => s.recordsOKB && Schema.recordsOKBL rest

def Schema.recordsOKBF : List RecordField → Bool
  | [] => true
  | (_, _, s, _) :: rest => s.recordsOKB && Schema.recordsOKBF rest

end

/-- The full §3.3 invariant: record lookup consistency and union
well-formedness, recursively. -/
def Schema.wfB (s : Schema) : Bool :=
  s.recordsOKB && s.unionsOKB

/-- Boolean form of the Null-first property of one variant list: Null is
among the variants iff it is the head. -/
def nullFirstVariants (vs : List Schema) : Bool :=
  (vs.any Schema.isNull) == (match vs.head? with
    | some v => v.isNull
    | none => false)

mutual

/-- The Null-first ordering invariant of §3.3, recursively: every union
inside the schema has Null at index 0 iff Null is among its variants. -/
def Schema.nullFirstAllB : Schema → Bool
  | .null => true
  | .boolean => true
  | .int => true
  | .long => true
  | .float => true
  | .double => true
  | .bytes => true
  | .string => true
  | .array s => s.nullFirstAllB
  | .map s => s.nullFirstAllB
  | .union vs => nullFirstVariants vs && Schema.nullFirstAllBL vs
  | .record _ _ fs _ => Schema.nullFirstAllBF fs

def Schema.nullFirstAllBL : List Schema → Bool
  | [] => true
  | s :: rest => s.nullFirstAllB && Schema.nullFirstAllBL rest

def Schema.nullFirstAllBF : List RecordField → Bool
  | [] => true
  | (_, _, s, _) :: rest => s.nullFirstAllB && Schema.nullFirstAllBF rest

end

mutual

/-- All objects inside the value have duplicate-free key lists (guaranteed by
the json crate's parser, which keeps object keys unique). -/
def JsonValue.keysOKB : JsonValue → Bool
  | .null => true
  | .short _ => true
  | .str _ => true
  | .number _ _ _ => true
  | .boolean _ => true
  | .object entries => decide ((entries.map Prod.fst).Nodup)
      && JsonValue.keysOKBO entries
  | .array items => JsonValue.keysOKBA items

def JsonValue.keysOKBO : List (String × JsonValue) → Bool
  | [] => true
  | (_, v) :: rest => v.keysOKB && JsonValue.keysOKBO rest

def JsonValue.keysOKBA : List JsonValue → Bool
  | [] => true
  | v :: rest => v.keysOKB && JsonValue.keysOKBA rest

end

mutual

/-- Structural equality up to the order of union variants (recursively):
the equivalence in which the idempotence property `merge(s, s) ≡ s` holds.
Records must agree on name, doc, lookup and on every field's name, default
and position. -/
inductive SEquiv : Schema → Schema → Prop where
  | null : SEquiv .null .null
  | boolean : SEquiv .boolean .boolean
  | int : SEquiv .int .int
  | long : SEquiv .long .long
  | float : SEquiv .float .float
  | double : SEquiv .double .double
  | bytes : SEquiv .bytes .bytes
  | string : SEquiv .string .string
  | array {s t : Schema} : SEquiv s t → SEquiv (.array s) (.array t)
  | map {s t : Schema} : SEquiv s t → SEquiv (.map s) (.map t)
  | union {vs mid ws : List Schema} :
      SEquivL vs mid → mid.Perm ws → SEquiv (.union vs) (.union ws)
  | record {n : String} {d : Option String} {fs gs : List RecordField}
      {lk : List (String × Nat)} :
      SEquivF fs gs → SEquiv (.record n d fs lk) (.record n d gs lk)

inductive SEquivL : List Schema → List Schema → Prop where
  | nil : SEquivL [] []
  | cons {s t : Schema} {l m : List Schema} :
      SEquiv s t → SEquivL l m → SEquivL (s :: l) (t :: m)

inductive SEquivF : List RecordField → List RecordField → Prop where
  | nil : SEquivF [] []
  | cons {name : String} {deflt : Option AvroDefault} {pos : Nat} {s t : Schema}
      {fs gs : List RecordField} :
      SEquiv s t → SEquivF fs gs →
      SEquivF ((name, deflt, s, pos) :: fs) ((name, deflt, t, pos) :: gs)

end

/-! ## Basic lemmas -/

theorem Schema.sz_pos (s : Schema) : 1 ≤ s.sz := by
  cases s <;> simp [Schema.sz]

theorem Schema.kind_eq_null_iff (s : Schema) : s.kind = SchemaKind.null ↔ s = .null := by
  cases s <;> simp [Schema.kind]

theorem Schema.kind_eq_union_iff (s : Schema) :
    s.kind = SchemaKind.union ↔ s.isUnionB = true := by
  cases s <;> simp [Schema.kind, Schema.isUnionB]

theorem setGetSelf {α : Type} : ∀ (l : List α) (i : Nat) (a : α),
    l.get? i = some a → l.set i a = l
  | [], _, _, h => by simp at h
  | x :: xs, 0, a, h => by
      have hx : x = a := Option.some.inj h
      rw [← hx]
      rfl
  | x :: xs, i + 1, a, h => by
      have h' : xs.get? i = some a := h
      show x :: xs.set i a = x :: xs
      rw [setGetSelf xs i a h']

theorem findSchemaKind_none_iff (vs : List Schema) (sk : SchemaKind) :
    findSchemaKind vs sk = none ↔ ∀ v ∈ vs, v.kind ≠ sk := by
  induction vs with
  | nil => simp [findSchemaKind]
  | cons v rest ih =>
      by_cases hv : v.kind = sk
      · simp [findSchemaKind, hv]
      · simp [findSchemaKind, hv, ih]

theorem findSchemaKind_some (vs : List Schema) (sk : SchemaKind) (i : Nat)
    (h : findSchemaKind vs sk = some i) :
    ∃ v, vs.get? i = some v ∧ v.kind = sk := by
  induction vs generalizing i with
  | nil => simp [findSchemaKind] at h
  | cons v rest ih =>
      by_cases hv : v.kind = sk
      · simp [findSchemaKind, hv] at h
        exact ⟨v, by simp [← h], hv⟩
      · simp [findSchemaKind, hv] at h
        obtain ⟨j, hj, rfl⟩ := h
        obtain ⟨w, hw, hwk⟩ := ih j hj
        exact ⟨w, by simpa using hw, hwk⟩

theorem mergeFuel_null_null (n : Nat) (h : 1 ≤ n) :
    mergeFuel n .null .null = .ok .null := by
  obtain ⟨m, rfl⟩ := Nat.exists_eq_add_of_le h
  rw [Nat.add_comm 1 m]
  simp [mergeFuel, Schema.kind]

/-- What merging with Null on the right computes, at any sufficient fuel. -/
theorem mergeFuel_null_right (n : Nat) (s : Schema) (h : Schema.sz s + 1 ≤ n) :
    mergeFuel n s .null = .ok (nullableCode s) := by
  obtain ⟨m, rfl⟩ := Nat.exists_eq_add_of_le (Nat.le_trans (Nat.le_add_left 1 _) h)
  rw [Nat.add_comm 1 m] at h ⊢
  cases s with
  | null => simp [mergeFuel, Schema.kind, nullableCode]
  | boolean => simp [mergeFuel, Schema.kind, Schema.isNull, nullableCode, unionNew,
      unionNew.check, Schema.isUnionB]
  | int => simp [mergeFuel, Schema.kind, Schema.isNull, nullableCode, unionNew,
      unionNew.check, Schema.isUnionB]
  | long => simp [mergeFuel, Schema.kind, Schema.isNull, nullableCode, unionNew,
      unionNew.check, Schema.isUnionB]
  | float => simp [mergeFuel, Schema.kind, Schema.isNull, nullableCode, unionNew,
      unionNew.check, Schema.isUnionB]
  | double => simp [mergeFuel, Schema.kind, Schema.isNull, nullableCode, unionNew,
      unionNew.check, Schema.isUnionB]
  | bytes => simp [mergeFuel, Schema.kind, Schema.isNull, nullableCode, unionNew,
      unionNew.check, Schema.isUnionB]
  | string => simp [mergeFuel, Schema.kind, Schema.isNull, nullableCode, unionNew,
      unionNew.check, Schema.isUnionB]
  | array s1 => simp [mergeFuel, Schema.kind, Schema.isNull, nullableCode, unionNew,
      unionNew.check, Schema.isUnionB]
  | map s1 => simp [mergeFuel, Schema.kind, Schema.isNull, nullableCode, unionNew,
      unionNew.check, Schema.isUnionB]
  | record nm doc fs lk => simp [mergeFuel, Schema.kind, Schema.isNull, nullableCode,
      unionNew, unionNew.check, Schema.isUnionB]
  | union vs =>
      cases hfind : findSchemaKind vs SchemaKind.null with
      | some i =>
          obtain ⟨v, hget, hkind⟩ := findSchemaKind_some vs _ i hfind
          have hv : v = .null := (Schema.kind_eq_null_iff v).mp hkind
          subst hv
          have hm : 1 ≤ m := by
            have := Schema.sz_pos (.union vs)
            omega
          have hget2 : vs[i]? = some Schema.null := by
            rw [← List.get?_eq_getElem?]
            exact hget
          simp [mergeFuel, Schema.kind, hfind, hget2, mergeFuel_null_null m hm,
            nullableCode]
          show Except.ok (Schema.union (vs.set i Schema.null))
              = Except.ok (Schema.union vs)
          rw [setGetSelf vs i _ hget]
      | none =>
          simp [mergeFuel, Schema.kind, hfind, nullableCode]

/-- What merging with Null on the left computes, at any sufficient fuel. -/
theorem mergeFuel_null_left (n : Nat) (s : Schema) (h : Schema.sz s + 1 ≤ n) :
    mergeFuel n .null s = .ok (nullableCode s) := by
  obtain ⟨m, rfl⟩ := Nat.exists_eq_add_of_le (Nat.le_trans (Nat.le_add_left 1 _) h)
  rw [Nat.add_comm 1 m] at h ⊢
  cases s with
  | null => simp [mergeFuel, Schema.kind, nullableCode]
  | boolean => simp [mergeFuel, Schema.kind, Schema.isNull, nullableCode, unionNew,
      unionNew.check, Schema.isUnionB]
  | int => simp [mergeFuel, Schema.kind, Schema.isNull, nullableCode, unionNew,
      unionNew.check, Schema.isUnionB]
  | long => simp [mergeFuel, Schema.kind, Schema.isNull, nullableCode, unionNew,
      unionNew.check, Schema.isUnionB]
  | float => simp [mergeFuel, Schema.kind, Schema.isNull, nullableCode, unionNew,
      unionNew.check, Schema.isUnionB]
  | double => simp [mergeFuel, Schema.kind, Schema.isNull, nullableCode, unionNew,
      unionNew.check, Schema.isUnionB]
  | bytes => simp [mergeFuel, Schema.kind, Schema.isNull, nullableCode, unionNew,
      unionNew.check, Schema.isUnionB]
  | string => simp [mergeFuel, Schema.kind, Schema.isNull, nullableCode, unionNew,
      unionNew.check, Schema.isUnionB]
  | array s1 => simp [mergeFuel, Schema.kind, Schema.isNull, nullableCode, unionNew,
      unionNew.check, Schema.isUnionB]
  | map s1 => simp [mergeFuel, Schema.kind, Schema.isNull, nullableCode, unionNew,
      unionNew.check, Schema.isUnionB]
  | record nm doc fs lk => simp [mergeFuel, Schema.kind, Schema.isNull, nullableCode,
      unionNew, unionNew.check, Schema.isUnionB]
  | union vs =>
      cases hfind : findSchemaKind vs SchemaKind.null with
      | some i =>
          obtain ⟨v, hget, hkind⟩ := findSchemaKind_some vs _ i hfind
          have hv : v = .null := (Schema.kind_eq_null_iff v).mp hkind
          subst hv
          have hm : 1 ≤ m := by
            have := Schema.sz_pos (.union vs)
            omega
          have hget2 : vs[i]? = some Schema.null := by
            rw [← List.get?_eq_getElem?]
            exact hget
          simp [mergeFuel, Schema.kind, hfind, hget2, mergeFuel_null_null m hm,
            nullableCode]
          show Except.ok (Schema.union (vs.set i Schema.null))
              = Except.ok (Schema.union vs)
          rw [setGetSelf vs i _ hget]
      | none =>
          simp [mergeFuel, Schema.kind, hfind, nullableCode]

/-! ## Claims C2, C4, C6, C7, C10 -/

/-- C2, counterexample: the claim says merging a Null-free union with Null
prepends Null (the spec's nullable helper), but the code appends it: merging
Union[Long, String] with Null yields Union[Long, String, Null], not
Union[Null, Long, String]. -/
theorem C2_counterexample :
    merge_schemas (.union [.long, .string]) .null
      ≠ Except.ok (nullableSpec (.union [.long, .string])) := by
  intro hcontra
  have h1 : merge_schemas (.union [.long, .string]) .null
      = .ok (.union [.long, .string, .null]) := rfl
  have h2 : nullableSpec (.union [.long, .string]) = .union [.null, .long, .string] := rfl
  rw [h1, h2] at hcontra
  simp at hcontra

/-- C2 (amended): for every schema s, merge(s, Null) and merge(Null, s) both
equal the code's nullable: Null when s is Null; s itself when s is a union
containing Null; the union with Null APPENDED at the end of its variants when
s is a union not containing Null; and Union[Null, s] otherwise. -/
theorem C2_merge_null_nullable (s : Schema) :
    merge_schemas s .null = .ok (nullableCode s) ∧
    merge_schemas .null s = .ok (nullableCode s) := by
  constructor
  · show mergeFuel (Schema.sz s + Schema.sz Schema.null) s .null = _
    exact mergeFuel_null_right _ s (by simp [Schema.sz])
  · show mergeFuel (Schema.sz Schema.null + Schema.sz s) .null s = _
    refine mergeFuel_null_left _ s ?_
    simp [Schema.sz]
    omega

/-- The mixed branch of merge (kinds differ, no unions) at any positive
fuel: Union[Null, other] when the left side is Null, otherwise the union
with the RIGHT input first. -/
theorem mergeFuel_mixed (n : Nat) (a b : Schema) (hn : 1 ≤ n)
    (hk : a.kind ≠ b.kind) (ha : a.isUnionB = false) (hb : b.isUnionB = false) :
    mergeFuel n a b = .ok (.union (if a.isNull then [a, b] else [b, a])) := by
  obtain ⟨m, rfl⟩ := Nat.exists_eq_add_of_le hn
  rw [Nat.add_comm 1 m]
  cases a <;> cases b <;>
    simp_all [mergeFuel, Schema.kind, Schema.isUnionB, Schema.isNull,
      unionNew, unionNew.check]

/-- C4, counterexample: merging Long with String puts the RIGHT input's
schema first, yielding Union[String, Long] and not Union[Long, String] as the
claim states. -/
theorem C4_counterexample :
    merge_schemas .long .string ≠ .ok (.union [.long, .string]) := by
  intro hcontra
  have h1 : merge_schemas .long .string = .ok (.union [.string, .long]) := rfl
  rw [h1] at hcontra
  simp at hcontra

/-- C4 (amended): for schemas of different top-level kinds, neither a union,
merge(a, b) is Union[Null, other] when one side is Null and otherwise
Union[b, a] with the RIGHT input's schema first; in particular
merge(Long, String) = Union[String, Long]. -/
theorem C4_mixed_pair (a b : Schema) (hk : a.kind ≠ b.kind)
    (ha : a.isUnionB = false) (hb : b.isUnionB = false) :
    merge_schemas a b = .ok (.union (if a.isNull then [a, b] else [b, a])) := by
  have h1 : 1 ≤ Schema.sz a + Schema.sz b :=
    Nat.le_trans (Schema.sz_pos a) (Nat.le_add_right _ _)
  exact mergeFuel_mixed _ a b h1 hk ha hb

/-- Witness for C4's amended theorem at Long and String. -/
theorem C4_witness :
    Schema.long.kind ≠ Schema.string.kind ∧
    merge_schemas .long .string = .ok (.union [.string, .long]) := by
  refine ⟨by decide, ?_⟩
  exact C4_mixed_pair .long .string (by decide) rfl rfl

/-- C6 (code bug), evaluation at the failing input: the json crate parses the
document with fields a = 1 and b = "x" representing "x" as JsonValue::Short
(its inlined form of strings of at most 30 bytes), and infer_schema maps
Short to Long (src/src/avro.rs line 167), so field b is inferred as Long,
not String as the claim states; the String arm itself does map to String. -/
theorem C6_code_eval :
    infer_schema (.object [("a", .number true 1 0), ("b", .short "x")]) "r"
      = .ok (.record "r" none [("a", none, .long, 0), ("b", none, .long, 1)]
          [("a", 0), ("b", 1)])
    ∧ (∀ (s name : String), infer_schema (.str s) name = .ok .string)
    ∧ (∀ (s name : String), infer_schema (.short s) name = .ok .long) :=
  ⟨rfl, fun _ _ => rfl, fun _ _ => rfl⟩

/-- C7, counterexample: the number with decimal mantissa 2^63 and exponent 0
does not fit in i64, yet infer_schema maps it to Long (the code checks only
that the exponent is zero), where the claim demands Double. -/
theorem C7_counterexample :
    infer_schema (.number true 9223372036854775808 0) "n" = .ok .long
    ∧ ¬ fitsInI64 true 9223372036854775808 := by
  refine ⟨rfl, ?_⟩
  norm_num [fitsInI64]

/-- C7 (amended): infer_schema maps a number to Long iff its decimal exponent
is zero, with no i64-range check; infer_schema_serde maps a number to Long
iff its serde representation is a u64 or i64 (i.e. not a float), also with no
i64-fit condition on u64 values. -/
theorem C7_numeric_policy :
    (∀ (pos : Bool) (mant : Nat) (expo : Int) (name : String),
        infer_schema (.number pos mant expo) name
          = .ok (if expo = 0 then Schema.long else Schema.double))
    ∧ (∀ (num : SNumber) (name : String),
        infer_schema_serde (.number num) name
          = .ok (match num with
                 | .floatVal => Schema.double
                 | _ => Schema.long)) := by
  constructor
  · intro pos mant expo name
    show (if expo = 0 then (Except.ok Schema.long : Except MErr Schema)
          else .ok .double) = _
    split <;> simp_all
  · intro num name
    cases num <;> rfl

/-- C10, counterexample: on the two parses of the single-field document with
a = 1, infer_schema builds the record lookup while infer_schema_serde leaves
it empty, so the two inferred schemas are not structurally equal. -/
theorem C10_counterexample :
    infer_schema (.object [("a", .number true 1 0)]) "r"
      ≠ infer_schema_serde (.object [("a", .number (.uintVal 1))]) "r" := by
  intro hcontra
  have h1 : infer_schema (.object [("a", .number true 1 0)]) "r"
      = .ok (.record "r" none [("a", none, .long, 0)] [("a", 0)]) := rfl
  have h2 : infer_schema_serde (.object [("a", .number (.uintVal 1))]) "r"
      = .ok (.record "r" none [("a", none, .long, 0)] []) := rfl
  rw [h1, h2] at hcontra
  simp at hcontra

/-- C10 (amended): the two inference functions agree on top-level null,
boolean, and (non-short) string documents; they differ in general — on
objects (serde leaves the lookup empty), on short strings, on numbers outside
the overlap of the two numeric policies, and on the fold order of arrays. -/
theorem C10_atomic_agreement :
    (∀ name, infer_schema .null name = infer_schema_serde .null name)
    ∧ (∀ (b : Bool) (name : String),
        infer_schema (.boolean b) name = infer_schema_serde (.bool b) name)
    ∧ (∀ (s name : String),
        infer_schema (.str s) name = infer_schema_serde (.str s) name) :=
  ⟨fun _ => rfl, fun _ _ => rfl, fun _ _ => rfl⟩

theorem bindExceptOk {α β : Type} {e : Except MErr α} {f : α → Except MErr β} {b : β} :
    (e >>= f) = .ok b ↔ ∃ a, e = .ok a ∧ f a = .ok b := by
  cases e <;> simp [Bind.bind, Except.bind]

/-- On success, merge preserves the common kind of its inputs, and yields a
union whenever the kinds differ. -/
theorem mergeFuel_kind (n : Nat) (a b c : Schema)
    (h : mergeFuel n a b = .ok c) :
    c.kind = (if a.kind = b.kind then a.kind else SchemaKind.union) := by
  cases n with
  | zero => simp [mergeFuel] at h
  | succ m =>
      simp only [mergeFuel] at h
      split at h
      · -- Record × Record
        split at h
        · exact absurd h (by simp)
        · obtain ⟨fs1', h1, h⟩ := bindExceptOk.mp h
          split at h
          · exact absurd h (by simp)
          · obtain ⟨pr, h2, h⟩ := bindExceptOk.mp h
            obtain ⟨fs'', lk'⟩ := pr
            simp only [Except.ok.injEq] at h
            subst h
            simp [Schema.kind]
      · -- Union × Union
        obtain ⟨merged, h1, h⟩ := bindExceptOk.mp h
        obtain ⟨vs', h2, h⟩ := bindExceptOk.mp h
        simp only [Except.ok.injEq] at h
        subst h
        simp [Schema.kind]
      · -- Union × S
        split at h
        · split at h
          · exact absurd h (by simp)
          · obtain ⟨m', h1, h⟩ := bindExceptOk.mp h
            simp only [Except.ok.injEq] at h
            subst h
            show SchemaKind.union = if SchemaKind.union = Schema.kind b
                then SchemaKind.union else SchemaKind.union
            split <;> rfl
        · simp only [Except.ok.injEq] at h
          subst h
          show SchemaKind.union = if SchemaKind.union = Schema.kind b
              then SchemaKind.union else SchemaKind.union
          split <;> rfl
      · -- S × Union
        split at h
        · split at h
          · exact absurd h (by simp)
          · obtain ⟨m', h1, h⟩ := bindExceptOk.mp h
            simp only [Except.ok.injEq] at h
            subst h
            show SchemaKind.union = if Schema.kind a = SchemaKind.union
                then Schema.kind a else SchemaKind.union
            split
            · rename_i hcond
              exact hcond.symm
            · rfl
        · simp only [Except.ok.injEq] at h
          subst h
          show SchemaKind.union = if Schema.kind a = SchemaKind.union
              then Schema.kind a else SchemaKind.union
          split
          · rename_i hcond
            exact hcond.symm
          · rfl
      · -- Array × Array
        obtain ⟨m', h1, h⟩ := bindExceptOk.mp h
        simp only [Except.ok.injEq] at h
        subst h
        simp [Schema.kind]
      · -- Map × Map
        obtain ⟨m', h1, h⟩ := bindExceptOk.mp h
        simp only [Except.ok.injEq] at h
        subst h
        simp [Schema.kind]
      · -- equal kinds / mixed pair
        split at h
        · simp only [Except.ok.injEq] at h
          subst h
          simp_all
        · split at h
          · exact absurd h (by simp)
          · simp only [Except.ok.injEq] at h
            subst h
            simp_all [Schema.kind]

theorem unionNew_ok (ss ts : List Schema) (h : unionNew ss = .ok ts) : ts = ss := by
  unfold unionNew at h
  split at h
  · exact absurd h (by simp)
  · exact (Except.ok.inj h).symm

theorem bucketInsert_mem_kind (k : SchemaKind) (v : List Schema)
    (hv : ∀ s ∈ v, s.kind = k) :
    ∀ (bs : List (SchemaKind × List Schema)),
    (∀ p ∈ bs, ∀ s ∈ p.2, s.kind = p.1) →
    ∀ p ∈ bucketInsert bs k v, ∀ s ∈ p.2, s.kind = p.1 := by
  intro bs
  induction bs with
  | nil =>
      intro _ p hp
      simp [bucketInsert] at hp
      subst hp
      simpa using hv
  | cons q rest ih =>
      obtain ⟨k', v'⟩ := q
      intro hbs p hp
      by_cases hk : k' = k
      · simp [bucketInsert, hk] at hp
        rcases hp with hp | hp
        · subst hp; simpa using hv
        · exact hbs _ (by simp [hp])
      · simp [bucketInsert, hk] at hp
        rcases hp with hp | hp
        · subst hp; exact hbs _ (by simp)
        · exact ih (fun p' hp' => hbs p' (by simp [hp'])) p hp

theorem bucketPush_mem_kind (k : SchemaKind) (x : Schema) (hx : x.kind = k) :
    ∀ (bs : List (SchemaKind × List Schema)),
    (∀ p ∈ bs, ∀ s ∈ p.2, s.kind = p.1) →
    ∀ p ∈ bucketPush bs k x, ∀ s ∈ p.2, s.kind = p.1 := by
  intro bs
  induction bs with
  | nil =>
      intro _ p hp
      simp [bucketPush] at hp
      subst hp
      simpa using hx
  | cons q rest ih =>
      obtain ⟨k', v'⟩ := q
      intro hbs p hp
      by_cases hk : k' = k
      · simp [bucketPush, hk] at hp
        rcases hp with hp | hp
        · subst hp
          intro s hs
          rcases List.mem_cons.mp hs with hs | hs
          · simp [hs, hx]
          · have := hbs (k', v') (by simp) s (by simpa using hs)
            simpa [hk] using this
        · exact hbs _ (by simp [hp])
      · simp [bucketPush, hk] at hp
        rcases hp with hp | hp
        · subst hp; exact hbs _ (by simp)
        · exact ih (fun p' hp' => hbs p' (by simp [hp'])) p hp

theorem buildBuckets_mem_kind (us1 us2 : List Schema) :
    ∀ p ∈ buildBuckets us1 us2, ∀ s ∈ p.2, s.kind = p.1 := by
  unfold buildBuckets
  have step1 : ∀ (l : List Schema) (m : List (SchemaKind × List Schema)),
      (∀ p ∈ m, ∀ s ∈ p.2, s.kind = p.1) →
      ∀ p ∈ l.foldl (fun m s => bucketInsert m s.kind [s]) m, ∀ s ∈ p.2, s.kind = p.1 := by
    intro l
    induction l with
    | nil => intro m hm; simpa using hm
    | cons x xs ih =>
        intro m hm
        simp only [List.foldl_cons]
        exact ih _ (bucketInsert_mem_kind x.kind [x] (by simp) m hm)
  have step2 : ∀ (l : List Schema) (m : List (SchemaKind × List Schema)),
      (∀ p ∈ m, ∀ s ∈ p.2, s.kind = p.1) →
      ∀ p ∈ l.foldl (fun m s => bucketPush m s.kind s) m, ∀ s ∈ p.2, s.kind = p.1 := by
    intro l
    induction l with
    | nil => intro m hm; simpa using hm
    | cons x xs ih =>
        intro m hm
        simp only [List.foldl_cons]
        exact ih _ (bucketPush_mem_kind x.kind x rfl m hm)
  exact step2 _ _ (step1 _ _ (by simp))

theorem bucketInsert_keys_sub (k : SchemaKind) (v : List Schema) :
    ∀ (bs : List (SchemaKind × List Schema)),
    ∀ q ∈ bucketInsert bs k v, q.1 ∈ bs.map Prod.fst ∨ q.1 = k := by
  intro bs
  induction bs with
  | nil =>
      intro q hq
      simp [bucketInsert] at hq
      simp [hq]
  | cons p rest ih =>
      obtain ⟨k', v'⟩ := p
      intro q hq
      by_cases hk : k' = k
      · simp [bucketInsert, hk] at hq
        rcases hq with hq | hq
        · simp [hq]
        · exact Or.inl (by
            simp only [List.map_cons]
            exact List.mem_cons_of_mem _ (List.mem_map_of_mem Prod.fst hq))
      · simp [bucketInsert, hk] at hq
        rcases hq with hq | hq
        · simp [hq]
        · rcases ih q hq with h | h
          · exact Or.inl (by
              simp only [List.map_cons]
              exact List.mem_cons_of_mem _ h)
          · simp [h]

theorem bucketPush_keys_sub (k : SchemaKind) (x : Schema) :
    ∀ (bs : List (SchemaKind × List Schema)),
    ∀ q ∈ bucketPush bs k x, q.1 ∈ bs.map Prod.fst ∨ q.1 = k := by
  intro bs
  induction bs with
  | nil =>
      intro q hq
      simp [bucketPush] at hq
      simp [hq]
  | cons p rest ih =>
      obtain ⟨k', v'⟩ := p
      intro q hq
      by_cases hk : k' = k
      · simp [bucketPush, hk] at hq
        rcases hq with hq | hq
        · simp [hq]
        · exact Or.inl (by
            simp only [List.map_cons]
            exact List.mem_cons_of_mem _ (List.mem_map_of_mem Prod.fst hq))
      · simp [bucketPush, hk] at hq
        rcases hq with hq | hq
        · simp [hq]
        · rcases ih q hq with h | h
          · exact Or.inl (by
              simp only [List.map_cons]
              exact List.mem_cons_of_mem _ h)
          · simp [h]

theorem bucketInsert_keys_nodup (k : SchemaKind) (v : List Schema) :
    ∀ (bs : List (SchemaKind × List Schema)),
    (bs.map Prod.fst).Nodup → ((bucketInsert bs k v).map Prod.fst).Nodup := by
  intro bs
  induction bs with
  | nil => intro _; simp [bucketInsert]
  | cons p rest ih =>
      obtain ⟨k', v'⟩ := p
      intro hnd
      simp only [List.map_cons, List.nodup_cons] at hnd
      by_cases hk : k' = k
      · subst hk
        simpa [bucketInsert] using hnd
      · simp only [bucketInsert, hk, if_neg, ite_false, List.map_cons, List.nodup_cons]
        refine ⟨?_, ih hnd.2⟩
        simp only [List.mem_map]
        rintro ⟨q, hq, rfl⟩
        rcases bucketInsert_keys_sub k v rest q hq with h | h
        · exact (hnd.1 h).elim
        · exact hk h

theorem bucketPush_keys_nodup (k : SchemaKind) (x : Schema) :
    ∀ (bs : List (SchemaKind × List Schema)),
    (bs.map Prod.fst).Nodup → ((bucketPush bs k x).map Prod.fst).Nodup := by
  intro bs
  induction bs with
  | nil => intro _; simp [bucketPush]
  | cons p rest ih =>
      obtain ⟨k', v'⟩ := p
      intro hnd
      simp only [List.map_cons, List.nodup_cons] at hnd
      by_cases hk : k' = k
      · subst hk
        simpa [bucketPush] using hnd
      · simp only [bucketPush, hk, if_neg, ite_false, List.map_cons, List.nodup_cons]
        refine ⟨?_, ih hnd.2⟩
        simp only [List.mem_map]
        rintro ⟨q, hq, rfl⟩
        rcases bucketPush_keys_sub k x rest q hq with h | h
        · exact (hnd.1 h).elim
        · exact hk h

theorem buildBuckets_keys_nodup (us1 us2 : List Schema) :
    ((buildBuckets us1 us2).map Prod.fst).Nodup := by
  unfold buildBuckets
  have step1 : ∀ (l : List Schema) (m : List (SchemaKind × List Schema)),
      (m.map Prod.fst).Nodup →
      ((l.foldl (fun m s => bucketInsert m s.kind [s]) m).map Prod.fst).Nodup := by
    intro l
    induction l with
    | nil => intro m hm; simpa using hm
    | cons x xs ih =>
        intro m hm
        simp only [List.foldl_cons]
        exact ih _ (bucketInsert_keys_nodup x.kind [x] m hm)
  have step2 : ∀ (l : List Schema) (m : List (SchemaKind × List Schema)),
      (m.map Prod.fst).Nodup →
      ((l.foldl (fun m s => bucketPush m s.kind s) m).map Prod.fst).Nodup := by
    intro l
    induction l with
    | nil => intro m hm; simpa using hm
    | cons x xs ih =>
        intro m hm
        simp only [List.foldl_cons]
        exact ih _ (bucketPush_keys_nodup x.kind x m hm)
  exact step2 _ _ (step1 _ _ (by simp))

theorem bucketRemove_mem (k : SchemaKind) :
    ∀ (bs : List (SchemaKind × List Schema)),
    ∀ p ∈ (bucketRemove bs k).2, p ∈ bs := by
  intro bs
  induction bs with
  | nil => intro p hp; simp [bucketRemove] at hp
  | cons q rest ih =>
      obtain ⟨k', v'⟩ := q
      intro p hp
      by_cases hk : k' = k
      · simp [bucketRemove, hk] at hp
        simp [hp]
      · simp [bucketRemove, hk] at hp
        rcases hp with hp | hp
        · simp [hp]
        · simp [ih p hp]

theorem bucketRemove_key_ne (k : SchemaKind) :
    ∀ (bs : List (SchemaKind × List Schema)), (bs.map Prod.fst).Nodup →
    ∀ p ∈ (bucketRemove bs k).2, p.1 ≠ k := by
  intro bs
  induction bs with
  | nil => intro _ p hp; simp [bucketRemove] at hp
  | cons q rest ih =>
      obtain ⟨k', v'⟩ := q
      intro hnd p hp
      by_cases hk : k' = k
      · subst hk
        simp only [bucketRemove, if_pos rfl] at hp
        simp only [List.map_cons, List.nodup_cons, List.mem_map] at hnd
        intro habs
        exact hnd.1 ⟨p, hp, habs⟩
      · simp [bucketRemove, hk] at hp
        rcases hp with hp | hp
        · rw [hp]
          exact hk
        · simp only [List.map_cons, List.nodup_cons] at hnd
          exact ih hnd.2 p hp

theorem mergeBucketsGo_shape (m : Nat) :
    ∀ (bs : List (SchemaKind × List Schema)) (acc res : List Schema),
    mergeBucketsGo (mergeFuel m) bs acc = .ok res →
    (∀ p ∈ bs, ∀ s ∈ p.2, s.kind = p.1) →
    ∃ extra, res = acc ++ extra ∧ ∀ e ∈ extra, ∃ p, p ∈ bs ∧ e.kind = p.1 := by
  intro bs
  induction bs with
  | nil =>
      intro acc res h _
      simp [mergeBucketsGo] at h
      exact ⟨[], by simp [h], by simp⟩
  | cons b rest ih =>
      obtain ⟨sk, ss⟩ := b
      intro acc res h hkind
      simp only [mergeBucketsGo] at h
      by_cases hc : ss.length = 1 ∨ sk ∈ PRIMITIVES
      · rw [if_pos hc] at h
        cases ss with
        | nil => exact absurd h (by simp)
        | cons s rest' =>
            obtain ⟨extra, hres, hext⟩ :=
              ih (acc ++ [s]) res h (fun p hp => hkind p (List.mem_cons_of_mem _ hp))
            refine ⟨s :: extra, by simp [hres], ?_⟩
            intro e he
            rcases List.mem_cons.mp he with he | he
            · exact ⟨(sk, s :: rest'), List.mem_cons_self _ _,
                by rw [he]; exact hkind (sk, s :: rest') (List.mem_cons_self _ _) s (by simp)⟩
            · obtain ⟨p, hp, hpk⟩ := hext e he
              exact ⟨p, List.mem_cons_of_mem _ hp, hpk⟩
      · rw [if_neg hc] at h
        cases ss with
        | nil => exact absurd h (by simp)
        | cons s ss' =>
            cases ss' with
            | nil => exact absurd h (by simp)
            | cons t rest' =>
                obtain ⟨m', hm, h⟩ := bindExceptOk.mp h
                obtain ⟨extra, hres, hext⟩ :=
                  ih (acc ++ [m']) res h (fun p hp => hkind p (List.mem_cons_of_mem _ hp))
                have hks : s.kind = sk :=
                  hkind (sk, s :: t :: rest') (List.mem_cons_self _ _) s (by simp)
                have hkt : t.kind = sk :=
                  hkind (sk, s :: t :: rest') (List.mem_cons_self _ _) t (by simp)
                have hk' : m'.kind = sk := by
                  have := mergeFuel_kind m s t m' hm
                  rw [hks, hkt] at this
                  simpa using this
                refine ⟨m' :: extra, by simp [hres], ?_⟩
                intro e he
                rcases List.mem_cons.mp he with he | he
                · exact ⟨(sk, s :: t :: rest'), List.mem_cons_self _ _, by rw [he]; exact hk'⟩
                · obtain ⟨p, hp, hpk⟩ := hext e he
                  exact ⟨p, List.mem_cons_of_mem _ hp, hpk⟩

theorem mergeFuel_unionUnion_nullFirst (n : Nat) (us1 us2 vs : List Schema)
    (h : mergeFuel n (.union us1) (.union us2) = .ok (.union vs)) :
    nullFirstHolds vs := by
  cases n with
  | zero => simp [mergeFuel] at h
  | succ m =>
      simp only [mergeFuel] at h
      obtain ⟨merged, h1, h⟩ := bindExceptOk.mp h
      obtain ⟨vs', h2, h⟩ := bindExceptOk.mp h
      have hv2 : vs' = merged := unionNew_ok _ _ h2
      simp only [Except.ok.injEq, Schema.union.injEq] at h
      subst h
      subst hv2
      have hkind : ∀ p ∈ (bucketRemove (buildBuckets us1 us2) SchemaKind.null).2,
          ∀ s ∈ p.2, s.kind = p.1 :=
        fun p hp => buildBuckets_mem_kind us1 us2 p
          (bucketRemove_mem SchemaKind.null (buildBuckets us1 us2) p hp)
      have hkeys : ∀ p ∈ (bucketRemove (buildBuckets us1 us2) SchemaKind.null).2,
          p.1 ≠ SchemaKind.null :=
        bucketRemove_key_ne SchemaKind.null (buildBuckets us1 us2)
          (buildBuckets_keys_nodup us1 us2)
      cases hr : (bucketRemove (buildBuckets us1 us2) SchemaKind.null).1 with
      | some nb =>
          rw [hr] at h1
          obtain ⟨extra, hres, hext⟩ := mergeBucketsGo_shape m _ _ _ h1 hkind
          rw [hres]
          constructor
          · intro _
            rfl
          · intro _
            exact List.mem_cons_self _ _
      | none =>
          rw [hr] at h1
          obtain ⟨extra, hres, hext⟩ := mergeBucketsGo_shape m _ _ _ h1 hkind
          rw [hres]
          have hnonull : ∀ e ∈ extra, e ≠ Schema.null := by
            intro e he habs
            obtain ⟨p, hp, hpk⟩ := hext e he
            subst habs
            exact hkeys p hp (by rw [← hpk]; rfl)
          simp only [List.nil_append]
          constructor
          · intro hmem
            exact absurd rfl (hnonull _ hmem)
          · intro hhead
            cases extra with
            | nil => simp at hhead
            | cons e l =>
                simp at hhead
                exact absurd hhead (hnonull e (List.mem_cons_self _ _))

/-- C3, counterexample: inference on the array of values 1, true, null folds
merge over the element schemas and, in the Union × non-Union branch, appends
Null at the END, producing a union with Null at index 2, not index 0. -/
theorem C3_counterexample :
    infer_schema (.array [.number true 1 0, .boolean true, .null]) "x"
      = .ok (.array (.union [.boolean, .long, .null]))
    ∧ ¬ nullFirstHolds [.boolean, .long, .null] := by
  refine ⟨rfl, ?_⟩
  intro hcontra
  have := hcontra.mp (by simp)
  simp at this

/-- C3 (amended): unions returned by the Union × Union branch of merge do
have Null at index 0 iff Null is among their variants, but the Union × S
branches and the inference fold can place Null at a later index (they append
a missing Null at the end), so the invariant does not hold of every produced
union. -/
theorem C3_unionUnion_null_first (us1 us2 vs : List Schema)
    (h : merge_schemas (.union us1) (.union us2) = .ok (.union vs)) :
    nullFirstHolds vs :=
  mergeFuel_unionUnion_nullFirst _ us1 us2 vs h

/-- Witness for C3's amended theorem: merging Union[Null, Long] with
Union[String] yields Union[Null, Long, String], which is Null-first. -/
theorem C3_witness : nullFirstHolds [Schema.null, Schema.long, Schema.string] :=
  C3_unionUnion_null_first [.null, .long] [.string] _ rfl

/-! ## Size and extraction support lemmas -/

theorem szF_mem (fs : List RecordField) (f : RecordField) (hf : f ∈ fs) :
    (RecordField.fschema f).sz ≤ Schema.szF fs := by
  induction fs with
  | nil => simp at hf
  | cons g rest ih =>
      obtain ⟨n0, d0, s0, p0⟩ := g
      rcases List.mem_cons.mp hf with hf | hf
      · subst hf
        simp [Schema.szF, RecordField.fschema]
      · have := ih hf
        simp [Schema.szF]
        omega

theorem szL_mem (vs : List Schema) (s : Schema) (hs : s ∈ vs) :
    s.sz ≤ Schema.szL vs := by
  induction vs with
  | nil => simp at hs
  | cons v rest ih =>
      rcases List.mem_cons.mp hs with hs | hs
      · subst hs
        simp [Schema.szL]
      · have := ih hs
        simp [Schema.szL]
        omega

theorem szF_set_le (fs : List RecordField) (i : Nat) (f g : RecordField)
    (hget : fs.get? i = some f)
    (hle : (RecordField.fschema g).sz ≤ (RecordField.fschema f).sz) :
    Schema.szF (fs.set i g) ≤ Schema.szF fs := by
  induction fs generalizing i with
  | nil => simp at hget
  | cons x rest ih =>
      cases i with
      | zero =>
          have hx : x = f := Option.some.inj hget
          rw [← hx] at hle
          obtain ⟨n0, d0, s0, p0⟩ := x
          obtain ⟨n1, d1, s1, p1⟩ := g
          simp [List.set, Schema.szF, RecordField.fschema] at hle ⊢
          omega
      | succ j =>
          have h' : rest.get? j = some f := hget
          have := ih j h'
          obtain ⟨n0, d0, s0, p0⟩ := x
          simp [List.set, Schema.szF]
          omega

theorem szL_append (l1 l2 : List Schema) :
    Schema.szL (l1 ++ l2) = Schema.szL l1 + Schema.szL l2 := by
  induction l1 with
  | nil => simp [Schema.szL]
  | cons x rest ih => simp [Schema.szL, ih]; omega

theorem szL_reverse (l : List Schema) : Schema.szL l.reverse = Schema.szL l := by
  induction l with
  | nil => rfl
  | cons x rest ih => simp [Schema.szL, List.reverse_cons, szL_append, ih, Schema.szL]; omega

theorem lookupRemove_fst_mem (lk : List (String × Nat)) (k : String) (v : Nat)
    (h : (lookupRemove lk k).1 = some v) : ∃ q ∈ lk, q.2 = v := by
  induction lk with
  | nil => simp [lookupRemove] at h
  | cons q rest ih =>
      obtain ⟨k', v'⟩ := q
      by_cases hk : k' = k
      · simp [lookupRemove, hk] at h
        exact ⟨(k', v'), by simp, by simp [h]⟩
      · simp [lookupRemove, hk] at h
        obtain ⟨q, hq, hqv⟩ := ih h
        exact ⟨q, by simp [hq], hqv⟩

theorem lookupRemove_rest_mem (lk : List (String × Nat)) (k : String) :
    ∀ q ∈ (lookupRemove lk k).2, q ∈ lk := by
  induction lk with
  | nil => intro q hq; simp [lookupRemove] at hq
  | cons p rest ih =>
      obtain ⟨k', v'⟩ := p
      intro q hq
      by_cases hk : k' = k
      · simp [lookupRemove, hk] at hq
        simp [hq]
      · simp [lookupRemove, hk] at hq
        rcases hq with hq | hq
        · simp [hq]
        · simp [ih q hq]

theorem extractPairs_some (fs1 : List RecordField) :
    ∀ (fs2 : List RecordField) (lk2 : List (String × Nat)),
    (∀ q ∈ lk2, q.2 < fs2.length) →
    ∃ r, extractPairs fs1 fs2 lk2 = some r := by
  induction fs1 with
  | nil => intro fs2 lk2 _; exact ⟨_, rfl⟩
  | cons f1 rest ih =>
      intro fs2 lk2 hb
      cases hr : (lookupRemove lk2 (RecordField.fname f1)).1 with
      | some idx2 =>
          obtain ⟨q, hq, hqv⟩ := lookupRemove_fst_mem lk2 _ idx2 hr
          have hlt : idx2 < fs2.length := by
            have := hb q hq
            omega
          obtain ⟨f2, hf2⟩ : ∃ f2, fs2.get? idx2 = some f2 := by
            cases h : fs2.get? idx2 with
            | none =>
                rw [List.get?_eq_none] at h
                omega
            | some f2 => exact ⟨f2, rfl⟩
          have hb' : ∀ q ∈ (lookupRemove lk2 (RecordField.fname f1)).2,
              q.2 < (fs2.set idx2 (RecordField.setSchema f2 .null)).length := by
            intro q hq
            rw [List.length_set]
            exact hb q (lookupRemove_rest_mem lk2 _ q hq)
          obtain ⟨⟨ps, fs2x, lk2x⟩, hrec⟩ := ih _ _ hb'
          refine ⟨((f1, RecordField.fschema f2) :: ps, fs2x, lk2x), ?_⟩
          simp only [extractPairs, hr, hf2, hrec]
      | none =>
          have hb' : ∀ q ∈ (lookupRemove lk2 (RecordField.fname f1)).2, q.2 < fs2.length :=
            fun q hq => hb q (lookupRemove_rest_mem lk2 _ q hq)
          obtain ⟨⟨ps, fs2x, lk2x⟩, hrec⟩ := ih _ _ hb'
          refine ⟨((f1, Schema.null) :: ps, fs2x, lk2x), ?_⟩
          simp only [extractPairs, hr, hrec]

theorem extractPairs_facts (fs1 : List RecordField) :
    ∀ (fs2 : List RecordField) (lk2 : List (String × Nat))
      (ps : List (RecordField × Schema)) (fs2x : List RecordField)
      (lk2x : List (String × Nat)),
    extractPairs fs1 fs2 lk2 = some (ps, fs2x, lk2x) →
    ps.map Prod.fst = fs1
    ∧ Schema.szF fs2x ≤ Schema.szF fs2
    ∧ fs2x.length = fs2.length
    ∧ (∀ q ∈ lk2x, q ∈ lk2)
    ∧ (∀ p ∈ ps, p.2.sz ≤ Schema.szF fs2 + 1)
    ∧ (∀ p ∈ ps, p.2 = Schema.null ∨ ∃ g ∈ fs2, p.2 = RecordField.fschema g)
    ∧ (∀ f ∈ fs2x, RecordField.fschema f = Schema.null
        ∨ ∃ g ∈ fs2, RecordField.fschema f = RecordField.fschema g) := by
  induction fs1 with
  | nil =>
      intro fs2 lk2 ps fs2x lk2x h
      simp only [extractPairs, Option.some.injEq, Prod.mk.injEq] at h
      obtain ⟨h1, h2, h3⟩ := h
      subst h1
      subst h2
      subst h3
      refine ⟨rfl, le_refl _, rfl, fun q hq => hq, by simp, by simp, ?_⟩
      intro f hf
      exact Or.inr ⟨f, hf, rfl⟩
  | cons f1 rest ih =>
      intro fs2 lk2 ps fs2x lk2x h
      cases hr : (lookupRemove lk2 (RecordField.fname f1)).1 with
      | some idx2 =>
          cases hf2 : fs2.get? idx2 with
          | none =>
              simp only [extractPairs, hr, hf2] at h
              exact absurd h (by simp)
          | some f2 =>
              cases hrec : extractPairs rest (fs2.set idx2 (RecordField.setSchema f2 .null))
                  (lookupRemove lk2 (RecordField.fname f1)).2 with
              | none =>
                  simp only [extractPairs, hr, hf2, hrec] at h
                  exact absurd h (by simp)
              | some r =>
                  obtain ⟨ps', fs2x', lk2x'⟩ := r
                  simp only [extractPairs, hr, hf2, hrec, Option.some.injEq,
                    Prod.mk.injEq] at h
                  obtain ⟨hps, hfs2x, hlk2x⟩ := h
                  subst hps
                  subst hfs2x
                  subst hlk2x
                  obtain ⟨a1, a2, a3, a4, a5, a6, a7⟩ := ih _ _ _ _ _ hrec
                  have hmem2 : f2 ∈ fs2 := List.get?_mem hf2
                  have b1 : Schema.szF (fs2.set idx2 (RecordField.setSchema f2 .null))
                      ≤ Schema.szF fs2 := by
                    refine szF_set_le fs2 idx2 f2 _ hf2 ?_
                    show (Schema.null).sz ≤ _
                    simpa [Schema.sz] using Schema.sz_pos _
                  have b3 : ∀ g ∈ fs2.set idx2 (RecordField.setSchema f2 .null),
                      RecordField.fschema g = Schema.null
                      ∨ ∃ g0 ∈ fs2, RecordField.fschema g = RecordField.fschema g0 := by
                    intro g hg
                    rcases List.mem_or_eq_of_mem_set hg with hg | hg
                    · exact Or.inr ⟨g, hg, rfl⟩
                    · subst hg
                      exact Or.inl rfl
                  refine ⟨by simp [a1], le_trans a2 b1, by rw [a3, List.length_set],
                      fun q hq => lookupRemove_rest_mem lk2 _ q (a4 q hq), ?_, ?_, ?_⟩
                  · intro p hp
                    rcases List.mem_cons.mp hp with hp | hp
                    · subst hp
                      have := szF_mem fs2 f2 hmem2
                      simp only []
                      omega
                    · have := a5 p hp
                      omega
                  · intro p hp
                    rcases List.mem_cons.mp hp with hp | hp
                    · subst hp
                      exact Or.inr ⟨f2, hmem2, rfl⟩
                    · rcases a6 p hp with h6 | ⟨g, hg, hgf⟩
                      · exact Or.inl h6
                      · rcases b3 g hg with hb | ⟨g0, hg0, hg0f⟩
                        · exact Or.inl (hgf.trans hb)
                        · exact Or.inr ⟨g0, hg0, hgf.trans hg0f⟩
                  · intro f hf
                    rcases a7 f hf with h7 | ⟨g, hg, hgf⟩
                    · exact Or.inl h7
                    · rcases b3 g hg with hb | ⟨g0, hg0, hg0f⟩
                      · exact Or.inl (hgf.trans hb)
                      · exact Or.inr ⟨g0, hg0, hgf.trans hg0f⟩
      | none =>
          cases hrec : extractPairs rest fs2 (lookupRemove lk2 (RecordField.fname f1)).2 with
          | none =>
              simp only [extractPairs, hr, hrec] at h
              exact absurd h (by simp)
          | some r =>
              obtain ⟨ps', fs2x', lk2x'⟩ := r
              simp only [extractPairs, hr, hrec, Option.some.injEq, Prod.mk.injEq] at h
              obtain ⟨hps, hfs2x, hlk2x⟩ := h
              subst hps
              subst hfs2x
              subst hlk2x
              obtain ⟨a1, a2, a3, a4, a5, a6, a7⟩ := ih _ _ _ _ _ hrec
              refine ⟨by simp [a1], a2, a3,
                  fun q hq => lookupRemove_rest_mem lk2 _ q (a4 q hq), ?_, ?_, a7⟩
              · intro p hp
                rcases List.mem_cons.mp hp with hp | hp
                · subst hp
                  have := Schema.sz_pos Schema.null
                  simp only [Schema.sz]
                  omega
                · exact a5 p hp
              · intro p hp
                rcases List.mem_cons.mp hp with hp | hp
                · subst hp
                  exact Or.inl rfl
                · exact a6 p hp

theorem extractLeftover_some (lk : List (String × Nat)) :
    ∀ (fs : List RecordField), (∀ q ∈ lk, q.2 < fs.length) →
    ∃ r, extractLeftover lk fs = some r := by
  induction lk with
  | nil => intro fs _; exact ⟨_, rfl⟩
  | cons q rest ih =>
      obtain ⟨name, idx2⟩ := q
      intro fs hb
      have hlt : idx2 < fs.length := hb (name, idx2) (by simp)
      obtain ⟨f2, hf2⟩ : ∃ f2, fs.get? idx2 = some f2 := by
        cases h : fs.get? idx2 with
        | none =>
            rw [List.get?_eq_none] at h
            omega
        | some f2 => exact ⟨f2, rfl⟩
      have hb' : ∀ q ∈ rest, q.2 < (fs.set idx2 dummyField).length := by
        intro q hq
        rw [List.length_set]
        exact hb q (by simp [hq])
      obtain ⟨⟨ex, fsx⟩, hrec⟩ := ih _ hb'
      refine ⟨((name, f2) :: ex, fsx), ?_⟩
      simp only [extractLeftover, hf2, hrec]

theorem extractLeftover_facts (lk : List (String × Nat)) :
    ∀ (fs : List RecordField) (ex : List (String × RecordField)) (fsx : List RecordField),
    extractLeftover lk fs = some (ex, fsx) →
    ex.map Prod.fst = lk.map Prod.fst
    ∧ (∀ e ∈ ex, (RecordField.fschema e.2).sz ≤ Schema.szF fs)
    ∧ (∀ e ∈ ex, RecordField.fschema e.2 = Schema.null
        ∨ ∃ g ∈ fs, RecordField.fschema e.2 = RecordField.fschema g) := by
  induction lk with
  | nil =>
      intro fs ex fsx h
      simp only [extractLeftover, Option.some.injEq, Prod.mk.injEq] at h
      obtain ⟨h1, h2⟩ := h
      subst h1
      subst h2
      exact ⟨rfl, by simp, by simp⟩
  | cons q rest ih =>
      obtain ⟨name, idx2⟩ := q
      intro fs ex fsx h
      cases hf2 : fs.get? idx2 with
      | none =>
          simp only [extractLeftover, hf2] at h
          exact absurd h (by simp)
      | some f2 =>
          cases hrec : extractLeftover rest (fs.set idx2 dummyField) with
          | none =>
              simp only [extractLeftover, hf2, hrec] at h
              exact absurd h (by simp)
          | some r =>
              obtain ⟨ex', fsx'⟩ := r
              simp only [extractLeftover, hf2, hrec, Option.some.injEq, Prod.mk.injEq] at h
              obtain ⟨hex, hfsx⟩ := h
              subst hex
              subst hfsx
              obtain ⟨a1, a2, a3⟩ := ih _ _ _ hrec
              have hmem2 : f2 ∈ fs := List.get?_mem hf2
              have b1 : Schema.szF (fs.set idx2 dummyField) ≤ Schema.szF fs := by
                refine szF_set_le fs idx2 f2 _ hf2 ?_
                show (Schema.null).sz ≤ _
                simpa [Schema.sz] using Schema.sz_pos _
              have b3 : ∀ g ∈ fs.set idx2 dummyField,
                  RecordField.fschema g = Schema.null
                  ∨ ∃ g0 ∈ fs, RecordField.fschema g = RecordField.fschema g0 := by
                intro g hg
                rcases List.mem_or_eq_of_mem_set hg with hg | hg
                · exact Or.inr ⟨g, hg, rfl⟩
                · subst hg
                  exact Or.inl rfl
              refine ⟨by simp [a1], ?_, ?_⟩
              · intro e he
                rcases List.mem_cons.mp he with he | he
                · subst he
                  exact szF_mem fs f2 hmem2
                · exact le_trans (a2 e he) b1
              · intro e he
                rcases List.mem_cons.mp he with he | he
                · subst he
                  exact Or.inr ⟨f2, hmem2, rfl⟩
                · rcases a3 e he with h3 | ⟨g, hg, hgf⟩
                  · exact Or.inl h3
                  · rcases b3 g hg with hb | ⟨g0, hg0, hg0f⟩
                    · exact Or.inl (hgf.trans hb)
                    · exact Or.inr ⟨g0, hg0, hgf.trans hg0f⟩

/-! ## Bucket support lemmas -/

theorem bucketInsert_mem_pred (P : Schema → Prop) (k : SchemaKind) (v : List Schema)
    (hv : ∀ s ∈ v, P s) :
    ∀ (bs : List (SchemaKind × List Schema)), (∀ p ∈ bs, ∀ s ∈ p.2, P s) →
    ∀ p ∈ bucketInsert bs k v, ∀ s ∈ p.2, P s := by
  intro bs
  induction bs with
  | nil =>
      intro _ p hp
      simp [bucketInsert] at hp
      subst hp
      simpa using hv
  | cons q rest ih =>
      obtain ⟨k', v'⟩ := q
      intro hbs p hp
      by_cases hk : k' = k
      · simp [bucketInsert, hk] at hp
        rcases hp with hp | hp
        · subst hp; simpa using hv
        · exact hbs _ (by simp [hp])
      · simp [bucketInsert, hk] at hp
        rcases hp with hp | hp
        · subst hp; exact hbs _ (by simp)
        · exact ih (fun p' hp' => hbs p' (by simp [hp'])) p hp

theorem bucketPush_mem_pred (P : Schema → Prop) (k : SchemaKind) (x : Schema)
    (hx : P x) :
    ∀ (bs : List (SchemaKind × List Schema)), (∀ p ∈ bs, ∀ s ∈ p.2, P s) →
    ∀ p ∈ bucketPush bs k x, ∀ s ∈ p.2, P s := by
  intro bs
  induction bs with
  | nil =>
      intro _ p hp
      simp [bucketPush] at hp
      subst hp
      simpa using hx
  | cons q rest ih =>
      obtain ⟨k', v'⟩ := q
      intro hbs p hp
      by_cases hk : k' = k
      · simp [bucketPush, hk] at hp
        rcases hp with hp | hp
        · subst hp
          intro s hs
          rcases List.mem_cons.mp hs with hs | hs
          · subst hs; exact hx
          · exact hbs (k', v') (by simp) s (by simpa using hs)
        · exact hbs _ (by simp [hp])
      · simp [bucketPush, hk] at hp
        rcases hp with hp | hp
        · subst hp; exact hbs _ (by simp)
        · exact ih (fun p' hp' => hbs p' (by simp [hp'])) p hp

theorem buildBuckets_mem_pred (P : Schema → Prop) (us1 us2 : List Schema)
    (h1 : ∀ s ∈ us1, P s) (h2 : ∀ s ∈ us2, P s) :
    ∀ p ∈ buildBuckets us1 us2, ∀ s ∈ p.2, P s := by
  unfold buildBuckets
  have step1 : ∀ (l : List Schema) (m : List (SchemaKind × List Schema)),
      (∀ s ∈ l, P s) → (∀ p ∈ m, ∀ s ∈ p.2, P s) →
      ∀ p ∈ l.foldl (fun m s => bucketInsert m s.kind [s]) m, ∀ s ∈ p.2, P s := by
    intro l
    induction l with
    | nil => intro m _ hm; simpa using hm
    | cons x xs ih =>
        intro m hl hm
        simp only [List.foldl_cons]
        exact ih _ (fun s hs => hl s (by simp [hs]))
          (bucketInsert_mem_pred P x.kind [x]
            (by simpa using hl x (by simp)) m hm)
  have step2 : ∀ (l : List Schema) (m : List (SchemaKind × List Schema)),
      (∀ s ∈ l, P s) → (∀ p ∈ m, ∀ s ∈ p.2, P s) →
      ∀ p ∈ l.foldl (fun m s => bucketPush m s.kind s) m, ∀ s ∈ p.2, P s := by
    intro l
    induction l with
    | nil => intro m _ hm; simpa using hm
    | cons x xs ih =>
        intro m hl hm
        simp only [List.foldl_cons]
        exact ih _ (fun s hs => hl s (by simp [hs]))
          (bucketPush_mem_pred P x.kind x (hl x (by simp)) m hm)
  exact step2 _ _ (fun s hs => h2 s (by simpa using hs))
    (step1 _ _ (fun s hs => h1 s (by simpa using hs)) (by simp))

theorem bucketInsert_nonempty (k : SchemaKind) (v : List Schema) (hv : v ≠ []) :
    ∀ (bs : List (SchemaKind × List Schema)), (∀ p ∈ bs, p.2 ≠ []) →
    ∀ p ∈ bucketInsert bs k v, p.2 ≠ [] := by
  intro bs
  induction bs with
  | nil =>
      intro _ p hp
      simp [bucketInsert] at hp
      subst hp
      exact hv
  | cons q rest ih =>
      obtain ⟨k', v'⟩ := q
      intro hbs p hp
      by_cases hk : k' = k
      · simp [bucketInsert, hk] at hp
        rcases hp with hp | hp
        · subst hp; exact hv
        · exact hbs _ (by simp [hp])
      · simp [bucketInsert, hk] at hp
        rcases hp with hp | hp
        · subst hp; exact hbs _ (by simp)
        · exact ih (fun p' hp' => hbs p' (by simp [hp'])) p hp

theorem bucketPush_nonempty (k : SchemaKind) (x : Schema) :
    ∀ (bs : List (SchemaKind × List Schema)), (∀ p ∈ bs, p.2 ≠ []) →
    ∀ p ∈ bucketPush bs k x, p.2 ≠ [] := by
  intro bs
  induction bs with
  | nil =>
      intro _ p hp
      simp [bucketPush] at hp
      subst hp
      simp
  | cons q rest ih =>
      obtain ⟨k', v'⟩ := q
      intro hbs p hp
      by_cases hk : k' = k
      · simp [bucketPush, hk] at hp
        rcases hp with hp | hp
        · subst hp; simp
        · exact hbs _ (by simp [hp])
      · simp [bucketPush, hk] at hp
        rcases hp with hp | hp
        · subst hp; exact hbs _ (by simp)
        · exact ih (fun p' hp' => hbs p' (by simp [hp'])) p hp

theorem buildBuckets_nonempty (us1 us2 : List Schema) :
    ∀ p ∈ buildBuckets us1 us2, p.2 ≠ [] := by
  unfold buildBuckets
  have step1 : ∀ (l : List Schema) (m : List (SchemaKind × List Schema)),
      (∀ p ∈ m, p.2 ≠ []) →
      ∀ p ∈ l.foldl (fun m s => bucketInsert m s.kind [s]) m, p.2 ≠ [] := by
    intro l
    induction l with
    | nil => intro m hm; simpa using hm
    | cons x xs ih =>
        intro m hm
        simp only [List.foldl_cons]
        exact ih _ (bucketInsert_nonempty x.kind [x] (by simp) m hm)
  have step2 : ∀ (l : List Schema) (m : List (SchemaKind × List Schema)),
      (∀ p ∈ m, p.2 ≠ []) →
      ∀ p ∈ l.foldl (fun m s => bucketPush m s.kind s) m, p.2 ≠ [] := by
    intro l
    induction l with
    | nil => intro m hm; simpa using hm
    | cons x xs ih =>
        intro m hm
        simp only [List.foldl_cons]
        exact ih _ (bucketPush_nonempty x.kind x m hm)
  exact step2 _ _ (step1 _ _ (by simp))

theorem bucketInsert_content (k : SchemaKind) (v : List Schema) :
    ∀ (bs : List (SchemaKind × List Schema)),
    ((bucketInsert bs k v).map fun p => Schema.szL p.2).sum
      ≤ ((bs.map fun p => Schema.szL p.2).sum) + Schema.szL v := by
  intro bs
  induction bs with
  | nil => simp [bucketInsert]
  | cons q rest ih =>
      obtain ⟨k', v'⟩ := q
      by_cases hk : k' = k
      · simp [bucketInsert, hk]
        omega
      · simp [bucketInsert, hk]
        omega

theorem bucketPush_content (k : SchemaKind) (x : Schema) :
    ∀ (bs : List (SchemaKind × List Schema)),
    ((bucketPush bs k x).map fun p => Schema.szL p.2).sum
      ≤ ((bs.map fun p => Schema.szL p.2).sum) + x.sz := by
  intro bs
  induction bs with
  | nil => simp [bucketPush, Schema.szL]
  | cons q rest ih =>
      obtain ⟨k', v'⟩ := q
      by_cases hk : k' = k
      · simp [bucketPush, hk, Schema.szL]
        omega
      · simp [bucketPush, hk]
        omega

theorem buildBuckets_content (us1 us2 : List Schema) :
    ((buildBuckets us1 us2).map fun p => Schema.szL p.2).sum
      ≤ Schema.szL us1 + Schema.szL us2 := by
  unfold buildBuckets
  have step1 : ∀ (l : List Schema) (m : List (SchemaKind × List Schema)),
      ((l.foldl (fun m s => bucketInsert m s.kind [s]) m).map fun p => Schema.szL p.2).sum
        ≤ ((m.map fun p => Schema.szL p.2).sum) + Schema.szL l := by
    intro l
    induction l with
    | nil => intro m; simp [Schema.szL]
    | cons x xs ih =>
        intro m
        simp only [List.foldl_cons]
        have h1 := ih (bucketInsert m x.kind [x])
        have h2 := bucketInsert_content x.kind [x] m
        simp only [Schema.szL] at h1 h2 ⊢
        omega
  have step2 : ∀ (l : List Schema) (m : List (SchemaKind × List Schema)),
      ((l.foldl (fun m s => bucketPush m s.kind s) m).map fun p => Schema.szL p.2).sum
        ≤ ((m.map fun p => Schema.szL p.2).sum) + Schema.szL l := by
    intro l
    induction l with
    | nil => intro m; simp [Schema.szL]
    | cons x xs ih =>
        intro m
        simp only [List.foldl_cons]
        have h1 := ih (bucketPush m x.kind x)
        have h2 := bucketPush_content x.kind x m
        simp only [Schema.szL] at h1 h2 ⊢
        omega
  have h2 := step2 us2.reverse (us1.reverse.foldl (fun m s => bucketInsert m s.kind [s]) [])
  have h1 := step1 us1.reverse []
  rw [szL_reverse] at h1 h2
  simp only [List.map_nil, List.sum_nil, Nat.zero_add] at h1
  show ((us2.reverse.foldl (fun m s => bucketPush m s.kind s)
      (us1.reverse.foldl (fun m s => bucketInsert m s.kind [s]) [])).map
        fun p => Schema.szL p.2).sum ≤ Schema.szL us1 + Schema.szL us2
  omega

theorem buckets_member_content (bs : List (SchemaKind × List Schema))
    (p : SchemaKind × List Schema) (hp : p ∈ bs) :
    Schema.szL p.2 ≤ (bs.map fun p => Schema.szL p.2).sum := by
  induction bs with
  | nil => simp at hp
  | cons q rest ih =>
      rcases List.mem_cons.mp hp with hp | hp
      · subst hp
        simp
      · have := ih hp
        simp
        omega

theorem unionNew_check_ok : ∀ (ss : List Schema) (seen : List SchemaKind),
    (∀ s ∈ ss, s.isUnionB = false) → ((ss.map Schema.kind).Nodup) →
    (∀ s ∈ ss, s.kind ∉ seen) → unionNew.check ss seen = .ok () := by
  intro ss
  induction ss with
  | nil => intro seen _ _ _; rfl
  | cons s rest ih =>
      intro seen hu hnd hseen
      have h1 : s.isUnionB = false := hu s (by simp)
      have h2 : s.kind ∉ seen := hseen s (by simp)
      simp only [unionNew.check, h1, Bool.false_eq_true, if_false, if_neg h2]
      refine ih (s.kind :: seen) (fun t ht => hu t (by simp [ht])) ?_ ?_
      · simp only [List.map_cons, List.nodup_cons] at hnd
        exact hnd.2
      · intro t ht
        simp only [List.map_cons, List.nodup_cons] at hnd
        intro habs
        rcases List.mem_cons.mp habs with hab | hab
        · exact hnd.1 (hab ▸ List.mem_map_of_mem Schema.kind ht)
        · exact hseen t (by simp [ht]) hab

theorem unionNew_ok_of (ss : List Schema)
    (hu : ∀ s ∈ ss, s.isUnionB = false) (hnd : (ss.map Schema.kind).Nodup) :
    unionNew ss = .ok ss := by
  unfold unionNew
  rw [unionNew_check_ok ss [] hu hnd (by simp)]

theorem lookupInsert_mem (lk : List (String × Nat)) (k : String) (v : Nat) :
    ∀ q ∈ lookupInsert lk k v, q ∈ lk ∨ q = (k, v) := by
  induction lk with
  | nil => intro q hq; simp [lookupInsert] at hq; simp [hq]
  | cons p rest ih =>
      obtain ⟨k', v'⟩ := p
      intro q hq
      by_cases hk : k' = k
      · simp [lookupInsert, hk] at hq
        rcases hq with hq | hq
        · simp [hq]
        · simp [hq]
      · simp [lookupInsert, hk] at hq
        rcases hq with hq | hq
        · simp [hq]
        · rcases ih q hq with h | h
          · exact Or.inl (by simp [h])
          · simp [h]

/-! ## mergeSafeB inversion lemmas -/

theorem mergeSafeBL_mem (vs : List Schema) (h : Schema.mergeSafeBL vs = true) :
    ∀ v ∈ vs, Schema.mergeSafeB v = true := by
  induction vs with
  | nil => intro v hv; simp at hv
  | cons x rest ih =>
      simp only [Schema.mergeSafeBL, Bool.and_eq_true] at h
      intro v hv
      rcases List.mem_cons.mp hv with hv | hv
      · subst hv; exact h.1
      · exact ih h.2 v hv

theorem mergeSafeBF_mem (fs : List RecordField) (h : Schema.mergeSafeBF fs = true) :
    ∀ f ∈ fs, Schema.mergeSafeB (RecordField.fschema f) = true := by
  induction fs with
  | nil => intro f hf; simp at hf
  | cons x rest ih =>
      obtain ⟨n0, d0, s0, p0⟩ := x
      simp only [Schema.mergeSafeBF, Bool.and_eq_true] at h
      intro f hf
      rcases List.mem_cons.mp hf with hf | hf
      · subst hf; exact h.1
      · exact ih h.2 f hf

theorem mergeSafeB_union_elim (vs : List Schema)
    (h : Schema.mergeSafeB (.union vs) = true) :
    ((vs.map Schema.kind).Nodup ∧ (∀ v ∈ vs, v.isUnionB = false)
      ∧ ∀ v ∈ vs, Schema.mergeSafeB v = true) := by
  simp only [Schema.mergeSafeB, Bool.and_eq_true, decide_eq_true_eq,
    List.all_eq_true, Bool.not_eq_true'] at h
  exact ⟨h.1.1, h.1.2, mergeSafeBL_mem vs h.2⟩

theorem mergeSafeB_record_elim (n : String) (d : Option String)
    (fs : List RecordField) (lk : List (String × Nat))
    (h : Schema.mergeSafeB (.record n d fs lk) = true) :
    (∀ q ∈ lk, q.2 < fs.length)
      ∧ ∀ f ∈ fs, Schema.mergeSafeB (RecordField.fschema f) = true := by
  simp only [Schema.mergeSafeB, Bool.and_eq_true, List.all_eq_true,
    decide_eq_true_eq] at h
  exact ⟨h.1, mergeSafeBF_mem fs h.2⟩

/-! ## Totality of the merge loops -/

theorem mergePairsGo_total (m : Nat) (ps : List (RecordField × Schema))
    (hok : ∀ p ∈ ps, ∃ c, mergeFuel m (RecordField.fschema p.1) p.2 = .ok c) :
    ∃ fs', mergePairsGo (mergeFuel m) ps = .ok fs' := by
  induction ps with
  | nil => exact ⟨[], rfl⟩
  | cons p rest ih =>
      obtain ⟨f1, s2⟩ := p
      obtain ⟨c, hc⟩ := hok (f1, s2) (by simp)
      obtain ⟨fs', hfs'⟩ := ih (fun q hq => hok q (by simp [hq]))
      refine ⟨RecordField.setSchema f1 c :: fs', ?_⟩
      simp only [mergePairsGo, hc, hfs']
      rfl

theorem mergeLeftoverGo_total (m : Nat) (ex : List (String × RecordField))
    (hok : ∀ e ∈ ex, ∃ c, mergeFuel m Schema.null (RecordField.fschema e.2) = .ok c) :
    ∀ (fs : List RecordField) (lk : List (String × Nat)),
    ∃ r, mergeLeftoverGo (mergeFuel m) ex fs lk = .ok r := by
  induction ex with
  | nil => intro fs lk; exact ⟨(fs, lk), rfl⟩
  | cons e rest ih =>
      obtain ⟨name, f2⟩ := e
      intro fs lk
      obtain ⟨c, hc⟩ := hok (name, f2) (by simp)
      obtain ⟨r, hr⟩ := ih (fun q hq => hok q (by simp [hq]))
        (fs ++ [RecordField.setSchemaPos f2 c fs.length]) (lookupInsert lk name fs.length)
      refine ⟨r, ?_⟩
      simp only [mergeLeftoverGo, hc]
      show mergeLeftoverGo (mergeFuel m) rest
          (fs ++ [RecordField.setSchemaPos f2 c fs.length])
          (lookupInsert lk name fs.length) = Except.ok r
      exact hr

theorem mergeBucketsGo_total (m : Nat) :
    ∀ (bs : List (SchemaKind × List Schema)) (acc : List Schema),
    (∀ p ∈ bs, p.2 ≠ []) →
    (∀ p ∈ bs, ∀ s t rest2, p.2 = s :: t :: rest2 → ∃ c, mergeFuel m s t = .ok c) →
    ∃ res, mergeBucketsGo (mergeFuel m) bs acc = .ok res := by
  intro bs
  induction bs with
  | nil => intro acc _ _; exact ⟨acc, rfl⟩
  | cons b rest ih =>
      obtain ⟨sk, ss⟩ := b
      intro acc hne hok
      by_cases hc : ss.length = 1 ∨ sk ∈ PRIMITIVES
      · cases ss with
        | nil => exact absurd rfl (hne (sk, []) (by simp))
        | cons s rest' =>
            obtain ⟨res, hres⟩ := ih (acc ++ [s])
              (fun p hp => hne p (by simp [hp])) (fun p hp => hok p (by simp [hp]))
            refine ⟨res, ?_⟩
            simp only [mergeBucketsGo, if_pos hc, hres]
      · cases ss with
        | nil => exact absurd rfl (hne (sk, []) (by simp))
        | cons s ss' =>
            cases ss' with
            | nil =>
                exact absurd (Or.inl rfl) hc
            | cons t rest' =>
                obtain ⟨c, hmc⟩ := hok (sk, s :: t :: rest') (by simp) s t rest' rfl
                obtain ⟨res, hres⟩ := ih (acc ++ [c])
                  (fun p hp => hne p (by simp [hp])) (fun p hp => hok p (by simp [hp]))
                refine ⟨res, ?_⟩
                simp only [mergeBucketsGo, if_neg hc, hmc]
                show mergeBucketsGo (mergeFuel m) rest (acc ++ [c]) = Except.ok res
                exact hres

theorem mergeBucketsGo_kinds (m : Nat) :
    ∀ (bs : List (SchemaKind × List Schema)) (acc res : List Schema),
    mergeBucketsGo (mergeFuel m) bs acc = .ok res →
    (∀ p ∈ bs, ∀ s ∈ p.2, s.kind = p.1) →
    ∃ extra, res = acc ++ extra ∧ extra.map Schema.kind = bs.map Prod.fst := by
  intro bs
  induction bs with
  | nil =>
      intro acc res h _
      simp [mergeBucketsGo] at h
      exact ⟨[], by simp [h], by simp⟩
  | cons b rest ih =>
      obtain ⟨sk, ss⟩ := b
      intro acc res h hkind
      simp only [mergeBucketsGo] at h
      by_cases hc : ss.length = 1 ∨ sk ∈ PRIMITIVES
      · rw [if_pos hc] at h
        cases ss with
        | nil => exact absurd h (by simp)
        | cons s rest' =>
            obtain ⟨extra, hres, hext⟩ :=
              ih (acc ++ [s]) res h (fun p hp => hkind p (List.mem_cons_of_mem _ hp))
            refine ⟨s :: extra, by simp [hres], ?_⟩
            simp only [List.map_cons, hext]
            congr 1
            exact hkind (sk, s :: rest') (List.mem_cons_self _ _) s (by simp)
      · rw [if_neg hc] at h
        cases ss with
        | nil => exact absurd h (by simp)
        | cons s ss' =>
            cases ss' with
            | nil => exact absurd h (by simp)
            | cons t rest' =>
                obtain ⟨m', hm, h⟩ := bindExceptOk.mp h
                obtain ⟨extra, hres, hext⟩ :=
                  ih (acc ++ [m']) res h (fun p hp => hkind p (List.mem_cons_of_mem _ hp))
                have hks : s.kind = sk :=
                  hkind (sk, s :: t :: rest') (List.mem_cons_self _ _) s (by simp)
                have hkt : t.kind = sk :=
                  hkind (sk, s :: t :: rest') (List.mem_cons_self _ _) t (by simp)
                have hk' : m'.kind = sk := by
                  have := mergeFuel_kind m s t m' hm
                  rw [hks, hkt] at this
                  simpa using this
                refine ⟨m' :: extra, by simp [hres], ?_⟩
                simp only [List.map_cons, hext]
                congr 1

theorem bucketRemove_keys_nodup (k : SchemaKind) :
    ∀ (bs : List (SchemaKind × List Schema)), (bs.map Prod.fst).Nodup →
    (((bucketRemove bs k).2).map Prod.fst).Nodup := by
  intro bs
  induction bs with
  | nil => intro _; simp [bucketRemove]
  | cons q rest ih =>
      obtain ⟨k', v'⟩ := q
      intro hnd
      simp only [List.map_cons, List.nodup_cons] at hnd
      by_cases hk : k' = k
      · simpa [bucketRemove, hk] using hnd.2
      · simp only [bucketRemove, hk, if_neg, ite_false, List.map_cons, List.nodup_cons]
        refine ⟨?_, ih hnd.2⟩
        simp only [List.mem_map]
        rintro ⟨q, hq, rfl⟩
        exact hnd.1 (List.mem_map_of_mem Prod.fst (bucketRemove_mem k rest q hq))

/-! ## Branch lemmas for merge totality -/

theorem mergeFuel_total_rec (m : Nat)
    (ih : ∀ a' b', Schema.sz a' + Schema.sz b' ≤ m →
      Schema.mergeSafeB a' = true → Schema.mergeSafeB b' = true →
      ∃ c, mergeFuel m a' b' = .ok c)
    (n1 : String) (d1 : Option String) (fs1 : List RecordField) (lk1 : List (String × Nat))
    (n2 : String) (d2 : Option String) (fs2 : List RecordField) (lk2 : List (String × Nat))
    (hsz : Schema.sz (.record n1 d1 fs1 lk1) + Schema.sz (.record n2 d2 fs2 lk2) ≤ m + 1)
    (h1 : Schema.mergeSafeB (.record n1 d1 fs1 lk1) = true)
    (h2 : Schema.mergeSafeB (.record n2 d2 fs2 lk2) = true) :
    ∃ c, mergeFuel (m + 1) (.record n1 d1 fs1 lk1) (.record n2 d2 fs2 lk2) = .ok c := by
  obtain ⟨hb1, hf1safe⟩ := mergeSafeB_record_elim _ _ _ _ h1
  obtain ⟨hb2, hf2safe⟩ := mergeSafeB_record_elim _ _ _ _ h2
  have hszm : Schema.szF fs1 + Schema.szF fs2 + 1 ≤ m := by
    simp only [Schema.sz] at hsz
    omega
  obtain ⟨⟨ps, fs2x, lk2x⟩, hEP⟩ := extractPairs_some fs1 fs2 lk2 hb2
  obtain ⟨a1, a2, a3, a4, a5, a6, a7⟩ := extractPairs_facts fs1 fs2 lk2 ps fs2x lk2x hEP
  have hpairs : ∀ p ∈ ps, ∃ c, mergeFuel m (RecordField.fschema p.1) p.2 = .ok c := by
    intro p hp
    have hp1 : p.1 ∈ fs1 := by
      rw [← a1]
      exact List.mem_map_of_mem Prod.fst hp
    refine ih _ _ ?_ (hf1safe p.1 hp1) ?_
    · have hx := szF_mem fs1 p.1 hp1
      have hy := a5 p hp
      omega
    · rcases a6 p hp with h | ⟨g, hg, hgf⟩
      · rw [h]
        rfl
      · rw [hgf]
        exact hf2safe g hg
  obtain ⟨fs1', hGo⟩ := mergePairsGo_total m ps hpairs
  have hb2x : ∀ q ∈ lk2x, q.2 < fs2x.length := by
    intro q hq
    rw [a3]
    exact hb2 q (a4 q hq)
  obtain ⟨⟨ex, fsx⟩, hEL⟩ := extractLeftover_some lk2x fs2x hb2x
  obtain ⟨c1, c2, c3⟩ := extractLeftover_facts lk2x fs2x ex fsx hEL
  have hleft : ∀ e ∈ ex, ∃ c, mergeFuel m Schema.null (RecordField.fschema e.2) = .ok c := by
    intro e he
    refine ⟨_, mergeFuel_null_left m _ ?_⟩
    have := c2 e he
    omega
  obtain ⟨⟨fs'', lk'⟩, hLGo⟩ := mergeLeftoverGo_total m ex hleft fs1' lk1
  refine ⟨.record n1 d1 fs'' lk', ?_⟩
  simp only [mergeFuel, hEP]
  refine bindExceptOk.mpr ⟨fs1', hGo, ?_⟩
  simp only [hEL]
  exact bindExceptOk.mpr ⟨(fs'', lk'), hLGo, rfl⟩

theorem mergeFuel_total_uu (m : Nat)
    (ih : ∀ a' b', Schema.sz a' + Schema.sz b' ≤ m →
      Schema.mergeSafeB a' = true → Schema.mergeSafeB b' = true →
      ∃ c, mergeFuel m a' b' = .ok c)
    (us1 us2 : List Schema)
    (hsz : Schema.sz (.union us1) + Schema.sz (.union us2) ≤ m + 1)
    (h1 : Schema.mergeSafeB (.union us1) = true)
    (h2 : Schema.mergeSafeB (.union us2) = true) :
    ∃ c, mergeFuel (m + 1) (.union us1) (.union us2) = .ok c := by
  obtain ⟨hnd1, hnu1, hsafe1⟩ := mergeSafeB_union_elim us1 h1
  obtain ⟨hnd2, hnu2, hsafe2⟩ := mergeSafeB_union_elim us2 h2
  have hszm : Schema.szL us1 + Schema.szL us2 + 1 ≤ m := by
    simp only [Schema.sz] at hsz
    omega
  have hne : ∀ p ∈ (bucketRemove (buildBuckets us1 us2) SchemaKind.null).2, p.2 ≠ [] :=
    fun p hp => buildBuckets_nonempty us1 us2 p
      (bucketRemove_mem SchemaKind.null (buildBuckets us1 us2) p hp)
  have hkind : ∀ p ∈ (bucketRemove (buildBuckets us1 us2) SchemaKind.null).2,
      ∀ s ∈ p.2, s.kind = p.1 :=
    fun p hp => buildBuckets_mem_kind us1 us2 p
      (bucketRemove_mem SchemaKind.null (buildBuckets us1 us2) p hp)
  have hsafeAll : ∀ p ∈ buildBuckets us1 us2, ∀ s ∈ p.2, Schema.mergeSafeB s = true :=
    buildBuckets_mem_pred _ us1 us2 hsafe1 hsafe2
  have hnuAll : ∀ p ∈ buildBuckets us1 us2, ∀ s ∈ p.2, s.isUnionB = false :=
    buildBuckets_mem_pred _ us1 us2 hnu1 hnu2
  have hok : ∀ p ∈ (bucketRemove (buildBuckets us1 us2) SchemaKind.null).2,
      ∀ s t rest2, p.2 = s :: t :: rest2 → ∃ c, mergeFuel m s t = .ok c := by
    intro p hp s t rest2 hp2
    have hpb : p ∈ buildBuckets us1 us2 :=
      bucketRemove_mem SchemaKind.null (buildBuckets us1 us2) p hp
    have hsz2 : s.sz + t.sz ≤ m := by
      have hc1 : Schema.szL p.2 ≤
          ((buildBuckets us1 us2).map fun p => Schema.szL p.2).sum :=
        buckets_member_content _ p hpb
      have hc2 := buildBuckets_content us1 us2
      rw [hp2] at hc1
      simp only [Schema.szL] at hc1
      have ht := Schema.sz_pos t
      have hs := Schema.sz_pos s
      omega
    exact ih s t hsz2
      (hsafeAll p hpb s (by rw [hp2]; simp))
      (hsafeAll p hpb t (by rw [hp2]; simp))
  have hknu : ∀ p ∈ (bucketRemove (buildBuckets us1 us2) SchemaKind.null).2,
      p.1 ≠ SchemaKind.union := by
    intro p hp
    have hpb : p ∈ buildBuckets us1 us2 :=
      bucketRemove_mem SchemaKind.null (buildBuckets us1 us2) p hp
    cases hps : p.2 with
    | nil => exact absurd hps (hne p hp)
    | cons s rest2 =>
        have hs : s ∈ p.2 := by rw [hps]; simp
        have h1 := hkind p hp s hs
        have h2 := hnuAll p hpb s hs
        rw [← h1]
        intro habs
        rw [(Schema.kind_eq_union_iff s).mp habs] at h2
        simp at h2
  have hknn : ∀ p ∈ (bucketRemove (buildBuckets us1 us2) SchemaKind.null).2,
      p.1 ≠ SchemaKind.null :=
    bucketRemove_key_ne SchemaKind.null (buildBuckets us1 us2)
      (buildBuckets_keys_nodup us1 us2)
  have hknd : (((bucketRemove (buildBuckets us1 us2) SchemaKind.null).2).map
      Prod.fst).Nodup :=
    bucketRemove_keys_nodup SchemaKind.null (buildBuckets us1 us2)
      (buildBuckets_keys_nodup us1 us2)
  cases hr0 : (bucketRemove (buildBuckets us1 us2) SchemaKind.null).1 with
  | some nb =>
      obtain ⟨res, hBG⟩ := mergeBucketsGo_total m _ [Schema.null] hne hok
      obtain ⟨extra, hres, hkx⟩ := mergeBucketsGo_kinds m _ _ res hBG hkind
      have hnores : ∀ e ∈ res, e.isUnionB = false := by
        intro e he
        rw [hres] at he
        rcases List.mem_append.mp he with he | he
        · simp at he
          simp [he, Schema.isUnionB]
        · have : e.kind ∈ extra.map Schema.kind := List.mem_map_of_mem Schema.kind he
          rw [hkx] at this
          simp only [List.mem_map] at this
          obtain ⟨p, hp, hpk⟩ := this
          cases hbe : e.isUnionB
          · rfl
          · exact absurd (hpk.trans ((Schema.kind_eq_union_iff e).mpr hbe))
              (hknu p hp)
      have hndres : (res.map Schema.kind).Nodup := by
        rw [hres]
        simp only [List.map_append, List.map_cons, List.map_nil]
        rw [hkx]
        show (Schema.kind Schema.null ::
          ((bucketRemove (buildBuckets us1 us2) SchemaKind.null).2).map Prod.fst).Nodup
        rw [List.nodup_cons]
        refine ⟨?_, hknd⟩
        simp only [List.mem_map]
        rintro ⟨p, hp, hpk⟩
        exact hknn p hp hpk
      refine ⟨.union res, ?_⟩
      simp only [mergeFuel, hr0]
      refine bindExceptOk.mpr ⟨res, hBG, ?_⟩
      refine bindExceptOk.mpr ⟨res, unionNew_ok_of res hnores hndres, rfl⟩
  | none =>
      obtain ⟨res, hBG⟩ := mergeBucketsGo_total m _ ([] : List Schema) hne hok
      obtain ⟨extra, hres, hkx⟩ := mergeBucketsGo_kinds m _ _ res hBG hkind
      have hnores : ∀ e ∈ res, e.isUnionB = false := by
        intro e he
        rw [hres] at he
        simp only [List.nil_append] at he
        have : e.kind ∈ extra.map Schema.kind := List.mem_map_of_mem Schema.kind he
        rw [hkx] at this
        simp only [List.mem_map] at this
        obtain ⟨p, hp, hpk⟩ := this
        cases hbe : e.isUnionB
        · rfl
        · exact absurd (hpk.trans ((Schema.kind_eq_union_iff e).mpr hbe))
            (hknu p hp)
      have hndres : (res.map Schema.kind).Nodup := by
        rw [hres]
        simp only [List.nil_append]
        rw [hkx]
        exact hknd
      refine ⟨.union res, ?_⟩
      simp only [mergeFuel, hr0]
      refine bindExceptOk.mpr ⟨res, hBG, ?_⟩
      refine bindExceptOk.mpr ⟨res, unionNew_ok_of res hnores hndres, rfl⟩

theorem mergeFuel_total_usCore (m : Nat)
    (ih : ∀ a' b', Schema.sz a' + Schema.sz b' ≤ m →
      Schema.mergeSafeB a' = true → Schema.mergeSafeB b' = true →
      ∃ c, mergeFuel m a' b' = .ok c)
    (us1 : List Schema) (b : Schema)
    (hsz : Schema.sz (.union us1) + Schema.sz b ≤ m + 1)
    (h1 : Schema.mergeSafeB (.union us1) = true)
    (h2 : Schema.mergeSafeB b = true) :
    ∃ c, (match findSchemaKind us1 b.kind with
          | some i =>
              match us1.get? i with
              | none => Except.error MErr.panicErr
              | some s1 => do
                  let mm ← mergeFuel m s1 b
                  Except.ok (Schema.union (us1.set i mm))
          | none => Except.ok (Schema.union (us1 ++ [b]))) = .ok c := by
  obtain ⟨hnd1, hnu1, hsafe1⟩ := mergeSafeB_union_elim us1 h1
  cases hfind : findSchemaKind us1 b.kind with
  | none => exact ⟨_, rfl⟩
  | some i =>
      obtain ⟨s1, hget, hkind⟩ := findSchemaKind_some us1 _ i hfind
      have hmem : s1 ∈ us1 := List.get?_mem hget
      obtain ⟨c, hc⟩ := ih s1 b (by
          have := szL_mem us1 s1 hmem
          simp only [Schema.sz] at hsz
          omega)
        (hsafe1 s1 hmem) h2
      refine ⟨.union (us1.set i c), ?_⟩
      simp only [hfind, hget, hc]
      rfl

theorem mergeFuel_total_suCore (m : Nat)
    (ih : ∀ a' b', Schema.sz a' + Schema.sz b' ≤ m →
      Schema.mergeSafeB a' = true → Schema.mergeSafeB b' = true →
      ∃ c, mergeFuel m a' b' = .ok c)
    (a : Schema) (us1 : List Schema)
    (hsz : Schema.sz a + Schema.sz (.union us1) ≤ m + 1)
    (h1 : Schema.mergeSafeB a = true)
    (h2 : Schema.mergeSafeB (.union us1) = true) :
    ∃ c, (match findSchemaKind us1 a.kind with
          | some i =>
              match us1.get? i with
              | none => Except.error MErr.panicErr
              | some s1 => do
                  let mm ← mergeFuel m s1 a
                  Except.ok (Schema.union (us1.set i mm))
          | none => Except.ok (Schema.union (us1 ++ [a]))) = .ok c := by
  obtain ⟨hnd1, hnu1, hsafe1⟩ := mergeSafeB_union_elim us1 h2
  cases hfind : findSchemaKind us1 a.kind with
  | none => exact ⟨_, rfl⟩
  | some i =>
      obtain ⟨s1, hget, hkind⟩ := findSchemaKind_some us1 _ i hfind
      have hmem : s1 ∈ us1 := List.get?_mem hget
      obtain ⟨c, hc⟩ := ih s1 a (by
          have := szL_mem us1 s1 hmem
          simp only [Schema.sz] at hsz
          omega)
        (hsafe1 s1 hmem) h1
      refine ⟨.union (us1.set i c), ?_⟩
      simp only [hfind, hget, hc]
      rfl

theorem mergeFuel_total_arr (m : Nat)
    (ih : ∀ a' b', Schema.sz a' + Schema.sz b' ≤ m →
      Schema.mergeSafeB a' = true → Schema.mergeSafeB b' = true →
      ∃ c, mergeFuel m a' b' = .ok c)
    (s1 s2 : Schema)
    (hsz : Schema.sz (.array s1) + Schema.sz (.array s2) ≤ m + 1)
    (h1 : Schema.mergeSafeB (.array s1) = true)
    (h2 : Schema.mergeSafeB (.array s2) = true) :
    ∃ c, mergeFuel (m + 1) (.array s1) (.array s2) = .ok c := by
  obtain ⟨c, hc⟩ := ih s1 s2 (by
      simp only [Schema.sz] at hsz
      omega) h1 h2
  refine ⟨.array c, ?_⟩
  simp only [mergeFuel]
  exact bindExceptOk.mpr ⟨c, hc, rfl⟩

theorem mergeFuel_total_map (m : Nat)
    (ih : ∀ a' b', Schema.sz a' + Schema.sz b' ≤ m →
      Schema.mergeSafeB a' = true → Schema.mergeSafeB b' = true →
      ∃ c, mergeFuel m a' b' = .ok c)
    (s1 s2 : Schema)
    (hsz : Schema.sz (.map s1) + Schema.sz (.map s2) ≤ m + 1)
    (h1 : Schema.mergeSafeB (.map s1) = true)
    (h2 : Schema.mergeSafeB (.map s2) = true) :
    ∃ c, mergeFuel (m + 1) (.map s1) (.map s2) = .ok c := by
  obtain ⟨c, hc⟩ := ih s1 s2 (by
      simp only [Schema.sz] at hsz
      omega) h1 h2
  refine ⟨.map c, ?_⟩
  simp only [mergeFuel]
  exact bindExceptOk.mpr ⟨c, hc, rfl⟩

/-- Master totality: merging two schemas that satisfy union well-formedness
and record lookup in-boundedness succeeds, at any sufficient fuel. -/
theorem mergeFuel_total : ∀ (n : Nat) (a b : Schema),
    Schema.sz a + Schema.sz b ≤ n →
    Schema.mergeSafeB a = true → Schema.mergeSafeB b = true →
    ∃ c, mergeFuel n a b = .ok c := by
  intro n
  induction n with
  | zero =>
      intro a b hsz _ _
      have := Schema.sz_pos a
      have := Schema.sz_pos b
      omega
  | succ m ih =>
      intro a b hsz h1 h2
      cases a <;> cases b <;>
        first
        | exact ⟨_, rfl⟩
        | exact mergeFuel_total_rec m ih _ _ _ _ _ _ _ _ hsz h1 h2
        | exact mergeFuel_total_uu m ih _ _ hsz h1 h2
        | exact mergeFuel_total_usCore m ih _ _ hsz h1 h2
        | exact mergeFuel_total_suCore m ih _ _ hsz h1 h2
        | exact mergeFuel_total_arr m ih _ _ hsz h1 h2
        | exact mergeFuel_total_map m ih _ _ hsz h1 h2

/-! ## Preservation of MergeSafe by merge -/

theorem mergePairsGo_safe (m : Nat) :
    ∀ (ps : List (RecordField × Schema)) (fs' : List RecordField),
    mergePairsGo (mergeFuel m) ps = .ok fs' →
    (∀ p ∈ ps, ∀ c, mergeFuel m (RecordField.fschema p.1) p.2 = .ok c →
      Schema.mergeSafeB c = true) →
    fs'.length = ps.length ∧ ∀ f ∈ fs', Schema.mergeSafeB (RecordField.fschema f) = true := by
  intro ps
  induction ps with
  | nil =>
      intro fs' h _
      simp only [mergePairsGo, Except.ok.injEq] at h
      subst h
      simp
  | cons p rest ih =>
      obtain ⟨f1, s2⟩ := p
      intro fs' h hsafe
      simp only [mergePairsGo] at h
      obtain ⟨c, hc, h⟩ := bindExceptOk.mp h
      obtain ⟨tl, htl, h⟩ := bindExceptOk.mp h
      simp only [Except.ok.injEq] at h
      subst h
      obtain ⟨ihl, ihs⟩ := ih tl htl (fun q hq => hsafe q (by simp [hq]))
      refine ⟨by simp [ihl], ?_⟩
      intro f hf
      rcases List.mem_cons.mp hf with hf | hf
      · subst hf
        exact hsafe (f1, s2) (by simp) c hc
      · exact ihs f hf

theorem mergeLeftoverGo_safe (m : Nat) :
    ∀ (ex : List (String × RecordField)) (fs : List RecordField)
      (lk : List (String × Nat)) (fs'' : List RecordField) (lk' : List (String × Nat)),
    mergeLeftoverGo (mergeFuel m) ex fs lk = .ok (fs'', lk') →
    (∀ e ∈ ex, ∀ c, mergeFuel m Schema.null (RecordField.fschema e.2) = .ok c →
      Schema.mergeSafeB c = true) →
    (∀ q ∈ lk, q.2 < fs.length) →
    (∀ f ∈ fs, Schema.mergeSafeB (RecordField.fschema f) = true) →
    (∀ q ∈ lk', q.2 < fs''.length)
      ∧ (∀ f ∈ fs'', Schema.mergeSafeB (RecordField.fschema f) = true) := by
  intro ex
  induction ex with
  | nil =>
      intro fs lk fs'' lk' h _ hb hf
      simp only [mergeLeftoverGo, Except.ok.injEq, Prod.mk.injEq] at h
      obtain ⟨h1, h2⟩ := h
      subst h1
      subst h2
      exact ⟨hb, hf⟩
  | cons e rest ih =>
      obtain ⟨name, f2⟩ := e
      intro fs lk fs'' lk' h hsafe hb hf
      simp only [mergeLeftoverGo] at h
      obtain ⟨c, hc, h⟩ := bindExceptOk.mp h
      refine ih _ _ _ _ h (fun q hq => hsafe q (by simp [hq])) ?_ ?_
      · intro q hq
        rcases lookupInsert_mem lk name fs.length q hq with hql | hql
        · have := hb q hql
          simp only [List.length_append, List.length_cons, List.length_nil]
          omega
        · subst hql
          simp only [List.length_append, List.length_cons, List.length_nil]
          omega
      · intro f hfm
        rcases List.mem_append.mp hfm with hfm | hfm
        · exact hf f hfm
        · simp only [List.mem_cons, List.not_mem_nil, or_false] at hfm
          subst hfm
          exact hsafe (name, f2) (by simp) c hc

theorem mergeBucketsGo_safe (m : Nat) :
    ∀ (bs : List (SchemaKind × List Schema)) (acc res : List Schema),
    mergeBucketsGo (mergeFuel m) bs acc = .ok res →
    (∀ p ∈ bs, ∀ s ∈ p.2, Schema.mergeSafeB s = true) →
    (∀ p ∈ bs, ∀ s t c, mergeFuel m s t = .ok c → s ∈ p.2 → t ∈ p.2 →
      Schema.mergeSafeB c = true) →
    (∀ e ∈ acc, Schema.mergeSafeB e = true) →
    ∀ e ∈ res, Schema.mergeSafeB e = true := by
  intro bs
  induction bs with
  | nil =>
      intro acc res h _ _ hacc
      simp only [mergeBucketsGo, Except.ok.injEq] at h
      subst h
      exact hacc
  | cons b rest ih =>
      obtain ⟨sk, ss⟩ := b
      intro acc res h hmem hok hacc
      simp only [mergeBucketsGo] at h
      by_cases hc : ss.length = 1 ∨ sk ∈ PRIMITIVES
      · rw [if_pos hc] at h
        cases ss with
        | nil => exact absurd h (by simp)
        | cons s rest' =>
            refine ih (acc ++ [s]) res h
              (fun p hp => hmem p (by simp [hp]))
              (fun p hp => hok p (by simp [hp])) ?_
            intro e he
            rcases List.mem_append.mp he with he | he
            · exact hacc e he
            · simp only [List.mem_cons, List.not_mem_nil, or_false] at he
              rw [he]
              exact hmem (sk, s :: rest') (by simp) s (by simp)
      · rw [if_neg hc] at h
        cases ss with
        | nil => exact absurd h (by simp)
        | cons s ss' =>
            cases ss' with
            | nil => exact absurd h (by simp)
            | cons t rest' =>
                obtain ⟨c, hmc, h⟩ := bindExceptOk.mp h
                refine ih (acc ++ [c]) res h
                  (fun p hp => hmem p (by simp [hp]))
                  (fun p hp => hok p (by simp [hp])) ?_
                intro e he
                rcases List.mem_append.mp he with he | he
                · exact hacc e he
                · simp only [List.mem_cons, List.not_mem_nil, or_false] at he
                  rw [he]
                  exact hok (sk, s :: t :: rest') (by simp) s t c hmc
                    (by simp) (by simp)

theorem mergeSafeBL_intro (vs : List Schema)
    (h : ∀ v ∈ vs, Schema.mergeSafeB v = true) : Schema.mergeSafeBL vs = true := by
  induction vs with
  | nil => rfl
  | cons x rest ih =>
      simp only [Schema.mergeSafeBL, Bool.and_eq_true]
      exact ⟨h x (by simp), ih (fun v hv => h v (by simp [hv]))⟩

theorem mergeSafeBF_intro (fs : List RecordField)
    (h : ∀ f ∈ fs, Schema.mergeSafeB (RecordField.fschema f) = true) :
    Schema.mergeSafeBF fs = true := by
  induction fs with
  | nil => rfl
  | cons x rest ih =>
      obtain ⟨n0, d0, s0, p0⟩ := x
      simp only [Schema.mergeSafeBF, Bool.and_eq_true]
      exact ⟨h (n0, d0, s0, p0) (by simp), ih (fun f hf => h f (by simp [hf]))⟩

theorem mergeSafeB_record_intro (n : String) (d : Option String)
    (fs : List RecordField) (lk : List (String × Nat))
    (hb : ∀ q ∈ lk, q.2 < fs.length)
    (hf : ∀ f ∈ fs, Schema.mergeSafeB (RecordField.fschema f) = true) :
    Schema.mergeSafeB (.record n d fs lk) = true := by
  simp only [Schema.mergeSafeB, Bool.and_eq_true, List.all_eq_true, decide_eq_true_eq]
  exact ⟨hb, mergeSafeBF_intro fs hf⟩

theorem mergeSafeB_union_intro (vs : List Schema)
    (hnd : (vs.map Schema.kind).Nodup)
    (hnu : ∀ v ∈ vs, v.isUnionB = false)
    (hs : ∀ v ∈ vs, Schema.mergeSafeB v = true) :
    Schema.mergeSafeB (.union vs) = true := by
  simp only [Schema.mergeSafeB, Bool.and_eq_true, decide_eq_true_eq, List.all_eq_true,
    Bool.not_eq_true']
  exact ⟨⟨hnd, hnu⟩, mergeSafeBL_intro vs hs⟩

/-- Master preservation: on success, merge preserves the MergeSafe invariant
(union well-formedness plus record-lookup in-boundedness). -/
theorem mergeFuel_safe : ∀ (n : Nat) (a b c : Schema),
    mergeFuel n a b = .ok c →
    Schema.mergeSafeB a = true → Schema.mergeSafeB b = true →
    Schema.mergeSafeB c = true := by
  intro n
  induction n with
  | zero => intro a b c h _ _; simp [mergeFuel] at h
  | succ m ih =>
      intro a b c h h1 h2
      simp only [mergeFuel] at h
      split at h
      · -- Record × Record
        rename_i name1 doc1 fs1 lk1 name2 doc2 fs2 lk2
        obtain ⟨hb1, hf1safe⟩ := mergeSafeB_record_elim _ _ _ _ h1
        obtain ⟨hb2, hf2safe⟩ := mergeSafeB_record_elim _ _ _ _ h2
        split at h
        · exact absurd h (by simp)
        · rename_i ps fs2x lk2x hEP
          obtain ⟨fs1', hGo, h⟩ := bindExceptOk.mp h
          split at h
          · exact absurd h (by simp)
          · rename_i exx fsx hEL
            obtain ⟨⟨fs'', lk'⟩, hLGo, h⟩ := bindExceptOk.mp h
            simp only [Except.ok.injEq] at h
            subst h
            obtain ⟨a1, a2, a3, a4, a5, a6, a7⟩ := extractPairs_facts _ _ _ _ _ _ hEP
            obtain ⟨c1, c2, c3⟩ := extractLeftover_facts _ _ _ _ hEL
            have hpairsafe : ∀ p ∈ ps, ∀ cc,
                mergeFuel m (RecordField.fschema p.1) p.2 = .ok cc →
                Schema.mergeSafeB cc = true := by
              intro p hp cc hcc
              have hp1 : p.1 ∈ fs1 := by
                rw [← a1]
                exact List.mem_map_of_mem Prod.fst hp
              refine ih _ _ _ hcc (hf1safe p.1 hp1) ?_
              rcases a6 p hp with hnull | ⟨g, hg, hgf⟩
              · rw [hnull]; rfl
              · rw [hgf]; exact hf2safe g hg
            obtain ⟨hlen', hsafe'⟩ := mergePairsGo_safe m ps fs1' hGo hpairsafe
            have hexsafe : ∀ e ∈ exx, ∀ cc,
                mergeFuel m Schema.null (RecordField.fschema e.2) = .ok cc →
                Schema.mergeSafeB cc = true := by
              intro e he cc hcc
              refine ih _ _ _ hcc rfl ?_
              rcases c3 e he with hnull | ⟨g, hg, hgf⟩
              · rw [hnull]; rfl
              · rw [hgf]
                rcases a7 g hg with h7 | ⟨g0, hg0, hg0f⟩
                · rw [h7]; rfl
                · rw [hg0f]; exact hf2safe g0 hg0
            have hb1' : ∀ q ∈ lk1, q.2 < fs1'.length := by
              intro q hq
              rw [hlen']
              have hps : ps.length = fs1.length := by
                rw [← a1]
                simp
              rw [hps]
              exact hb1 q hq
            obtain ⟨hbout, hfout⟩ :=
              mergeLeftoverGo_safe m exx fs1' lk1 fs'' lk' hLGo hexsafe hb1' hsafe'
            exact mergeSafeB_record_intro _ _ _ _ hbout hfout
      · -- Union × Union
        rename_i us1 us2
        obtain ⟨hnd1, hnu1, hsafe1⟩ := mergeSafeB_union_elim us1 h1
        obtain ⟨hnd2, hnu2, hsafe2⟩ := mergeSafeB_union_elim us2 h2
        obtain ⟨merged, hBG, h⟩ := bindExceptOk.mp h
        obtain ⟨vs', hUN, h⟩ := bindExceptOk.mp h
        have hveq := unionNew_ok _ _ hUN
        simp only [Except.ok.injEq] at h
        subst h
        rw [hveq]
        have hne : ∀ p ∈ (bucketRemove (buildBuckets us1 us2) SchemaKind.null).2,
            p.2 ≠ [] :=
          fun p hp => buildBuckets_nonempty us1 us2 p
            (bucketRemove_mem SchemaKind.null (buildBuckets us1 us2) p hp)
        have hkind : ∀ p ∈ (bucketRemove (buildBuckets us1 us2) SchemaKind.null).2,
            ∀ s ∈ p.2, s.kind = p.1 :=
          fun p hp => buildBuckets_mem_kind us1 us2 p
            (bucketRemove_mem SchemaKind.null (buildBuckets us1 us2) p hp)
        have hsafeAll : ∀ p ∈ buildBuckets us1 us2, ∀ s ∈ p.2,
            Schema.mergeSafeB s = true :=
          buildBuckets_mem_pred _ us1 us2 hsafe1 hsafe2
        have hnuAll : ∀ p ∈ buildBuckets us1 us2, ∀ s ∈ p.2, s.isUnionB = false :=
          buildBuckets_mem_pred _ us1 us2 hnu1 hnu2
        have hknu : ∀ p ∈ (bucketRemove (buildBuckets us1 us2) SchemaKind.null).2,
            p.1 ≠ SchemaKind.union := by
          intro p hp
          have hpb : p ∈ buildBuckets us1 us2 :=
            bucketRemove_mem SchemaKind.null (buildBuckets us1 us2) p hp
          cases hps : p.2 with
          | nil => exact absurd hps (hne p hp)
          | cons s rest2 =>
              have hsm : s ∈ p.2 := by rw [hps]; simp
              have hk := hkind p hp s hsm
              have hu := hnuAll p hpb s hsm
              rw [← hk]
              intro habs
              rw [(Schema.kind_eq_union_iff s).mp habs] at hu
              simp at hu
        have hknn : ∀ p ∈ (bucketRemove (buildBuckets us1 us2) SchemaKind.null).2,
            p.1 ≠ SchemaKind.null :=
          bucketRemove_key_ne SchemaKind.null (buildBuckets us1 us2)
            (buildBuckets_keys_nodup us1 us2)
        have hknd : (((bucketRemove (buildBuckets us1 us2) SchemaKind.null).2).map
            Prod.fst).Nodup :=
          bucketRemove_keys_nodup SchemaKind.null (buildBuckets us1 us2)
            (buildBuckets_keys_nodup us1 us2)
        have hmemSafe : ∀ p ∈ (bucketRemove (buildBuckets us1 us2) SchemaKind.null).2,
            ∀ s ∈ p.2, Schema.mergeSafeB s = true :=
          fun p hp => hsafeAll p
            (bucketRemove_mem SchemaKind.null (buildBuckets us1 us2) p hp)
        have hokSafe : ∀ p ∈ (bucketRemove (buildBuckets us1 us2) SchemaKind.null).2,
            ∀ s t cc, mergeFuel m s t = .ok cc → s ∈ p.2 → t ∈ p.2 →
            Schema.mergeSafeB cc = true := by
          intro p hp s t cc hcc hs ht
          exact ih s t cc hcc (hmemSafe p hp s hs) (hmemSafe p hp t ht)
        cases hr0 : (bucketRemove (buildBuckets us1 us2) SchemaKind.null).1 with
        | some nb =>
            simp only [hr0] at hBG
            obtain ⟨extra, hres, hkx⟩ := mergeBucketsGo_kinds m _ _ merged hBG hkind
            have hsafeRes : ∀ e ∈ merged, Schema.mergeSafeB e = true := by
              refine mergeBucketsGo_safe m _ _ merged hBG hmemSafe hokSafe ?_
              intro e he
              simp at he
              rw [he]
              rfl
            have hnuRes : ∀ e ∈ merged, e.isUnionB = false := by
              intro e he
              rw [hres] at he
              rcases List.mem_append.mp he with he | he
              · simp at he
                simp [he, Schema.isUnionB]
              · have hkm : e.kind ∈ extra.map Schema.kind :=
                  List.mem_map_of_mem Schema.kind he
                rw [hkx] at hkm
                simp only [List.mem_map] at hkm
                obtain ⟨p, hp, hpk⟩ := hkm
                cases hbe : e.isUnionB
                · rfl
                · exact absurd (hpk.trans ((Schema.kind_eq_union_iff e).mpr hbe))
                    (hknu p hp)
            have hndRes : (merged.map Schema.kind).Nodup := by
              rw [hres]
              simp only [List.map_append, List.map_cons, List.map_nil]
              rw [hkx]
              show (Schema.kind Schema.null ::
                ((bucketRemove (buildBuckets us1 us2) SchemaKind.null).2).map
                  Prod.fst).Nodup
              rw [List.nodup_cons]
              refine ⟨?_, hknd⟩
              simp only [List.mem_map]
              rintro ⟨p, hp, hpk⟩
              exact hknn p hp hpk
            exact mergeSafeB_union_intro merged hndRes hnuRes hsafeRes
        | none =>
            simp only [hr0] at hBG
            obtain ⟨extra, hres, hkx⟩ := mergeBucketsGo_kinds m _ _ merged hBG hkind
            have hsafeRes : ∀ e ∈ merged, Schema.mergeSafeB e = true := by
              refine mergeBucketsGo_safe m _ _ merged hBG hmemSafe hokSafe ?_
              intro e he
              simp at he
            have hnuRes : ∀ e ∈ merged, e.isUnionB = false := by
              intro e he
              rw [hres] at he
              simp only [List.nil_append] at he
              have hkm : e.kind ∈ extra.map Schema.kind :=
                List.mem_map_of_mem Schema.kind he
              rw [hkx] at hkm
              simp only [List.mem_map] at hkm
              obtain ⟨p, hp, hpk⟩ := hkm
              cases hbe : e.isUnionB
              · rfl
              · exact absurd (hpk.trans ((Schema.kind_eq_union_iff e).mpr hbe))
                  (hknu p hp)
            have hndRes : (merged.map Schema.kind).Nodup := by
              rw [hres]
              simp only [List.nil_append]
              rw [hkx]
              exact hknd
            exact mergeSafeB_union_intro merged hndRes hnuRes hsafeRes
      · -- Union × S
        rename_i us1 hbu
        obtain ⟨hnd1, hnu1, hsafe1⟩ := mergeSafeB_union_elim us1 h1
        have hnub : b.isUnionB = false := by
          cases b <;> first | rfl | exact ((hbu _ rfl).elim)
        split at h
        · split at h
          · exact absurd h (by simp)
          · rename_i y i hfind x s1 hget
            obtain ⟨m', hm, h⟩ := bindExceptOk.mp h
            simp only [Except.ok.injEq] at h
            subst h
            have hmem : s1 ∈ us1 := List.get?_mem hget
            obtain ⟨v, hgv, hkv⟩ := findSchemaKind_some us1 b.kind _ hfind
            have hvs1 : v = s1 := by
              rw [hget] at hgv
              exact (Option.some.inj hgv).symm ▸ rfl
            have hks1 : s1.kind = b.kind := by
              rw [← hvs1]
              exact hkv
            have hsafem : Schema.mergeSafeB m' = true :=
              ih s1 b m' hm (hsafe1 s1 hmem) h2
            have hkm : m'.kind = s1.kind := by
              have := mergeFuel_kind m s1 b m' hm
              rw [hks1] at this
              simp only [if_pos rfl] at this
              rw [hks1]
              exact this
            have hs1nu : s1.kind ≠ SchemaKind.union := by
              intro habs
              have := hnu1 s1 hmem
              rw [(Schema.kind_eq_union_iff s1).mp habs] at this
              simp at this
            refine mergeSafeB_union_intro _ ?_ ?_ ?_
            · rw [List.map_set]
              have : (us1.map Schema.kind).get? i = some s1.kind := by
                rw [List.get?_map, hget]
                rfl
              rw [hkm]
              rw [setGetSelf _ _ _ this]
              exact hnd1
            · intro v' hv'
              rcases List.mem_or_eq_of_mem_set hv' with hv' | hv'
              · exact hnu1 v' hv'
              · subst hv'
                cases hbe : v'.isUnionB
                · rfl
                · exact absurd (hkm.symm.trans ((Schema.kind_eq_union_iff v').mpr hbe)) hs1nu
            · intro v' hv'
              rcases List.mem_or_eq_of_mem_set hv' with hv' | hv'
              · exact hsafe1 v' hv'
              · subst hv'
                exact hsafem
        · rename_i hfind
          simp only [Except.ok.injEq] at h
          subst h
          refine mergeSafeB_union_intro _ ?_ ?_ ?_
          · simp only [List.map_append, List.map_cons, List.map_nil]
            rw [List.nodup_append]
            refine ⟨hnd1, by simp, ?_⟩
            intro k hk
            simp only [List.mem_cons, List.not_mem_nil, or_false]
            simp only [List.mem_map] at hk
            obtain ⟨v, hv, hvk⟩ := hk
            intro habs
            have := (findSchemaKind_none_iff us1 b.kind).mp hfind v hv
            rw [← habs] at this
            exact this hvk
          · intro v hv
            rcases List.mem_append.mp hv with hv | hv
            · exact hnu1 v hv
            · simp only [List.mem_cons, List.not_mem_nil, or_false] at hv
              rw [hv]
              exact hnub
          · intro v hv
            rcases List.mem_append.mp hv with hv | hv
            · exact hsafe1 v hv
            · simp only [List.mem_cons, List.not_mem_nil, or_false] at hv
              rw [hv]
              exact h2
      · -- S × Union
        rename_i us1 hau hbu
        obtain ⟨hnd1, hnu1, hsafe1⟩ := mergeSafeB_union_elim us1 h2
        have hnua : a.isUnionB = false := by
          cases a <;> first | rfl | exact ((hau _ rfl).elim)
        split at h
        · split at h
          · exact absurd h (by simp)
          · rename_i y i hfind x s1 hget
            obtain ⟨m', hm, h⟩ := bindExceptOk.mp h
            simp only [Except.ok.injEq] at h
            subst h
            have hmem : s1 ∈ us1 := List.get?_mem hget
            obtain ⟨v, hgv, hkv⟩ := findSchemaKind_some us1 a.kind _ hfind
            have hvs1 : v = s1 := by
              rw [hget] at hgv
              exact (Option.some.inj hgv).symm ▸ rfl
            have hks1 : s1.kind = a.kind := by
              rw [← hvs1]
              exact hkv
            have hsafem : Schema.mergeSafeB m' = true :=
              ih s1 a m' hm (hsafe1 s1 hmem) h1
            have hkm : m'.kind = s1.kind := by
              have := mergeFuel_kind m s1 a m' hm
              rw [hks1] at this
              simp only [if_pos rfl] at this
              rw [hks1]
              exact this
            have hs1nu : s1.kind ≠ SchemaKind.union := by
              intro habs
              have := hnu1 s1 hmem
              rw [(Schema.kind_eq_union_iff s1).mp habs] at this
              simp at this
            refine mergeSafeB_union_intro _ ?_ ?_ ?_
            · rw [List.map_set]
              have : (us1.map Schema.kind).get? i = some s1.kind := by
                rw [List.get?_map, hget]
                rfl
              rw [hkm]
              rw [setGetSelf _ _ _ this]
              exact hnd1
            · intro v' hv'
              rcases List.mem_or_eq_of_mem_set hv' with hv' | hv'
              · exact hnu1 v' hv'
              · subst hv'
                cases hbe : v'.isUnionB
                · rfl
                · exact absurd (hkm.symm.trans ((Schema.kind_eq_union_iff v').mpr hbe)) hs1nu
            · intro v' hv'
              rcases List.mem_or_eq_of_mem_set hv' with hv' | hv'
              · exact hsafe1 v' hv'
              · subst hv'
                exact hsafem
        · rename_i hfind
          simp only [Except.ok.injEq] at h
          subst h
          refine mergeSafeB_union_intro _ ?_ ?_ ?_
          · simp only [List.map_append, List.map_cons, List.map_nil]
            rw [List.nodup_append]
            refine ⟨hnd1, by simp, ?_⟩
            intro k hk
            simp only [List.mem_cons, List.not_mem_nil, or_false]
            simp only [List.mem_map] at hk
            obtain ⟨v, hv, hvk⟩ := hk
            intro habs
            have := (findSchemaKind_none_iff us1 a.kind).mp hfind v hv
            rw [← habs] at this
            exact this hvk
          · intro v hv
            rcases List.mem_append.mp hv with hv | hv
            · exact hnu1 v hv
            · simp only [List.mem_cons, List.not_mem_nil, or_false] at hv
              rw [hv]
              exact hnua
          · intro v hv
            rcases List.mem_append.mp hv with hv | hv
            · exact hsafe1 v hv
            · simp only [List.mem_cons, List.not_mem_nil, or_false] at hv
              rw [hv]
              exact h1
      · -- Array × Array
        rename_i s1 s2
        obtain ⟨m', hm, h⟩ := bindExceptOk.mp h
        simp only [Except.ok.injEq] at h
        subst h
        exact ih s1 s2 m' hm h1 h2
      · -- Map × Map
        rename_i s1 s2
        obtain ⟨m', hm, h⟩ := bindExceptOk.mp h
        simp only [Except.ok.injEq] at h
        subst h
        exact ih s1 s2 m' hm h1 h2
      · -- equal kinds / mixed
        rename_i s1 s2 hau hbu hrr huu harr hmap
        split at h
        · simp only [Except.ok.injEq] at h
          subst h
          exact h1
        · rename_i hkneq
          split at h
          · exact absurd h (by simp)
          · rename_i vs hUN
            simp only [Except.ok.injEq] at h
            subst h
            have hvs := unionNew_ok _ _ hUN
            have hnua : a.isUnionB = false := by
              cases a <;> first | rfl | exact ((hau _ rfl).elim)
            have hnub : b.isUnionB = false := by
              cases b <;> first | rfl | exact ((hbu _ rfl).elim)
            subst hvs
            by_cases hn : a.isNull
            · rw [if_pos hn]
              refine mergeSafeB_union_intro _ ?_ ?_ ?_
              · simp only [List.map_cons, List.map_nil]
                simp [hkneq]
              · intro v hv
                rcases List.mem_cons.mp hv with hv | hv
                · rw [hv]; exact hnua
                · simp only [List.mem_cons, List.not_mem_nil, or_false] at hv
                  rw [hv]; exact hnub
              · intro v hv
                rcases List.mem_cons.mp hv with hv | hv
                · rw [hv]; exact h1
                · simp only [List.mem_cons, List.not_mem_nil, or_false] at hv
                  rw [hv]; exact h2
            · rw [if_neg hn]
              refine mergeSafeB_union_intro _ ?_ ?_ ?_
              · simp only [List.map_cons, List.map_nil]
                simp
                exact fun habs => hkneq habs.symm
              · intro v hv
                rcases List.mem_cons.mp hv with hv | hv
                · rw [hv]; exact hnub
                · simp only [List.mem_cons, List.not_mem_nil, or_false] at hv
                  rw [hv]; exact hnua
              · intro v hv
                rcases List.mem_cons.mp hv with hv | hv
                · rw [hv]; exact h2
                · simp only [List.mem_cons, List.not_mem_nil, or_false] at hv
                  rw [hv]; exact h1

theorem vszA_mem (items : List JsonValue) :
    ∀ v ∈ items, JsonValue.vsz v ≤ JsonValue.vszA items := by
  induction items with
  | nil => intro v hv; simp at hv
  | cons x rest ih =>
      intro v hv
      rcases List.mem_cons.mp hv with hv | hv
      · subst hv
        simp only [JsonValue.vszA]
        omega
      · have := ih v hv
        simp only [JsonValue.vszA]
        omega

theorem vszO_mem (entries : List (String × JsonValue)) :
    ∀ e ∈ entries, JsonValue.vsz e.2 ≤ JsonValue.vszO entries := by
  induction entries with
  | nil => intro e he; simp at he
  | cons x rest ih =>
      obtain ⟨k, v⟩ := x
      intro e he
      rcases List.mem_cons.mp he with he | he
      · subst he
        simp only [JsonValue.vszO]
        omega
      · have := ih e he
        simp only [JsonValue.vszO]
        omega

/-- `merge_schemas` succeeds on any two MergeSafe inputs and its output is
again MergeSafe. -/
theorem merge_schemas_total (a b : Schema)
    (h1 : Schema.mergeSafeB a = true) (h2 : Schema.mergeSafeB b = true) :
    ∃ c, merge_schemas a b = .ok c ∧ Schema.mergeSafeB c = true := by
  obtain ⟨c, hc⟩ := mergeFuel_total (Schema.sz a + Schema.sz b) a b (Nat.le_refl _) h1 h2
  exact ⟨c, hc, mergeFuel_safe _ a b c hc h1 h2⟩

theorem inferFoldGo_total (inf : JsonValue → String → Except MErr Schema) :
    ∀ (els : List JsonValue) (name : String) (base : Schema),
    Schema.mergeSafeB base = true →
    (∀ el ∈ els, ∃ s, inf el name = .ok s ∧ Schema.mergeSafeB s = true) →
    ∃ out, inferFoldGo inf els name base = .ok out ∧
      Schema.mergeSafeB out = true := by
  intro els
  induction els with
  | nil => intro name base hb _; exact ⟨base, rfl, hb⟩
  | cons el rest ih =>
      intro name base hb hels
      obtain ⟨s, hs, hsafe⟩ := hels el (by simp)
      obtain ⟨base', hm, hbsafe⟩ := merge_schemas_total base s hb hsafe
      obtain ⟨out, hout, hosafe⟩ :=
        ih name base' hbsafe (fun e he => hels e (by simp [he]))
      refine ⟨out, ?_, hosafe⟩
      show (do
        let s ← inf el name
        let base' ← merge_schemas base s
        inferFoldGo inf rest name base') = .ok out
      rw [hs]
      show (do
        let base' ← merge_schemas base s
        inferFoldGo inf rest name base') = .ok out
      rw [hm]
      exact hout

theorem inferObjGo_total (inf : JsonValue → String → Except MErr Schema) :
    ∀ (entries : List (String × JsonValue)) (fs : List RecordField),
    (∀ f ∈ fs, Schema.mergeSafeB (RecordField.fschema f) = true) →
    (∀ e ∈ entries, ∃ s, inf e.2 e.1 = .ok s ∧ Schema.mergeSafeB s = true) →
    ∃ out, inferObjGo inf entries fs = .ok out ∧
      ∀ f ∈ out, Schema.mergeSafeB (RecordField.fschema f) = true := by
  intro entries
  induction entries with
  | nil => intro fs hfs _; exact ⟨fs, rfl, hfs⟩
  | cons e rest ih =>
      obtain ⟨fieldName, v⟩ := e
      intro fs hfs hents
      obtain ⟨s, hs, hsafe⟩ := hents (fieldName, v) (by simp)
      have hfs' : ∀ f ∈ fs ++ [(fieldName, none, s, fs.length)],
          Schema.mergeSafeB (RecordField.fschema f) = true := by
        intro f hf
        rcases List.mem_append.mp hf with hf | hf
        · exact hfs f hf
        · simp only [List.mem_cons, List.not_mem_nil, or_false] at hf
          rw [hf]
          exact hsafe
      obtain ⟨out, hout, hosafe⟩ :=
        ih (fs ++ [(fieldName, none, s, fs.length)]) hfs'
          (fun e' he' => hents e' (by simp [he']))
      refine ⟨out, ?_, hosafe⟩
      show (do
        let s ← inf v fieldName
        inferObjGo inf rest (fs ++ [(fieldName, none, s, fs.length)])) = .ok out
      rw [hs]
      exact hout

theorem buildLookupGo_bounds (m : Nat) :
    ∀ (l : List (Nat × RecordField)) (lk : List (String × Nat)),
    (∀ q ∈ lk, q.2 < m) → (∀ p ∈ l, p.1 < m) →
    ∀ q ∈ l.foldl (fun lk p => lookupInsert lk (RecordField.fname p.2) p.1) lk,
      q.2 < m := by
  intro l
  induction l with
  | nil => intro lk hlk _ q hq; exact hlk q hq
  | cons p rest ih =>
      intro lk hlk hl q hq
      simp only [List.foldl_cons] at hq
      refine ih (lookupInsert lk (RecordField.fname p.2) p.1) ?_
        (fun p' hp' => hl p' (by simp [hp'])) q hq
      intro q' hq'
      rcases lookupInsert_mem lk (RecordField.fname p.2) p.1 q' hq' with h | h
      · exact hlk q' h
      · rw [h]
        exact hl p (by simp)

theorem buildLookup_bounds (fs : List RecordField) :
    ∀ q ∈ buildLookup fs, q.2 < fs.length := by
  intro q hq
  refine buildLookupGo_bounds fs.length fs.enum [] (by simp) ?_ q hq
  intro p hp
  exact List.fst_lt_of_mem_enum hp

/-- `infer_schema` (with enough fuel) always succeeds, and every schema it
produces is MergeSafe (well-formed unions, in-bounds record lookups). -/
theorem inferFuel_total : ∀ (n : Nat) (v : JsonValue) (name : String),
    JsonValue.vsz v ≤ n →
    ∃ s, inferFuel n v name = .ok s ∧ Schema.mergeSafeB s = true := by
  intro n
  induction n with
  | zero =>
      intro v name hsz
      cases v <;> simp [JsonValue.vsz] at hsz
  | succ m ih =>
      intro v name hsz
      cases v with
      | null => exact ⟨.null, rfl, rfl⟩
      | short s => exact ⟨.long, rfl, rfl⟩
      | str s => exact ⟨.string, rfl, rfl⟩
      | boolean b => exact ⟨.boolean, rfl, rfl⟩
      | number pos mant expo =>
          by_cases he : expo = 0
          · refine ⟨.long, ?_, rfl⟩
            simp [inferFuel, he]
          · refine ⟨.double, ?_, rfl⟩
            simp [inferFuel, he]
      | array items =>
          cases items with
          | nil => exact ⟨.array .null, rfl, rfl⟩
          | cons first rest =>
              have hszm : JsonValue.vsz first + JsonValue.vszA rest ≤ m := by
                simp only [JsonValue.vsz, JsonValue.vszA] at hsz
                omega
              obtain ⟨initial, hinit, hisafe⟩ := ih first name (by omega)
              have hrest : ∀ el ∈ rest, ∃ s, inferFuel m el name = .ok s ∧
                  Schema.mergeSafeB s = true := by
                intro el hel
                have := vszA_mem rest el hel
                exact ih el name (by omega)
              obtain ⟨items', hfold, hfsafe⟩ :=
                inferFoldGo_total (inferFuel m) rest name initial hisafe hrest
              refine ⟨.array items', ?_, hfsafe⟩
              show (do
                let initial ← inferFuel m first name
                let items ← inferFoldGo (inferFuel m) rest name initial
                Except.ok (Schema.array items)) = .ok (.array items')
              rw [hinit]
              show (do
                let items ← inferFoldGo (inferFuel m) rest name initial
                Except.ok (Schema.array items)) = .ok (.array items')
              rw [hfold]
              rfl
      | object entries =>
          have hents : ∀ e ∈ entries, ∃ s, inferFuel m e.2 e.1 = .ok s ∧
              Schema.mergeSafeB s = true := by
            intro e he
            have := vszO_mem entries e he
            simp only [JsonValue.vsz] at hsz
            exact ih e.2 e.1 (by omega)
          obtain ⟨fields, hobj, hfsafe⟩ :=
            inferObjGo_total (inferFuel m) entries [] (by simp) hents
          refine ⟨.record name none fields (buildLookup fields), ?_, ?_⟩
          · show (do
              let fields ← inferObjGo (inferFuel m) entries []
              Except.ok (Schema.record name none fields (buildLookup fields))) =
                .ok (.record name none fields (buildLookup fields))
            rw [hobj]
            rfl
          · exact mergeSafeB_record_intro name none fields (buildLookup fields)
              (buildLookup_bounds fields) hfsafe

/-- C9 counterexample: both records satisfy the union well-formedness
invariant (they contain no unions at all), yet merging them hits the
out-of-bounds index panic of the Record × Record branch, because the
right record's lookup points outside its field vector.  Union
well-formedness alone therefore does not make `merge_schemas` total. -/
theorem C9_counterexample :
    Schema.unionsOKB (.record "a" none [("x", none, .long, 0)] [("x", 0)]) = true ∧
    Schema.unionsOKB (.record "b" none [] [("x", 5)]) = true ∧
    merge_schemas (.record "a" none [("x", none, .long, 0)] [("x", 0)])
      (.record "b" none [] [("x", 5)]) = .error .panicErr := by
  refine ⟨rfl, rfl, rfl⟩

/-- C9 (amended): `infer_schema` returns `Ok` on every input value (and its
output satisfies the MergeSafe invariant), and `merge_schemas` returns `Ok`
on every pair of schemas satisfying the MergeSafe invariant: union
well-formedness together with in-bounds record lookups.  Union
well-formedness alone is not enough (see the counterexample). -/
theorem C9_totality :
    (∀ (v : JsonValue) (name : String),
      ∃ s, infer_schema v name = .ok s ∧ Schema.mergeSafeB s = true) ∧
    (∀ a b : Schema, Schema.mergeSafeB a = true → Schema.mergeSafeB b = true →
      ∃ c, merge_schemas a b = .ok c) := by
  constructor
  · intro v name
    exact inferFuel_total _ v name (Nat.le_refl _)
  · intro a b h1 h2
    obtain ⟨c, hc, _⟩ := merge_schemas_total a b h1 h2
    exact ⟨c, hc⟩

/-- Witness for C9: the amended totality applied to a concrete MergeSafe
pair. -/
theorem C9_witness :
    ∃ c, merge_schemas (Schema.union [Schema.null, Schema.long]) Schema.string
      = .ok c :=
  C9_totality.2 (Schema.union [Schema.null, Schema.long]) Schema.string
    (by decide) (by decide)

theorem lookupRemove_none_of_not_mem (lk : List (String × Nat)) (key : String)
    (h : key ∉ lk.map Prod.fst) : (lookupRemove lk key).1 = none := by
  induction lk with
  | nil => rfl
  | cons p rest ih =>
      obtain ⟨k', v'⟩ := p
      have hk : k' ≠ key := by
        intro habs
        exact h (by simp [habs])
      simp only [lookupRemove, if_neg hk]
      exact ih (fun habs => h (List.mem_cons_of_mem _ habs))

theorem lookupRemove_mem_rest (lk : List (String × Nat)) (key : String)
    (q : String × Nat) (hq : q ∈ lk) (hne : q.1 ≠ key) :
    q ∈ (lookupRemove lk key).2 := by
  induction lk with
  | nil => simp at hq
  | cons p rest ih =>
      obtain ⟨k', v'⟩ := p
      by_cases hk : k' = key
      · simp only [lookupRemove, if_pos hk]
        rcases List.mem_cons.mp hq with hq | hq
        · exact absurd (by rw [hq] at hne ⊢; exact hk) hne
        · exact hq
      · simp only [lookupRemove, if_neg hk]
        rcases List.mem_cons.mp hq with hq | hq
        · rw [hq]; simp
        · exact List.mem_cons_of_mem _ (ih hq)

theorem lookupRemove_keys_nodup (lk : List (String × Nat)) (key : String)
    (h : (lk.map Prod.fst).Nodup) :
    (((lookupRemove lk key).2).map Prod.fst).Nodup := by
  induction lk with
  | nil => simp [lookupRemove]
  | cons p rest ih =>
      obtain ⟨k', v'⟩ := p
      simp only [List.map_cons, List.nodup_cons] at h
      by_cases hk : k' = key
      · simp only [lookupRemove, if_pos hk]
        exact h.2
      · simp only [lookupRemove, if_neg hk, List.map_cons, List.nodup_cons]
        refine ⟨?_, ih h.2⟩
        intro habs
        simp only [List.mem_map] at habs
        obtain ⟨q, hq, hqk⟩ := habs
        exact h.1 (hqk ▸ List.mem_map_of_mem Prod.fst
          (lookupRemove_rest_mem rest key q hq))

theorem lookupFind_mem (lk : List (String × Nat)) (k : String) (v : Nat)
    (h : lookupFind lk k = some v) : (k, v) ∈ lk := by
  induction lk with
  | nil => simp [lookupFind] at h
  | cons p rest ih =>
      obtain ⟨k', v'⟩ := p
      by_cases hk : k' = k
      · subst hk
        rw [lookupFind, List.find?_cons_of_pos rest (by simp)] at h
        simp only [Option.map_some', Option.some.injEq] at h
        subst h
        simp
      · rw [lookupFind, List.find?_cons_of_neg rest (by simp [hk])] at h
        exact List.mem_cons_of_mem _ (ih h)

theorem lookupFind_of_mem_nodup (lk : List (String × Nat)) (k : String) (v : Nat)
    (hmem : (k, v) ∈ lk) (hnd : (lk.map Prod.fst).Nodup) :
    lookupFind lk k = some v := by
  induction lk with
  | nil => simp at hmem
  | cons p rest ih =>
      obtain ⟨k', v'⟩ := p
      simp only [List.map_cons, List.nodup_cons] at hnd
      rcases List.mem_cons.mp hmem with hq | hq
      · simp only [Prod.mk.injEq] at hq
        obtain ⟨h1, h2⟩ := hq
        subst h1
        subst h2
        rw [lookupFind, List.find?_cons_of_pos rest (by simp)]
        rfl
      · have hk : k' ≠ k := by
          intro habs
          subst habs
          exact hnd.1 (List.mem_map_of_mem Prod.fst hq)
        rw [lookupFind, List.find?_cons_of_neg rest (by simp [hk])]
        exact ih hq hnd.2

/-- Under record-lookup consistency, every lookup entry points at the field
bearing its key. -/
theorem recordConsistent_entry (fs : List RecordField) (lk : List (String × Nat))
    (hc : recordConsistent fs lk) :
    ∀ q ∈ lk, ∃ f, fs.get? q.2 = some f ∧ RecordField.fname f = q.1 := by
  obtain ⟨h1, h2, h3, h4⟩ := hc
  intro q hq
  have hname := h2 q hq
  simp only [List.mem_map] at hname
  obtain ⟨f, hf, hfn⟩ := hname
  obtain ⟨j, hj⟩ := List.mem_iff_get?.mp hf
  have henum : (j, f) ∈ fs.enum := List.mem_enum_iff_get?.mpr hj
  have hfind : lookupFind lk (RecordField.fname f) = some j := (h1 (j, f) henum).2
  have hmem : (RecordField.fname f, j) ∈ lk := lookupFind_mem lk _ j hfind
  have hqv : q.2 = j := by
    have hfind2 : lookupFind lk q.1 = some q.2 := by
      obtain ⟨qk, qv⟩ := q
      exact lookupFind_of_mem_nodup lk qk qv hq h4
    rw [← hfn] at hfind2
    rw [hfind] at hfind2
    exact (Option.some.inj hfind2).symm
  subst hqv
  exact ⟨f, hj, hfn.symm ▸ rfl⟩

theorem recordConsistent_bounds (fs : List RecordField) (lk : List (String × Nat))
    (hc : recordConsistent fs lk) : ∀ q ∈ lk, q.2 < fs.length := by
  intro q hq
  obtain ⟨f, hf, _⟩ := recordConsistent_entry fs lk hc q hq
  exact List.get?_eq_some.mp hf |>.1

/-- A field of `fields1` whose name is absent from `lookup2` is paired with
`Null` by the first Record × Record loop. -/
theorem extractPairs_pair_null (fs1 : List RecordField) :
    ∀ (fs2 : List RecordField) (lk2 : List (String × Nat))
      (ps : List (RecordField × Schema)) (fs2x : List RecordField)
      (lk2x : List (String × Nat)) (f1 : RecordField),
    extractPairs fs1 fs2 lk2 = some (ps, fs2x, lk2x) →
    f1 ∈ fs1 → RecordField.fname f1 ∉ lk2.map Prod.fst →
    (f1, Schema.null) ∈ ps := by
  induction fs1 with
  | nil => intro fs2 lk2 ps fs2x lk2x f1 h hf1; simp at hf1
  | cons g rest ih =>
      intro fs2 lk2 ps fs2x lk2x f1 h hf1 hnot
      rcases List.mem_cons.mp hf1 with hf1 | hf1
      · subst hf1
        have hr : (lookupRemove lk2 (RecordField.fname f1)).1 = none :=
          lookupRemove_none_of_not_mem lk2 _ hnot
        simp only [extractPairs, hr] at h
        cases hrec : extractPairs rest fs2 (lookupRemove lk2 (RecordField.fname f1)).2 with
        | none => rw [hrec] at h; exact absurd h (by simp)
        | some out =>
            obtain ⟨ps', fs2x', lk2x'⟩ := out
            rw [hrec] at h
            simp only [Option.some.injEq, Prod.mk.injEq] at h
            rw [← h.1]
            simp
      · have hsub : ∀ q ∈ (lookupRemove lk2 (RecordField.fname g)).2, q ∈ lk2 :=
          fun q hq => lookupRemove_rest_mem lk2 _ q hq
        have hnot' : RecordField.fname f1 ∉
            ((lookupRemove lk2 (RecordField.fname g)).2).map Prod.fst := by
          intro habs
          simp only [List.mem_map] at habs
          obtain ⟨q, hq, hqk⟩ := habs
          exact hnot (hqk ▸ List.mem_map_of_mem Prod.fst (hsub q hq))
        cases hr : (lookupRemove lk2 (RecordField.fname g)).1 with
        | some idx2 =>
            cases hf2 : fs2.get? idx2 with
            | none =>
                simp only [extractPairs, hr, hf2] at h
                exact absurd h (by simp)
            | some f2 =>
                cases hrec : extractPairs rest
                    (fs2.set idx2 (RecordField.setSchema f2 .null))
                    (lookupRemove lk2 (RecordField.fname g)).2 with
                | none =>
                    simp only [extractPairs, hr, hf2, hrec] at h
                    exact absurd h (by simp)
                | some out =>
                    obtain ⟨ps', fs2x', lk2x'⟩ := out
                    simp only [extractPairs, hr, hf2, hrec, Option.some.injEq,
                      Prod.mk.injEq] at h
                    rw [← h.1]
                    exact List.mem_cons_of_mem _ (ih _ _ _ _ _ f1 hrec hf1 hnot')
        | none =>
            cases hrec : extractPairs rest fs2
                (lookupRemove lk2 (RecordField.fname g)).2 with
            | none =>
                simp only [extractPairs, hr, hrec] at h
                exact absurd h (by simp)
            | some out =>
                obtain ⟨ps', fs2x', lk2x'⟩ := out
                simp only [extractPairs, hr, hrec, Option.some.injEq,
                  Prod.mk.injEq] at h
                rw [← h.1]
                exact List.mem_cons_of_mem _ (ih _ _ _ _ _ f1 hrec hf1 hnot')

/-- Each merged pair contributes the corresponding `field1` with its schema
replaced by the pairwise merge result. -/
theorem mergePairsGo_mem (mrg : Schema → Schema → Except MErr Schema) :
    ∀ (ps : List (RecordField × Schema)) (fs1' : List RecordField),
    mergePairsGo mrg ps = .ok fs1' →
    ∀ p ∈ ps, ∃ m, mrg (RecordField.fschema p.1) p.2 = .ok m ∧
      RecordField.setSchema p.1 m ∈ fs1' := by
  intro ps
  induction ps with
  | nil => intro fs1' h p hp; simp at hp
  | cons q rest ih =>
      obtain ⟨f1, s2⟩ := q
      intro fs1' h p hp
      obtain ⟨m, hm, h⟩ := bindExceptOk.mp h
      obtain ⟨tl, htl, h⟩ := bindExceptOk.mp h
      simp only [Except.ok.injEq] at h
      subst h
      rcases List.mem_cons.mp hp with hp | hp
      · subst hp
        exact ⟨m, hm, by simp⟩
      · obtain ⟨m', hm', hmem⟩ := ih tl htl p hp
        exact ⟨m', hm', List.mem_cons_of_mem _ hmem⟩

/-- The leftover loop only appends fields. -/
theorem mergeLeftoverGo_preserve (mrg : Schema → Schema → Except MErr Schema) :
    ∀ (ex : List (String × RecordField)) (fs : List RecordField)
      (lk : List (String × Nat)) (fs'' : List RecordField) (lk' : List (String × Nat)),
    mergeLeftoverGo mrg ex fs lk = .ok (fs'', lk') →
    ∀ f ∈ fs, f ∈ fs'' := by
  intro ex
  induction ex with
  | nil =>
      intro fs lk fs'' lk' h f hf
      simp only [mergeLeftoverGo, Except.ok.injEq, Prod.mk.injEq] at h
      rw [← h.1]
      exact hf
  | cons e rest ih =>
      obtain ⟨name, f2⟩ := e
      intro fs lk fs'' lk' h f hf
      obtain ⟨m, hm, h⟩ := bindExceptOk.mp h
      exact ih _ _ _ _ h f (List.mem_append_left _ hf)

theorem lookupRemove_some_mem (lk : List (String × Nat)) (key : String) (v : Nat)
    (h : (lookupRemove lk key).1 = some v) : (key, v) ∈ lk := by
  induction lk with
  | nil => simp [lookupRemove] at h
  | cons p rest ih =>
      obtain ⟨pk, pv⟩ := p
      by_cases hpk : pk = key
      · simp only [lookupRemove, if_pos hpk] at h
        simp only [Option.some.injEq] at h
        rw [← h, hpk]
        simp
      · simp only [lookupRemove, if_neg hpk] at h
        exact List.mem_cons_of_mem _ (ih h)

/-- The first Record × Record loop leaves alone the `fields2` slot (and the
`lookup2` entries) of a name that occurs in neither `fields1` nor, at that
index, under any other key. -/
theorem extractPairs_untouched (fs1 : List RecordField) :
    ∀ (fs2 : List RecordField) (lk2 : List (String × Nat))
      (ps : List (RecordField × Schema)) (fs2x : List RecordField)
      (lk2x : List (String × Nat)) (i : Nat) (k : String),
    extractPairs fs1 fs2 lk2 = some (ps, fs2x, lk2x) →
    (∀ q ∈ lk2, q.2 = i → q.1 = k) →
    k ∉ fs1.map RecordField.fname →
    fs2x.get? i = fs2.get? i ∧ ∀ q ∈ lk2, q.1 = k → q ∈ lk2x := by
  induction fs1 with
  | nil =>
      intro fs2 lk2 ps fs2x lk2x i k h hval hk
      simp only [extractPairs, Option.some.injEq, Prod.mk.injEq] at h
      obtain ⟨h1, h2, h3⟩ := h
      subst h2
      subst h3
      exact ⟨rfl, fun q hq _ => hq⟩
  | cons g rest ih =>
      intro fs2 lk2 ps fs2x lk2x i k h hval hk
      have hgk : RecordField.fname g ≠ k := by
        intro habs
        exact hk (by simp [habs])
      have hk' : k ∉ rest.map RecordField.fname := by
        intro habs
        exact hk (List.mem_cons_of_mem _ habs)
      have hval' : ∀ q ∈ (lookupRemove lk2 (RecordField.fname g)).2,
          q.2 = i → q.1 = k :=
        fun q hq => hval q (lookupRemove_rest_mem lk2 _ q hq)
      have hkeep : ∀ q ∈ lk2, q.1 = k →
          q ∈ (lookupRemove lk2 (RecordField.fname g)).2 := by
        intro q hq hqk
        refine lookupRemove_mem_rest lk2 _ q hq ?_
        rw [hqk]
        intro habs
        exact hgk habs.symm
      cases hr : (lookupRemove lk2 (RecordField.fname g)).1 with
      | some idx2 =>
          cases hf2 : fs2.get? idx2 with
          | none =>
              simp only [extractPairs, hr, hf2] at h
              exact absurd h (by simp)
          | some f2 =>
              cases hrec : extractPairs rest
                  (fs2.set idx2 (RecordField.setSchema f2 .null))
                  (lookupRemove lk2 (RecordField.fname g)).2 with
              | none =>
                  simp only [extractPairs, hr, hf2, hrec] at h
                  exact absurd h (by simp)
              | some out =>
                  obtain ⟨ps', fs2x', lk2x'⟩ := out
                  simp only [extractPairs, hr, hf2, hrec, Option.some.injEq,
                    Prod.mk.injEq] at h
                  obtain ⟨hps, hfs, hlk⟩ := h
                  subst hfs
                  subst hlk
                  have hine : idx2 ≠ i := by
                    intro habs
                    subst habs
                    have hrm : (RecordField.fname g, idx2) ∈ lk2 :=
                      lookupRemove_some_mem lk2 _ idx2 hr
                    exact hgk (hval (RecordField.fname g, idx2) hrm rfl)
                  obtain ⟨h1, h2⟩ := ih _ _ _ _ _ i k hrec hval' hk'
                  refine ⟨?_, fun q hq hqk => h2 q (hkeep q hq hqk) hqk⟩
                  rw [h1]
                  exact List.get?_set_ne _ _ hine
      | none =>
          cases hrec : extractPairs rest fs2
              (lookupRemove lk2 (RecordField.fname g)).2 with
          | none =>
              simp only [extractPairs, hr, hrec] at h
              exact absurd h (by simp)
          | some out =>
              obtain ⟨ps', fs2x', lk2x'⟩ := out
              simp only [extractPairs, hr, hrec, Option.some.injEq,
                Prod.mk.injEq] at h
              obtain ⟨hps, hfs, hlk⟩ := h
              subst hfs
              subst hlk
              obtain ⟨h1, h2⟩ := ih _ _ _ _ _ i k hrec hval' hk'
              exact ⟨h1, fun q hq hqk => h2 q (hkeep q hq hqk) hqk⟩

theorem extractPairs_keys_nodup (fs1 : List RecordField) :
    ∀ (fs2 : List RecordField) (lk2 : List (String × Nat))
      (ps : List (RecordField × Schema)) (fs2x : List RecordField)
      (lk2x : List (String × Nat)),
    extractPairs fs1 fs2 lk2 = some (ps, fs2x, lk2x) →
    (lk2.map Prod.fst).Nodup → (lk2x.map Prod.fst).Nodup := by
  induction fs1 with
  | nil =>
      intro fs2 lk2 ps fs2x lk2x h hnd
      simp only [extractPairs, Option.some.injEq, Prod.mk.injEq] at h
      rw [← h.2.2]
      exact hnd
  | cons g rest ih =>
      intro fs2 lk2 ps fs2x lk2x h hnd
      have hnd' : (((lookupRemove lk2 (RecordField.fname g)).2).map Prod.fst).Nodup :=
        lookupRemove_keys_nodup lk2 _ hnd
      cases hr : (lookupRemove lk2 (RecordField.fname g)).1 with
      | some idx2 =>
          cases hf2 : fs2.get? idx2 with
          | none =>
              simp only [extractPairs, hr, hf2] at h
              exact absurd h (by simp)
          | some f2 =>
              cases hrec : extractPairs rest
                  (fs2.set idx2 (RecordField.setSchema f2 .null))
                  (lookupRemove lk2 (RecordField.fname g)).2 with
              | none =>
                  simp only [extractPairs, hr, hf2, hrec] at h
                  exact absurd h (by simp)
              | some out =>
                  obtain ⟨ps', fs2x', lk2x'⟩ := out
                  simp only [extractPairs, hr, hf2, hrec, Option.some.injEq,
                    Prod.mk.injEq] at h
                  rw [← h.2.2]
                  exact ih _ _ _ _ _ hrec hnd'
      | none =>
          cases hrec : extractPairs rest fs2
              (lookupRemove lk2 (RecordField.fname g)).2 with
          | none =>
              simp only [extractPairs, hr, hrec] at h
              exact absurd h (by simp)
          | some out =>
              obtain ⟨ps', fs2x', lk2x'⟩ := out
              simp only [extractPairs, hr, hrec, Option.some.injEq,
                Prod.mk.injEq] at h
              rw [← h.2.2]
              exact ih _ _ _ _ _ hrec hnd'

/-- The leftover extraction pulls out exactly the field a remaining
`lookup2` entry points at, provided no other entry shares its index. -/
theorem extractLeftover_mem (lk2x : List (String × Nat)) :
    ∀ (fs2x : List RecordField) (ex : List (String × RecordField))
      (fsx : List RecordField) (k : String) (i : Nat) (f2 : RecordField),
    extractLeftover lk2x fs2x = some (ex, fsx) →
    (k, i) ∈ lk2x →
    (∀ q ∈ lk2x, q.2 = i → q.1 = k) →
    (lk2x.map Prod.fst).Nodup →
    fs2x.get? i = some f2 →
    (k, f2) ∈ ex := by
  induction lk2x with
  | nil => intro fs2x ex fsx k i f2 h hmem; simp at hmem
  | cons q rest ih =>
      obtain ⟨name, idx2⟩ := q
      intro fs2x ex fsx k i f2 h hmem hval hnd hget
      simp only [List.map_cons, List.nodup_cons] at hnd
      cases hf2 : fs2x.get? idx2 with
      | none =>
          simp only [extractLeftover, hf2] at h
          exact absurd h (by simp)
      | some g2 =>
          cases hrec : extractLeftover rest (fs2x.set idx2 dummyField) with
          | none =>
              simp only [extractLeftover, hf2, hrec] at h
              exact absurd h (by simp)
          | some out =>
              obtain ⟨ex', fsx'⟩ := out
              simp only [extractLeftover, hf2, hrec, Option.some.injEq,
                Prod.mk.injEq] at h
              rcases List.mem_cons.mp hmem with hq | hq
              · simp only [Prod.mk.injEq] at hq
                obtain ⟨hq1, hq2⟩ := hq
                subst hq1
                subst hq2
                rw [hget] at hf2
                rw [← h.1]
                simp only [Option.some.injEq] at hf2
                rw [hf2]
                simp
              · have hname : name ≠ k := by
                  intro habs
                  subst habs
                  exact hnd.1 (List.mem_map_of_mem Prod.fst hq)
                have hidx : idx2 ≠ i := by
                  intro habs
                  exact hname (hval (name, idx2) (by simp) habs)
                have hget' : (fs2x.set idx2 dummyField).get? i = some f2 := by
                  rw [List.get?_set_ne _ _ hidx]
                  exact hget
                rw [← h.1]
                refine List.mem_cons_of_mem _ ?_
                exact ih _ _ _ k i f2 hrec hq
                  (fun q' hq' => hval q' (List.mem_cons_of_mem _ hq')) hnd.2 hget'

/-- Each leftover entry contributes its field, with the nullable-merged
schema and its original name and default, to the final field vector. -/
theorem mergeLeftoverGo_mem (mrg : Schema → Schema → Except MErr Schema) :
    ∀ (ex : List (String × RecordField)) (fs : List RecordField)
      (lk : List (String × Nat)) (fs'' : List RecordField)
      (lk' : List (String × Nat)) (k : String) (f2 : RecordField),
    mergeLeftoverGo mrg ex fs lk = .ok (fs'', lk') →
    (k, f2) ∈ ex →
    ∃ m pos, mrg Schema.null (RecordField.fschema f2) = .ok m ∧
      RecordField.setSchemaPos f2 m pos ∈ fs'' := by
  intro ex
  induction ex with
  | nil => intro fs lk fs'' lk' k f2 h hmem; simp at hmem
  | cons e rest ih =>
      obtain ⟨name, g2⟩ := e
      intro fs lk fs'' lk' k f2 h hmem
      obtain ⟨m, hm, h⟩ := bindExceptOk.mp h
      rcases List.mem_cons.mp hmem with hq | hq
      · simp only [Prod.mk.injEq] at hq
        obtain ⟨hq1, hq2⟩ := hq
        subst hq2
        refine ⟨m, fs.length, hm, ?_⟩
        exact mergeLeftoverGo_preserve mrg rest _ _ _ _ h _
          (List.mem_append_right _ (by simp))
      · exact ih _ _ _ _ k f2 h hq

/-- Inversion of a successful Record × Record merge into its four stages. -/
theorem mergeFuel_record_inv (m : Nat) (n1 : String) (d1 : Option String)
    (fs1 : List RecordField) (lk1 : List (String × Nat))
    (n2 : String) (d2 : Option String) (fs2 : List RecordField)
    (lk2 : List (String × Nat)) (c : Schema)
    (h : mergeFuel (m + 1) (.record n1 d1 fs1 lk1) (.record n2 d2 fs2 lk2) = .ok c) :
    ∃ ps fs2x lk2x fs1' ex fsx fs'' lk',
      extractPairs fs1 fs2 lk2 = some (ps, fs2x, lk2x) ∧
      mergePairsGo (mergeFuel m) ps = .ok fs1' ∧
      extractLeftover lk2x fs2x = some (ex, fsx) ∧
      mergeLeftoverGo (mergeFuel m) ex fs1' lk1 = .ok (fs'', lk') ∧
      c = .record n1 d1 fs'' lk' := by
  simp only [mergeFuel] at h
  cases hEP : extractPairs fs1 fs2 lk2 with
  | none => rw [hEP] at h; exact absurd h (by simp)
  | some out =>
      obtain ⟨ps, fs2x, lk2x⟩ := out
      rw [hEP] at h
      obtain ⟨fs1', hPG, h⟩ := bindExceptOk.mp h
      cases hEL : extractLeftover lk2x fs2x with
      | none => rw [hEL] at h; exact absurd h (by simp)
      | some out2 =>
          obtain ⟨ex, fsx⟩ := out2
          rw [hEL] at h
          obtain ⟨pr, hLG, h⟩ := bindExceptOk.mp h
          obtain ⟨fs'', lk'⟩ := pr
          simp only [Except.ok.injEq] at h
          exact ⟨ps, fs2x, lk2x, fs1', ex, fsx, fs'', lk',
            rfl, hPG, hEL, hLG, h.symm⟩

/-- C1 (amended): merging two MergeSafe records that satisfy record-lookup
consistency, where a field name `k` occurs in exactly one of them, yields a
record containing a field named `k` whose schema is the nullable merge
`nullableCode` of the original field's schema — so it contains `Null` as a
variant whenever the original schema is not itself `Null` — and whose
default is the original field's default, unchanged (not set to `Null`). -/
theorem C1_absent_field (n1 n2 : String) (d1 d2 : Option String)
    (fs1 fs2 : List RecordField) (lk1 lk2 : List (String × Nat)) (k : String)
    (hc1 : recordConsistent fs1 lk1) (hc2 : recordConsistent fs2 lk2)
    (hs1 : Schema.mergeSafeB (.record n1 d1 fs1 lk1) = true)
    (hs2 : Schema.mergeSafeB (.record n2 d2 fs2 lk2) = true)
    (hone : (k ∈ fs1.map RecordField.fname ∧ k ∉ fs2.map RecordField.fname)
          ∨ (k ∉ fs1.map RecordField.fname ∧ k ∈ fs2.map RecordField.fname)) :
    ∃ fs lk, merge_schemas (.record n1 d1 fs1 lk1) (.record n2 d2 fs2 lk2)
        = .ok (.record n1 d1 fs lk)
      ∧ ∃ f ∈ fs, ∃ forig, (forig ∈ fs1 ∨ forig ∈ fs2)
          ∧ RecordField.fname forig = k
          ∧ RecordField.fname f = k
          ∧ RecordField.fdefault f = RecordField.fdefault forig
          ∧ RecordField.fschema f = nullableCode (RecordField.fschema forig) := by
  obtain ⟨c, hc, _⟩ := merge_schemas_total _ _ hs1 hs2
  have hsz : Schema.sz (.record n1 d1 fs1 lk1) + Schema.sz (.record n2 d2 fs2 lk2)
      = (Schema.szF fs1 + Schema.szF fs2 + 1) + 1 := by
    simp [Schema.sz]
    omega
  have hc' : mergeFuel ((Schema.szF fs1 + Schema.szF fs2 + 1) + 1)
      (.record n1 d1 fs1 lk1) (.record n2 d2 fs2 lk2) = .ok c := by
    rw [← hsz]
    exact hc
  obtain ⟨ps, fs2x, lk2x, fs1', ex, fsx, fs'', lk', hEP, hPG, hEL, hLG, hcval⟩ :=
    mergeFuel_record_inv _ n1 d1 fs1 lk1 n2 d2 fs2 lk2 c hc'
  subst hcval
  refine ⟨fs'', lk', hc, ?_⟩
  rcases hone with ⟨hin1, hout2⟩ | ⟨hout1, hin2⟩
  · obtain ⟨f1, hf1, hf1n⟩ := List.mem_map.mp hin1
    have hklk2 : RecordField.fname f1 ∉ lk2.map Prod.fst := by
      rw [hf1n]
      intro habs
      simp only [List.mem_map] at habs
      obtain ⟨q, hq, hqk⟩ := habs
      exact hout2 (hqk ▸ hc2.2.1 q hq)
    have hpair : (f1, Schema.null) ∈ ps :=
      extractPairs_pair_null fs1 fs2 lk2 ps fs2x lk2x f1 hEP hf1 hklk2
    obtain ⟨mm, hmm, hmemf⟩ := mergePairsGo_mem _ ps fs1' hPG (f1, Schema.null) hpair
    have hb : Schema.sz (RecordField.fschema f1) + 1
        ≤ Schema.szF fs1 + Schema.szF fs2 + 1 := by
      have := szF_mem fs1 f1 hf1
      omega
    rw [mergeFuel_null_right _ _ hb] at hmm
    simp only [Except.ok.injEq] at hmm
    subst hmm
    refine ⟨RecordField.setSchema f1 (nullableCode (RecordField.fschema f1)),
      mergeLeftoverGo_preserve _ ex fs1' lk1 fs'' lk' hLG _ hmemf,
      f1, Or.inl hf1, hf1n, ?_, ?_, ?_⟩
    · obtain ⟨x1, x2, x3, x4⟩ := f1
      exact hf1n
    · rfl
    · rfl
  · obtain ⟨f2, hf2, hf2n⟩ := List.mem_map.mp hin2
    obtain ⟨j, hj⟩ := List.mem_iff_get?.mp hf2
    have henum : (j, f2) ∈ fs2.enum := List.mem_enum_iff_get?.mpr hj
    have hfind : lookupFind lk2 (RecordField.fname f2) = some j :=
      (hc2.1 (j, f2) henum).2
    have hmemlk : (k, j) ∈ lk2 := by
      rw [← hf2n]
      exact lookupFind_mem lk2 _ j hfind
    have hval : ∀ q ∈ lk2, q.2 = j → q.1 = k := by
      intro q hq hqv
      obtain ⟨g, hg, hgn⟩ := recordConsistent_entry fs2 lk2 hc2 q hq
      rw [hqv, hj] at hg
      simp only [Option.some.injEq] at hg
      rw [← hgn, ← hg]
      exact hf2n
    obtain ⟨hslot, hkeep⟩ :=
      extractPairs_untouched fs1 fs2 lk2 ps fs2x lk2x j k hEP hval hout1
    have hlkmem : (k, j) ∈ lk2x := hkeep (k, j) hmemlk rfl
    have hndx : (lk2x.map Prod.fst).Nodup :=
      extractPairs_keys_nodup fs1 fs2 lk2 ps fs2x lk2x hEP hc2.2.2.2
    have hsubx : ∀ q ∈ lk2x, q ∈ lk2 :=
      (extractPairs_facts fs1 fs2 lk2 ps fs2x lk2x hEP).2.2.2.1
    have hvalx : ∀ q ∈ lk2x, q.2 = j → q.1 = k :=
      fun q hq => hval q (hsubx q hq)
    have hgetx : fs2x.get? j = some f2 := by
      rw [hslot]
      exact hj
    have hexmem : (k, f2) ∈ ex :=
      extractLeftover_mem lk2x fs2x ex fsx k j f2 hEL hlkmem hvalx hndx hgetx
    obtain ⟨mm, pos, hmm, hmemf⟩ :=
      mergeLeftoverGo_mem _ ex fs1' lk1 fs'' lk' k f2 hLG hexmem
    have hb : Schema.sz (RecordField.fschema f2) + 1
        ≤ Schema.szF fs1 + Schema.szF fs2 + 1 := by
      have := szF_mem fs2 f2 hf2
      omega
    rw [mergeFuel_null_left _ _ hb] at hmm
    simp only [Except.ok.injEq] at hmm
    subst hmm
    refine ⟨RecordField.setSchemaPos f2 (nullableCode (RecordField.fschema f2)) pos,
      hmemf, f2, Or.inr hf2, hf2n, ?_, ?_, ?_⟩
    · obtain ⟨x1, x2, x3, x4⟩ := f2
      exact hf2n
    · rfl
    · rfl

/-- C1 counterexample: merging the spec's own S2 example records,
`Record r1 {a: Long}` and `Record r2 {b: String}`, yields fields whose
defaults are `none` — the merge never sets a `Null` default, contradicting
the claim that the absent-field's default is `Null`.  (The schemas do
become nullable unions.) -/
theorem C1_counterexample :
    merge_schemas (.record "r1" none [("a", none, .long, 0)] [("a", 0)])
        (.record "r2" none [("b", none, .string, 0)] [("b", 0)])
      = .ok (.record "r1" none
          [("a", none, .union [.null, .long], 0),
           ("b", none, .union [.null, .string], 1)]
          [("a", 0), ("b", 1)])
    ∧ ∀ f ∈ [(("a" : String), (none : Option AvroDefault),
              Schema.union [.null, .long], (0 : Nat)),
             ("b", none, Schema.union [.null, .string], 1)],
        RecordField.fdefault f ≠ some AvroDefault.nullDefault := by
  refine ⟨rfl, ?_⟩
  intro f hf
  rcases List.mem_cons.mp hf with h | h
  · rw [h]
    simp [RecordField.fdefault]
  · simp only [List.mem_cons, List.not_mem_nil, or_false] at h
    rw [h]
    simp [RecordField.fdefault]

/-- Witness for C1: the amended theorem applied to the S2 example pair and
the field name `a`, present only in the left record. -/
theorem C1_witness :
    ∃ fs lk, merge_schemas (.record "r1" none [("a", none, .long, 0)] [("a", 0)])
        (.record "r2" none [("b", none, .string, 0)] [("b", 0)])
        = .ok (.record "r1" none fs lk)
      ∧ ∃ f ∈ fs, ∃ forig,
          (forig ∈ [(("a" : String), (none : Option AvroDefault), Schema.long, (0 : Nat))]
            ∨ forig ∈ [(("b" : String), (none : Option AvroDefault), Schema.string, (0 : Nat))])
          ∧ RecordField.fname forig = "a"
          ∧ RecordField.fname f = "a"
          ∧ RecordField.fdefault f = RecordField.fdefault forig
          ∧ RecordField.fschema f = nullableCode (RecordField.fschema forig) :=
  C1_absent_field "r1" "r2" none none
    [("a", none, .long, 0)] [("b", none, .string, 0)]
    [("a", 0)] [("b", 0)] "a"
    (by decide) (by decide) (by decide) (by decide) (by decide)

theorem recordsOKBL_mem (vs : List Schema) (h : Schema.recordsOKBL vs = true) :
    ∀ v ∈ vs, Schema.recordsOKB v = true := by
  induction vs with
  | nil => intro v hv; simp at hv
  | cons x rest ih =>
      simp only [Schema.recordsOKBL, Bool.and_eq_true] at h
      intro v hv
      rcases List.mem_cons.mp hv with hv | hv
      · rw [hv]; exact h.1
      · exact ih h.2 v hv

theorem recordsOKBL_intro (vs : List Schema)
    (h : ∀ v ∈ vs, Schema.recordsOKB v = true) : Schema.recordsOKBL vs = true := by
  induction vs with
  | nil => rfl
  | cons x rest ih =>
      simp only [Schema.recordsOKBL, Bool.and_eq_true]
      exact ⟨h x (by simp), ih (fun v hv => h v (by simp [hv]))⟩

theorem recordsOKBF_mem (fs : List RecordField) (h : Schema.recordsOKBF fs = true) :
    ∀ f ∈ fs, Schema.recordsOKB (RecordField.fschema f) = true := by
  induction fs with
  | nil => intro f hf; simp at hf
  | cons x rest ih =>
      obtain ⟨n0, d0, s0, p0⟩ := x
      simp only [Schema.recordsOKBF, Bool.and_eq_true] at h
      intro f hf
      rcases List.mem_cons.mp hf with hf | hf
      · rw [hf]; exact h.1
      · exact ih h.2 f hf

theorem recordsOKBF_intro (fs : List RecordField)
    (h : ∀ f ∈ fs, Schema.recordsOKB (RecordField.fschema f) = true) :
    Schema.recordsOKBF fs = true := by
  induction fs with
  | nil => rfl
  | cons x rest ih =>
      obtain ⟨n0, d0, s0, p0⟩ := x
      simp only [Schema.recordsOKBF, Bool.and_eq_true]
      exact ⟨h (n0, d0, s0, p0) (by simp), ih (fun f hf => h f (by simp [hf]))⟩

theorem recordsOKB_record_elim (n : String) (d : Option String)
    (fs : List RecordField) (lk : List (String × Nat))
    (h : Schema.recordsOKB (.record n d fs lk) = true) :
    recordConsistent fs lk ∧ Schema.recordsOKBF fs = true := by
  simp only [Schema.recordsOKB, Bool.and_eq_true, decide_eq_true_eq] at h
  exact h

theorem recordsOKB_record_intro (n : String) (d : Option String)
    (fs : List RecordField) (lk : List (String × Nat))
    (h1 : recordConsistent fs lk) (h2 : Schema.recordsOKBF fs = true) :
    Schema.recordsOKB (.record n d fs lk) = true := by
  simp only [Schema.recordsOKB, Bool.and_eq_true, decide_eq_true_eq]
  exact ⟨h1, h2⟩

/-- Element-wise description of the pairwise-merge loop's output. -/
theorem mergePairsGo_get (mrg : Schema → Schema → Except MErr Schema) :
    ∀ (ps : List (RecordField × Schema)) (fs1' : List RecordField),
    mergePairsGo mrg ps = .ok fs1' →
    fs1'.length = ps.length ∧
    ∀ i p, ps.get? i = some p →
      ∃ m, mrg (RecordField.fschema p.1) p.2 = .ok m ∧
        fs1'.get? i = some (RecordField.setSchema p.1 m) := by
  intro ps
  induction ps with
  | nil =>
      intro fs1' h
      simp only [mergePairsGo, Except.ok.injEq] at h
      subst h
      exact ⟨rfl, fun i p hp => by simp at hp⟩
  | cons q rest ih =>
      obtain ⟨f1, s2⟩ := q
      intro fs1' h
      obtain ⟨m, hm, h⟩ := bindExceptOk.mp h
      obtain ⟨tl, htl, h⟩ := bindExceptOk.mp h
      simp only [Except.ok.injEq] at h
      subst h
      obtain ⟨hlen, hget⟩ := ih tl htl
      refine ⟨by simp [hlen], ?_⟩
      intro i p hp
      cases i with
      | zero =>
          simp only [List.get?] at hp
          simp only [Option.some.injEq] at hp
          subst hp
          exact ⟨m, hm, rfl⟩
      | succ j =>
          simp only [List.get?] at hp ⊢
          exact hget j p hp

/-- The first Record × Record loop only rewrites `fields2` schemas: names,
defaults and positions survive slot by slot. -/
theorem extractPairs_fields2_shape (fs1 : List RecordField) :
    ∀ (fs2 : List RecordField) (lk2 : List (String × Nat))
      (ps : List (RecordField × Schema)) (fs2x : List RecordField)
      (lk2x : List (String × Nat)),
    extractPairs fs1 fs2 lk2 = some (ps, fs2x, lk2x) →
    ∀ i f, fs2.get? i = some f →
      ∃ f', fs2x.get? i = some f' ∧ RecordField.fname f' = RecordField.fname f ∧
        RecordField.fdefault f' = RecordField.fdefault f ∧
        RecordField.fpos f' = RecordField.fpos f := by
  induction fs1 with
  | nil =>
      intro fs2 lk2 ps fs2x lk2x h i f hf
      simp only [extractPairs, Option.some.injEq, Prod.mk.injEq] at h
      rw [← h.2.1]
      exact ⟨f, hf, rfl, rfl, rfl⟩
  | cons g rest ih =>
      intro fs2 lk2 ps fs2x lk2x h i f hf
      cases hr : (lookupRemove lk2 (RecordField.fname g)).1 with
      | some idx2 =>
          cases hf2 : fs2.get? idx2 with
          | none =>
              simp only [extractPairs, hr, hf2] at h
              exact absurd h (by simp)
          | some f2 =>
              cases hrec : extractPairs rest
                  (fs2.set idx2 (RecordField.setSchema f2 .null))
                  (lookupRemove lk2 (RecordField.fname g)).2 with
              | none =>
                  simp only [extractPairs, hr, hf2, hrec] at h
                  exact absurd h (by simp)
              | some out =>
                  obtain ⟨ps', fs2x', lk2x'⟩ := out
                  simp only [extractPairs, hr, hf2, hrec, Option.some.injEq,
                    Prod.mk.injEq] at h
                  obtain ⟨hps, hfs, hlk⟩ := h
                  subst hfs
                  by_cases hidx : idx2 = i
                  · subst hidx
                    have hfi : (fs2.set idx2 (RecordField.setSchema f2 .null)).get? idx2
                        = some (RecordField.setSchema f2 .null) := by
                      rw [List.get?_set_eq]
                      have hlt : idx2 < fs2.length := List.get?_eq_some.mp hf2 |>.1
                      simp [List.get?_eq_getElem?, hlt]
                    obtain ⟨f', hf', hn, hd, hp⟩ := ih _ _ _ _ _ hrec idx2 _ hfi
                    rw [hf2] at hf
                    simp only [Option.some.injEq] at hf
                    subst hf
                    exact ⟨f', hf', hn, hd, hp⟩
                  · have hfi : (fs2.set idx2 (RecordField.setSchema f2 .null)).get? i
                        = some f := by
                      rw [List.get?_set_ne _ _ hidx]
                      exact hf
                    exact ih _ _ _ _ _ hrec i f hfi
      | none =>
          cases hrec : extractPairs rest fs2
              (lookupRemove lk2 (RecordField.fname g)).2 with
          | none =>
              simp only [extractPairs, hr, hrec] at h
              exact absurd h (by simp)
          | some out =>
              obtain ⟨ps', fs2x', lk2x'⟩ := out
              simp only [extractPairs, hr, hrec, Option.some.injEq,
                Prod.mk.injEq] at h
              obtain ⟨hps, hfs, hlk⟩ := h
              subst hfs
              exact ih _ _ _ _ _ hrec i f hf

theorem lookupInsert_fresh (lk : List (String × Nat)) (k : String) (v : Nat)
    (h : k ∉ lk.map Prod.fst) : lookupInsert lk k v = lk ++ [(k, v)] := by
  induction lk with
  | nil => rfl
  | cons p rest ih =>
      obtain ⟨k', v'⟩ := p
      have hk : k' ≠ k := by
        intro habs
        exact h (by simp [habs])
      simp only [lookupInsert, if_neg hk, List.cons_append, List.cons.injEq]
      exact ⟨trivial, ih (fun habs => h (List.mem_cons_of_mem _ habs))⟩

theorem lookupFind_cons_pos (rest : List (String × Nat)) (k : String) (v : Nat) :
    lookupFind ((k, v) :: rest) k = some v := by
  rw [lookupFind, List.find?_cons_of_pos _ (by simp)]
  rfl

theorem lookupFind_cons_neg (k' : String) (v' : Nat) (rest : List (String × Nat))
    (k : String) (h : k' ≠ k) :
    lookupFind ((k', v') :: rest) k = lookupFind rest k := by
  rw [lookupFind, List.find?_cons_of_neg _ (by simp [h])]
  rfl

theorem lookupFind_append_left (lk t : List (String × Nat)) (k : String) (v : Nat)
    (h : lookupFind lk k = some v) : lookupFind (lk ++ t) k = some v := by
  induction lk with
  | nil => simp [lookupFind] at h
  | cons p rest ih =>
      obtain ⟨k', v'⟩ := p
      by_cases hk : k' = k
      · subst hk
        rw [lookupFind_cons_pos] at h
        rw [List.cons_append, lookupFind_cons_pos]
        exact h
      · rw [lookupFind_cons_neg _ _ _ _ hk] at h
        rw [List.cons_append, lookupFind_cons_neg _ _ _ _ hk]
        exact ih h

theorem lookupFind_append_fresh (lk : List (String × Nat)) (k : String) (v : Nat)
    (h : k ∉ lk.map Prod.fst) : lookupFind (lk ++ [(k, v)]) k = some v := by
  induction lk with
  | nil => simp [lookupFind]
  | cons p rest ih =>
      obtain ⟨k', v'⟩ := p
      have hk : k' ≠ k := by
        intro habs
        exact h (by simp [habs])
      rw [List.cons_append, lookupFind_cons_neg _ _ _ _ hk]
      exact ih (fun habs => h (List.mem_cons_of_mem _ habs))

theorem lookupRemove_key_not_mem (lk : List (String × Nat)) (key : String)
    (hnd : (lk.map Prod.fst).Nodup) :
    key ∉ ((lookupRemove lk key).2).map Prod.fst := by
  induction lk with
  | nil => simp [lookupRemove]
  | cons p rest ih =>
      obtain ⟨k', v'⟩ := p
      simp only [List.map_cons, List.nodup_cons] at hnd
      by_cases hk : k' = key
      · simp only [lookupRemove, if_pos hk]
        subst hk
        exact fun habs => hnd.1 habs
      · simp only [lookupRemove, if_neg hk, List.map_cons]
        intro habs
        rcases List.mem_cons.mp habs with habs | habs
        · exact hk habs.symm
        · exact ih hnd.2 habs

/-- After the first Record × Record loop, no surviving `lookup2` key is a
`fields1` name. -/
theorem extractPairs_keys_removed (fs1 : List RecordField) :
    ∀ (fs2 : List RecordField) (lk2 : List (String × Nat))
      (ps : List (RecordField × Schema)) (fs2x : List RecordField)
      (lk2x : List (String × Nat)),
    extractPairs fs1 fs2 lk2 = some (ps, fs2x, lk2x) →
    (lk2.map Prod.fst).Nodup →
    ∀ q ∈ lk2x, q.1 ∉ fs1.map RecordField.fname := by
  induction fs1 with
  | nil => intro fs2 lk2 ps fs2x lk2x h hnd q hq; simp
  | cons g rest ih =>
      intro fs2 lk2 ps fs2x lk2x h hnd q hq
      have hnd' : (((lookupRemove lk2 (RecordField.fname g)).2).map Prod.fst).Nodup :=
        lookupRemove_keys_nodup lk2 _ hnd
      have hgone : RecordField.fname g ∉
          ((lookupRemove lk2 (RecordField.fname g)).2).map Prod.fst :=
        lookupRemove_key_not_mem lk2 _ hnd
      simp only [List.map_cons, List.mem_cons, not_or]
      cases hr : (lookupRemove lk2 (RecordField.fname g)).1 with
      | some idx2 =>
          cases hf2 : fs2.get? idx2 with
          | none =>
              simp only [extractPairs, hr, hf2] at h
              exact absurd h (by simp)
          | some f2 =>
              cases hrec : extractPairs rest
                  (fs2.set idx2 (RecordField.setSchema f2 .null))
                  (lookupRemove lk2 (RecordField.fname g)).2 with
              | none =>
                  simp only [extractPairs, hr, hf2, hrec] at h
                  exact absurd h (by simp)
              | some out =>
                  obtain ⟨ps', fs2x', lk2x'⟩ := out
                  simp only [extractPairs, hr, hf2, hrec, Option.some.injEq,
                    Prod.mk.injEq] at h
                  obtain ⟨hps, hfs, hlk⟩ := h
                  subst hlk
                  have hqsub : q ∈ (lookupRemove lk2 (RecordField.fname g)).2 :=
                    (extractPairs_facts rest _ _ _ _ _ hrec).2.2.2.1 q hq
                  refine ⟨?_, ih _ _ _ _ _ hrec hnd' q hq⟩
                  intro habs
                  have hmm2 : q.1 ∈ ((lookupRemove lk2 (RecordField.fname g)).2).map Prod.fst :=
                    List.mem_map_of_mem Prod.fst hqsub
                  rw [habs] at hmm2
                  exact hgone hmm2
      | none =>
          cases hrec : extractPairs rest fs2
              (lookupRemove lk2 (RecordField.fname g)).2 with
          | none =>
              simp only [extractPairs, hr, hrec] at h
              exact absurd h (by simp)
          | some out =>
              obtain ⟨ps', fs2x', lk2x'⟩ := out
              simp only [extractPairs, hr, hrec, Option.some.injEq,
                Prod.mk.injEq] at h
              obtain ⟨hps, hfs, hlk⟩ := h
              subst hlk
              have hqsub : q ∈ (lookupRemove lk2 (RecordField.fname g)).2 :=
                (extractPairs_facts rest _ _ _ _ _ hrec).2.2.2.1 q hq
              refine ⟨?_, ih _ _ _ _ _ hrec hnd' q hq⟩
              intro habs
              have hmm2 : q.1 ∈ ((lookupRemove lk2 (RecordField.fname g)).2).map Prod.fst :=
                List.mem_map_of_mem Prod.fst hqsub
              rw [habs] at hmm2
              exact hgone hmm2

/-- Distinct keys force distinct values when the key determines the value. -/
theorem snd_nodup_of_fst_nodup (lk : List (String × Nat))
    (hnd : (lk.map Prod.fst).Nodup)
    (hfun : ∀ q1 ∈ lk, ∀ q2 ∈ lk, q1.2 = q2.2 → q1.1 = q2.1) :
    (lk.map Prod.snd).Nodup := by
  induction lk with
  | nil => simp
  | cons p rest ih =>
      simp only [List.map_cons, List.nodup_cons] at hnd ⊢
      refine ⟨?_, ih hnd.2 (fun q1 h1 q2 h2 =>
        hfun q1 (List.mem_cons_of_mem _ h1) q2 (List.mem_cons_of_mem _ h2))⟩
      intro habs
      simp only [List.mem_map] at habs
      obtain ⟨q, hq, hqv⟩ := habs
      have := hfun q (List.mem_cons_of_mem _ hq) p (by simp) hqv
      exact hnd.1 (this ▸ List.mem_map_of_mem Prod.fst hq)

/-- Under distinct indices that point at name-matching fields, the leftover
extraction emits pairs whose field bears the pair's key as its name, and
whose default and position are those of the slot it came from. -/
theorem extractLeftover_names (lk2x : List (String × Nat)) :
    ∀ (fs2x : List RecordField) (ex : List (String × RecordField))
      (fsx : List RecordField),
    extractLeftover lk2x fs2x = some (ex, fsx) →
    (∀ q ∈ lk2x, ∃ f, fs2x.get? q.2 = some f ∧ RecordField.fname f = q.1) →
    (lk2x.map Prod.snd).Nodup →
    ∀ e ∈ ex, RecordField.fname e.2 = e.1 := by
  induction lk2x with
  | nil =>
      intro fs2x ex fsx h hpt hnd e he
      simp only [extractLeftover, Option.some.injEq, Prod.mk.injEq] at h
      rw [← h.1] at he
      simp at he
  | cons q rest ih =>
      obtain ⟨name, idx2⟩ := q
      intro fs2x ex fsx h hpt hnd e he
      simp only [List.map_cons, List.nodup_cons] at hnd
      cases hf2 : fs2x.get? idx2 with
      | none =>
          simp only [extractLeftover, hf2] at h
          exact absurd h (by simp)
      | some g2 =>
          cases hrec : extractLeftover rest (fs2x.set idx2 dummyField) with
          | none =>
              simp only [extractLeftover, hf2, hrec] at h
              exact absurd h (by simp)
          | some out =>
              obtain ⟨ex', fsx'⟩ := out
              simp only [extractLeftover, hf2, hrec, Option.some.injEq,
                Prod.mk.injEq] at h
              rw [← h.1] at he
              rcases List.mem_cons.mp he with he | he
              · subst he
                obtain ⟨f, hfq, hfn⟩ := hpt (name, idx2) (by simp)
                rw [hf2] at hfq
                simp only [Option.some.injEq] at hfq
                rw [hfq]
                exact hfn
              · refine ih _ _ _ hrec ?_ hnd.2 e he
                intro q' hq'
                obtain ⟨f, hfq, hfn⟩ := hpt q' (List.mem_cons_of_mem _ hq')
                have hne : idx2 ≠ q'.2 := by
                  intro habs
                  exact hnd.1 (habs ▸ List.mem_map_of_mem Prod.snd hq')
                refine ⟨f, ?_, hfn⟩
                rw [List.get?_set_ne _ _ hne]
                exact hfq

theorem recordConsistent_get (fs : List RecordField) (lk : List (String × Nat))
    (hc : recordConsistent fs lk) :
    ∀ i f, fs.get? i = some f → RecordField.fpos f = i ∧
      lookupFind lk (RecordField.fname f) = some i :=
  fun i f h => hc.1 (i, f) (List.mem_enum_iff_get?.mpr h)

theorem recordConsistent_of_get (fs : List RecordField) (lk : List (String × Nat))
    (h1 : ∀ i f, fs.get? i = some f → RecordField.fpos f = i ∧
      lookupFind lk (RecordField.fname f) = some i)
    (h2 : ∀ q ∈ lk, q.1 ∈ fs.map RecordField.fname)
    (h3 : (fs.map RecordField.fname).Nodup)
    (h4 : (lk.map Prod.fst).Nodup) : recordConsistent fs lk :=
  ⟨fun p hp => h1 p.1 p.2 (List.mem_enum_iff_get?.mp hp), h2, h3, h4⟩

/-- Appending the leftover fields preserves record-lookup consistency. -/
theorem mergeLeftoverGo_consistent (mrg : Schema → Schema → Except MErr Schema) :
    ∀ (ex : List (String × RecordField)) (fs : List RecordField)
      (lk : List (String × Nat)) (fs'' : List RecordField)
      (lk' : List (String × Nat)),
    mergeLeftoverGo mrg ex fs lk = .ok (fs'', lk') →
    recordConsistent fs lk →
    (∀ e ∈ ex, RecordField.fname e.2 = e.1) →
    (ex.map Prod.fst).Nodup →
    (∀ e ∈ ex, e.1 ∉ fs.map RecordField.fname) →
    recordConsistent fs'' lk' := by
  intro ex
  induction ex with
  | nil =>
      intro fs lk fs'' lk' h hc _ _ _
      simp only [mergeLeftoverGo, Except.ok.injEq, Prod.mk.injEq] at h
      rw [← h.1, ← h.2]
      exact hc
  | cons e rest ih =>
      obtain ⟨name, f2⟩ := e
      intro fs lk fs'' lk' h hc hnm hnd hnot
      simp only [List.map_cons, List.nodup_cons] at hnd
      obtain ⟨m, hm, h⟩ := bindExceptOk.mp h
      have hname : RecordField.fname f2 = name := hnm (name, f2) (by simp)
      have hnamefs : name ∉ fs.map RecordField.fname := hnot (name, f2) (by simp)
      have hfresh : name ∉ lk.map Prod.fst := by
        intro habs
        simp only [List.mem_map] at habs
        obtain ⟨q, hq, hqk⟩ := habs
        exact hnamefs (hqk ▸ hc.2.1 q hq)
      have hins : lookupInsert lk name fs.length = lk ++ [(name, fs.length)] :=
        lookupInsert_fresh lk name fs.length hfresh
      have hnames : (fs ++ [RecordField.setSchemaPos f2 m fs.length]).map
          RecordField.fname = fs.map RecordField.fname ++ [name] := by
        simp only [List.map_append, List.map_cons, List.map_nil]
        rw [show RecordField.fname (RecordField.setSchemaPos f2 m fs.length)
          = name from hname]
      have hstep : recordConsistent (fs ++ [RecordField.setSchemaPos f2 m fs.length])
          (lookupInsert lk name fs.length) := by
        rw [hins]
        refine recordConsistent_of_get _ _ ?_ ?_ ?_ ?_
        · intro i f hf
          have hbound : i < fs.length + 1 := by
            have := List.get?_eq_some.mp hf |>.1
            simpa using this
          rcases Nat.lt_succ_iff_lt_or_eq.mp hbound with hlt | heq
          · rw [List.get?_append hlt] at hf
            obtain ⟨hp, hl⟩ := recordConsistent_get fs lk hc i f hf
            exact ⟨hp, lookupFind_append_left lk _ _ i hl⟩
          · subst heq
            rw [List.get?_concat_length] at hf
            simp only [Option.some.injEq] at hf
            subst hf
            refine ⟨rfl, ?_⟩
            rw [show RecordField.fname (RecordField.setSchemaPos f2 m fs.length)
              = name from hname]
            exact lookupFind_append_fresh lk name fs.length hfresh
        · intro q hq
          rw [hnames]
          rcases List.mem_append.mp hq with hq | hq
          · exact List.mem_append_left _ (hc.2.1 q hq)
          · simp only [List.mem_cons, List.not_mem_nil, or_false] at hq
            rw [hq]
            simp
        · rw [hnames]
          rw [List.nodup_append]
          exact ⟨hc.2.2.1, by simp, by
            intro a ha
            simp only [List.mem_cons, List.not_mem_nil, or_false]
            intro habs
            rw [habs] at ha
            exact hnamefs ha⟩
        · rw [List.map_append]
          rw [List.nodup_append]
          exact ⟨hc.2.2.2, by simp, by
            intro a ha
            simp only [List.map_cons, List.map_nil, List.mem_cons,
              List.not_mem_nil, or_false]
            intro habs
            rw [habs] at ha
            exact hfresh ha⟩
      refine ih _ _ _ _ h hstep
        (fun e he => hnm e (List.mem_cons_of_mem _ he))
        hnd.2 ?_
      intro e he
      rw [hnames]
      intro habs
      rcases List.mem_append.mp habs with habs | habs
      · exact hnot e (List.mem_cons_of_mem _ he) habs
      · simp only [List.mem_cons, List.not_mem_nil, or_false] at habs
        exact hnd.1 (habs ▸ List.mem_map_of_mem Prod.fst he)

theorem recordConsistent_transfer (fs fs' : List RecordField)
    (lk : List (String × Nat))
    (hlen : fs'.length = fs.length)
    (hnp : ∀ i f f', fs.get? i = some f → fs'.get? i = some f' →
      RecordField.fname f' = RecordField.fname f ∧
      RecordField.fpos f' = RecordField.fpos f)
    (hc : recordConsistent fs lk) : recordConsistent fs' lk := by
  have hmapeq : fs'.map RecordField.fname = fs.map RecordField.fname := by
    apply List.ext_get?
    intro n
    rw [List.get?_map, List.get?_map]
    cases hn : fs.get? n with
    | none =>
        have hlenle : fs.length ≤ n := List.get?_eq_none.mp hn
        have : fs'.get? n = none := List.get?_eq_none.mpr (by omega)
        rw [this]
    | some f =>
        have hlt : n < fs.length := List.get?_eq_some.mp hn |>.1
        cases hn' : fs'.get? n with
        | none =>
            have := List.get?_eq_none.mp hn'
            omega
        | some f' =>
            simp only [Option.map_some']
            rw [(hnp n f f' hn hn').1]
  refine recordConsistent_of_get _ _ ?_ ?_ ?_ hc.2.2.2
  · intro i f' hf'
    have hlt : i < fs'.length := List.get?_eq_some.mp hf' |>.1
    cases hn : fs.get? i with
    | none =>
        have := List.get?_eq_none.mp hn
        omega
    | some f =>
        obtain ⟨hname, hpos⟩ := hnp i f f' hn hf'
        obtain ⟨hp, hl⟩ := recordConsistent_get fs lk hc i f hn
        rw [hname, hpos]
        exact ⟨hp, hl⟩
  · intro q hq
    rw [hmapeq]
    exact hc.2.1 q hq
  · rw [hmapeq]
    exact hc.2.2.1

theorem mergeBucketsGo_pred (P : Schema → Prop) (m : Nat) :
    ∀ (bs : List (SchemaKind × List Schema)) (acc res : List Schema),
    mergeBucketsGo (mergeFuel m) bs acc = .ok res →
    (∀ p ∈ bs, ∀ s ∈ p.2, P s) →
    (∀ p ∈ bs, ∀ s t c, mergeFuel m s t = .ok c → s ∈ p.2 → t ∈ p.2 → P c) →
    (∀ e ∈ acc, P e) →
    ∀ e ∈ res, P e := by
  intro bs
  induction bs with
  | nil =>
      intro acc res h _ _ hacc
      simp only [mergeBucketsGo, Except.ok.injEq] at h
      subst h
      exact hacc
  | cons b rest ih =>
      obtain ⟨sk, ss⟩ := b
      intro acc res h hmem hok hacc
      simp only [mergeBucketsGo] at h
      by_cases hc : ss.length = 1 ∨ sk ∈ PRIMITIVES
      · rw [if_pos hc] at h
        cases ss with
        | nil => exact absurd h (by simp)
        | cons s rest' =>
            refine ih (acc ++ [s]) res h
              (fun p hp => hmem p (by simp [hp]))
              (fun p hp => hok p (by simp [hp])) ?_
            intro e he
            rcases List.mem_append.mp he with he | he
            · exact hacc e he
            · simp only [List.mem_cons, List.not_mem_nil, or_false] at he
              rw [he]
              exact hmem (sk, s :: rest') (by simp) s (by simp)
      · rw [if_neg hc] at h
        cases ss with
        | nil => exact absurd h (by simp)
        | cons s ss' =>
            cases ss' with
            | nil => exact absurd h (by simp)
            | cons t rest' =>
                obtain ⟨c, hmc, h⟩ := bindExceptOk.mp h
                refine ih (acc ++ [c]) res h
                  (fun p hp => hmem p (by simp [hp]))
                  (fun p hp => hok p (by simp [hp])) ?_
                intro e he
                rcases List.mem_append.mp he with he | he
                · exact hacc e he
                · simp only [List.mem_cons, List.not_mem_nil, or_false] at he
                  rw [he]
                  exact hok (sk, s :: t :: rest') (by simp) s t c hmc
                    (by simp) (by simp)

theorem mergePairsGo_pred (P : Schema → Prop)
    (mrg : Schema → Schema → Except MErr Schema) :
    ∀ (ps : List (RecordField × Schema)) (fs1' : List RecordField),
    mergePairsGo mrg ps = .ok fs1' →
    (∀ p ∈ ps, ∀ c, mrg (RecordField.fschema p.1) p.2 = .ok c → P c) →
    ∀ f ∈ fs1', P (RecordField.fschema f) := by
  intro ps
  induction ps with
  | nil =>
      intro fs1' h _ f hf
      simp only [mergePairsGo, Except.ok.injEq] at h
      subst h
      simp at hf
  | cons q rest ih =>
      obtain ⟨f1, s2⟩ := q
      intro fs1' h hok f hf
      obtain ⟨m, hm, h⟩ := bindExceptOk.mp h
      obtain ⟨tl, htl, h⟩ := bindExceptOk.mp h
      simp only [Except.ok.injEq] at h
      subst h
      rcases List.mem_cons.mp hf with hf | hf
      · rw [hf]
        exact hok (f1, s2) (by simp) m hm
      · exact ih tl htl (fun p hp => hok p (List.mem_cons_of_mem _ hp)) f hf

theorem mergeLeftoverGo_pred (P : Schema → Prop)
    (mrg : Schema → Schema → Except MErr Schema) :
    ∀ (ex : List (String × RecordField)) (fs : List RecordField)
      (lk : List (String × Nat)) (fs'' : List RecordField)
      (lk' : List (String × Nat)),
    mergeLeftoverGo mrg ex fs lk = .ok (fs'', lk') →
    (∀ e ∈ ex, ∀ c, mrg Schema.null (RecordField.fschema e.2) = .ok c → P c) →
    (∀ f ∈ fs, P (RecordField.fschema f)) →
    ∀ f ∈ fs'', P (RecordField.fschema f) := by
  intro ex
  induction ex with
  | nil =>
      intro fs lk fs'' lk' h _ hfs f hf
      simp only [mergeLeftoverGo, Except.ok.injEq, Prod.mk.injEq] at h
      rw [← h.1] at hf
      exact hfs f hf
  | cons e rest ih =>
      obtain ⟨name, f2⟩ := e
      intro fs lk fs'' lk' h hok hfs f hf
      obtain ⟨m, hm, h⟩ := bindExceptOk.mp h
      refine ih _ _ _ _ h (fun e he => hok e (List.mem_cons_of_mem _ he)) ?_ f hf
      intro g hg
      rcases List.mem_append.mp hg with hg | hg
      · exact hfs g hg
      · simp only [List.mem_cons, List.not_mem_nil, or_false] at hg
        rw [hg]
        exact hok (name, f2) (by simp) m hm

theorem fieldNames_ext (fs fs' : List RecordField)
    (hlen : fs'.length = fs.length)
    (hnp : ∀ i f f', fs.get? i = some f → fs'.get? i = some f' →
      RecordField.fname f' = RecordField.fname f) :
    fs'.map RecordField.fname = fs.map RecordField.fname := by
  apply List.ext_get?
  intro n
  rw [List.get?_map, List.get?_map]
  cases hn : fs.get? n with
  | none =>
      have hlenle : fs.length ≤ n := List.get?_eq_none.mp hn
      have : fs'.get? n = none := List.get?_eq_none.mpr (by omega)
      rw [this]
  | some f =>
      have hlt : n < fs.length := List.get?_eq_some.mp hn |>.1
      cases hn' : fs'.get? n with
      | none =>
          have := List.get?_eq_none.mp hn'
          omega
      | some f' =>
          simp only [Option.map_some']
          rw [hnp n f f' hn hn']

/-- Merge preserves deep record-lookup consistency: a successful merge of
two schemas all of whose records are consistent yields a schema all of whose
records are consistent. -/
theorem mergeFuel_recordsOK : ∀ (n : Nat) (a b c : Schema),
    mergeFuel n a b = .ok c →
    Schema.recordsOKB a = true → Schema.recordsOKB b = true →
    Schema.recordsOKB c = true := by
  intro n
  induction n with
  | zero => intro a b c h _ _; simp [mergeFuel] at h
  | succ m ih =>
      intro a b c h h1 h2
      simp only [mergeFuel] at h
      split at h
      · -- Record × Record
        rename_i name1 doc1 fs1 lk1 name2 doc2 fs2 lk2
        obtain ⟨hc1, hf1⟩ := recordsOKB_record_elim _ _ _ _ h1
        obtain ⟨hc2, hf2⟩ := recordsOKB_record_elim _ _ _ _ h2
        split at h
        · exact absurd h (by simp)
        · rename_i ps fs2x lk2x hEP
          obtain ⟨fs1', hPG, h⟩ := bindExceptOk.mp h
          split at h
          · exact absurd h (by simp)
          · rename_i ex fsx hEL
            obtain ⟨⟨fs'', lk'⟩, hLG, h⟩ := bindExceptOk.mp h
            simp only [Except.ok.injEq] at h
            subst h
            obtain ⟨a1, a2, a3, a4, a5, a6, a7⟩ :=
              extractPairs_facts _ _ _ _ _ _ hEP
            obtain ⟨c1, c2, c3⟩ := extractLeftover_facts _ _ _ _ hEL
            obtain ⟨hlen1, hget1⟩ := mergePairsGo_get _ ps fs1' hPG
            have hlen1' : fs1'.length = fs1.length := by
              rw [hlen1, ← a1, List.length_map]
            have hcorr : ∀ i f f', fs1.get? i = some f → fs1'.get? i = some f' →
                RecordField.fname f' = RecordField.fname f ∧
                RecordField.fpos f' = RecordField.fpos f := by
              intro i f f' hf hf'
              have hps : (ps.map Prod.fst).get? i = some f := by
                rw [a1]; exact hf
              rw [List.get?_map] at hps
              cases hp : ps.get? i with
              | none => rw [hp] at hps; exact absurd hps (by simp)
              | some p =>
                  rw [hp] at hps
                  simp only [Option.map_some', Option.some.injEq] at hps
                  obtain ⟨mm, hmm, hfi⟩ := hget1 i p hp
                  rw [hfi] at hf'
                  simp only [Option.some.injEq] at hf'
                  rw [← hf', ← hps]
                  exact ⟨rfl, rfl⟩
            have hcons1' : recordConsistent fs1' lk1 :=
              recordConsistent_transfer fs1 fs1' lk1 hlen1' hcorr hc1
            have hndk2 : (lk2.map Prod.fst).Nodup := hc2.2.2.2
            have hndkx : (lk2x.map Prod.fst).Nodup :=
              extractPairs_keys_nodup fs1 fs2 lk2 ps fs2x lk2x hEP hndk2
            have hpt : ∀ q ∈ lk2x, ∃ f, fs2x.get? q.2 = some f ∧
                RecordField.fname f = q.1 := by
              intro q hq
              obtain ⟨g, hg, hgn⟩ :=
                recordConsistent_entry fs2 lk2 hc2 q (a4 q hq)
              obtain ⟨g', hg', hgn', _, _⟩ :=
                extractPairs_fields2_shape fs1 fs2 lk2 ps fs2x lk2x hEP q.2 g hg
              exact ⟨g', hg', hgn' ▸ hgn⟩
            have hvfun : ∀ q1 ∈ lk2x, ∀ q2 ∈ lk2x, q1.2 = q2.2 → q1.1 = q2.1 := by
              intro q1 hq1 q2 hq2 hval
              obtain ⟨g1, hg1, hgn1⟩ :=
                recordConsistent_entry fs2 lk2 hc2 q1 (a4 q1 hq1)
              obtain ⟨g2, hg2, hgn2⟩ :=
                recordConsistent_entry fs2 lk2 hc2 q2 (a4 q2 hq2)
              rw [hval] at hg1
              rw [hg2] at hg1
              simp only [Option.some.injEq] at hg1
              rw [← hgn1, ← hgn2, hg1]
            have hvnodup : (lk2x.map Prod.snd).Nodup :=
              snd_nodup_of_fst_nodup lk2x hndkx hvfun
            have hexn : ∀ e ∈ ex, RecordField.fname e.2 = e.1 :=
              extractLeftover_names lk2x fs2x ex fsx hEL hpt hvnodup
            have hexkeys : ex.map Prod.fst = lk2x.map Prod.fst := c1
            have hexnd : (ex.map Prod.fst).Nodup := by
              rw [hexkeys]; exact hndkx
            have hmap1 : fs1'.map RecordField.fname = fs1.map RecordField.fname :=
              fieldNames_ext fs1 fs1' hlen1' (fun i f f' hf hf' => (hcorr i f f' hf hf').1)
            have hexnot : ∀ e ∈ ex, e.1 ∉ fs1'.map RecordField.fname := by
              intro e he
              rw [hmap1]
              have hkx : e.1 ∈ lk2x.map Prod.fst := by
                rw [← hexkeys]
                exact List.mem_map_of_mem Prod.fst he
              simp only [List.mem_map] at hkx
              obtain ⟨q, hq, hqk⟩ := hkx
              rw [← hqk]
              exact extractPairs_keys_removed fs1 fs2 lk2 ps fs2x lk2x hEP hndk2 q hq
            have hcons'' : recordConsistent fs'' lk' :=
              mergeLeftoverGo_consistent _ ex fs1' lk1 fs'' lk' hLG hcons1'
                hexn hexnd hexnot
            have hokf1 : ∀ f ∈ fs1', Schema.recordsOKB (RecordField.fschema f) = true := by
              refine mergePairsGo_pred (fun s => Schema.recordsOKB s = true) _ ps fs1' hPG ?_
              intro p hp cc hcc
              have hp1 : p.1 ∈ fs1 := by
                rw [← a1]
                exact List.mem_map_of_mem Prod.fst hp
              refine ih _ _ _ hcc (recordsOKBF_mem fs1 hf1 p.1 hp1) ?_
              rcases a6 p hp with hnull | ⟨g, hg, hgf⟩
              · rw [hnull]; rfl
              · rw [hgf]; exact recordsOKBF_mem fs2 hf2 g hg
            have hokf'' : ∀ f ∈ fs'', Schema.recordsOKB (RecordField.fschema f) = true := by
              refine mergeLeftoverGo_pred (fun s => Schema.recordsOKB s = true) _ ex fs1' lk1 fs'' lk' hLG ?_ hokf1
              intro e he cc hcc
              refine ih _ _ _ hcc rfl ?_
              rcases c3 e he with hnull | ⟨g, hg, hgf⟩
              · rw [hnull]; rfl
              · rw [hgf]
                rcases a7 g hg with h7 | ⟨g0, hg0, hg0f⟩
                · rw [h7]; rfl
                · rw [hg0f]; exact recordsOKBF_mem fs2 hf2 g0 hg0
            exact recordsOKB_record_intro _ _ _ _ hcons''
              (recordsOKBF_intro fs'' hokf'')
      · -- Union × Union
        rename_i us1 us2
        have hok1 : ∀ v ∈ us1, Schema.recordsOKB v = true :=
          recordsOKBL_mem us1 h1
        have hok2 : ∀ v ∈ us2, Schema.recordsOKB v = true :=
          recordsOKBL_mem us2 h2
        obtain ⟨merged, hBG, h⟩ := bindExceptOk.mp h
        obtain ⟨vs', hUN, h⟩ := bindExceptOk.mp h
        have hveq := unionNew_ok _ _ hUN
        simp only [Except.ok.injEq] at h
        subst h
        rw [hveq]
        have hmemOK : ∀ p ∈ (bucketRemove (buildBuckets us1 us2) SchemaKind.null).2,
            ∀ s ∈ p.2, Schema.recordsOKB s = true :=
          fun p hp => buildBuckets_mem_pred _ us1 us2 hok1 hok2 p
            (bucketRemove_mem SchemaKind.null (buildBuckets us1 us2) p hp)
        have hokm : ∀ e ∈ merged, Schema.recordsOKB e = true := by
          refine mergeBucketsGo_pred (fun s => Schema.recordsOKB s = true) m _ _ merged hBG hmemOK ?_ ?_
          · intro p hp s t cc hcc hs ht
            exact ih s t cc hcc (hmemOK p hp s hs) (hmemOK p hp t ht)
          · intro e he
            cases hr0 : (bucketRemove (buildBuckets us1 us2) SchemaKind.null).1 with
            | some nb =>
                rw [hr0] at he
                simp only [List.mem_cons, List.not_mem_nil, or_false] at he
                rw [he]
                rfl
            | none =>
                rw [hr0] at he
                simp at he
        show Schema.recordsOKBL merged = true
        exact recordsOKBL_intro merged hokm
      · -- Union × S
        rename_i us1 hbu
        have hok1 : ∀ v ∈ us1, Schema.recordsOKB v = true :=
          recordsOKBL_mem us1 h1
        split at h
        · split at h
          · exact absurd h (by simp)
          · rename_i y i hfind x s1 hget
            obtain ⟨m', hm, h⟩ := bindExceptOk.mp h
            simp only [Except.ok.injEq] at h
            subst h
            have hmem : s1 ∈ us1 := List.get?_mem hget
            show Schema.recordsOKBL (us1.set i m') = true
            refine recordsOKBL_intro _ ?_
            intro v hv
            rcases List.mem_or_eq_of_mem_set hv with hv | hv
            · exact hok1 v hv
            · rw [hv]
              exact ih s1 b m' hm (hok1 s1 hmem) h2
        · simp only [Except.ok.injEq] at h
          subst h
          show Schema.recordsOKBL (us1 ++ [b]) = true
          refine recordsOKBL_intro _ ?_
          intro v hv
          rcases List.mem_append.mp hv with hv | hv
          · exact hok1 v hv
          · simp only [List.mem_cons, List.not_mem_nil, or_false] at hv
            rw [hv]
            exact h2
      · -- S × Union
        rename_i us1 hau hbu
        have hok1 : ∀ v ∈ us1, Schema.recordsOKB v = true :=
          recordsOKBL_mem us1 h2
        split at h
        · split at h
          · exact absurd h (by simp)
          · rename_i y i hfind x s1 hget
            obtain ⟨m', hm, h⟩ := bindExceptOk.mp h
            simp only [Except.ok.injEq] at h
            subst h
            have hmem : s1 ∈ us1 := List.get?_mem hget
            show Schema.recordsOKBL (us1.set i m') = true
            refine recordsOKBL_intro _ ?_
            intro v hv
            rcases List.mem_or_eq_of_mem_set hv with hv | hv
            · exact hok1 v hv
            · rw [hv]
              exact ih s1 a m' hm (hok1 s1 hmem) h1
        · simp only [Except.ok.injEq] at h
          subst h
          show Schema.recordsOKBL (us1 ++ [a]) = true
          refine recordsOKBL_intro _ ?_
          intro v hv
          rcases List.mem_append.mp hv with hv | hv
          · exact hok1 v hv
          · simp only [List.mem_cons, List.not_mem_nil, or_false] at hv
            rw [hv]
            exact h1
      · -- Array × Array
        rename_i s1 s2
        obtain ⟨m', hm, h⟩ := bindExceptOk.mp h
        simp only [Except.ok.injEq] at h
        subst h
        exact ih s1 s2 m' hm h1 h2
      · -- Map × Map
        rename_i s1 s2
        obtain ⟨m', hm, h⟩ := bindExceptOk.mp h
        simp only [Except.ok.injEq] at h
        subst h
        exact ih s1 s2 m' hm h1 h2
      · -- equal kinds / mixed
        rename_i s1 s2 hau hbu hrr huu harr hmap
        split at h
        · simp only [Except.ok.injEq] at h
          subst h
          exact h1
        · rename_i hkneq
          split at h
          · exact absurd h (by simp)
          · rename_i vs hUN
            simp only [Except.ok.injEq] at h
            subst h
            have hvs := unionNew_ok _ _ hUN
            subst hvs
            by_cases hn : a.isNull
            · rw [if_pos hn]
              show Schema.recordsOKBL [a, b] = true
              refine recordsOKBL_intro _ ?_
              intro v hv
              rcases List.mem_cons.mp hv with hv | hv
              · rw [hv]; exact h1
              · simp only [List.mem_cons, List.not_mem_nil, or_false] at hv
                rw [hv]; exact h2
            · rw [if_neg hn]
              show Schema.recordsOKBL [b, a] = true
              refine recordsOKBL_intro _ ?_
              intro v hv
              rcases List.mem_cons.mp hv with hv | hv
              · rw [hv]; exact h2
              · simp only [List.mem_cons, List.not_mem_nil, or_false] at hv
                rw [hv]; exact h1

theorem keysOKBO_mem (entries : List (String × JsonValue))
    (h : JsonValue.keysOKBO entries = true) :
    ∀ e ∈ entries, JsonValue.keysOKB e.2 = true := by
  induction entries with
  | nil => intro e he; simp at he
  | cons x rest ih =>
      obtain ⟨k, v⟩ := x
      simp only [JsonValue.keysOKBO, Bool.and_eq_true] at h
      intro e he
      rcases List.mem_cons.mp he with he | he
      · rw [he]; exact h.1
      · exact ih h.2 e he

theorem keysOKBA_mem (items : List JsonValue)
    (h : JsonValue.keysOKBA items = true) :
    ∀ v ∈ items, JsonValue.keysOKB v = true := by
  induction items with
  | nil => intro v hv; simp at hv
  | cons x rest ih =>
      simp only [JsonValue.keysOKBA, Bool.and_eq_true] at h
      intro v hv
      rcases List.mem_cons.mp hv with hv | hv
      · rw [hv]; exact h.1
      · exact ih h.2 v hv

theorem buildLookupGo_eq :
    ∀ (l : List (Nat × RecordField)) (lk : List (String × Nat)),
    (∀ p ∈ l, RecordField.fname p.2 ∉ lk.map Prod.fst) →
    ((l.map fun p => RecordField.fname p.2).Nodup) →
    l.foldl (fun lk p => lookupInsert lk (RecordField.fname p.2) p.1) lk
      = lk ++ l.map (fun p => (RecordField.fname p.2, p.1)) := by
  intro l
  induction l with
  | nil => intro lk _ _; simp
  | cons p rest ih =>
      intro lk hfresh hnd
      simp only [List.map_cons, List.nodup_cons] at hnd
      simp only [List.foldl_cons]
      rw [lookupInsert_fresh lk _ p.1 (hfresh p (by simp))]
      rw [ih (lk ++ [(RecordField.fname p.2, p.1)]) ?_ hnd.2]
      · simp
      · intro q hq
        rw [List.map_append]
        intro habs
        rcases List.mem_append.mp habs with habs | habs
        · exact hfresh q (List.mem_cons_of_mem _ hq) habs
        · simp only [List.map_cons, List.map_nil, List.mem_cons,
            List.not_mem_nil, or_false] at habs
          exact hnd.1 (habs ▸ List.mem_map_of_mem (fun p => RecordField.fname p.2) hq)

theorem buildLookup_eq (fs : List RecordField)
    (hnd : (fs.map RecordField.fname).Nodup) :
    buildLookup fs = fs.enum.map (fun p => (RecordField.fname p.2, p.1)) := by
  have hnd' : ((fs.enum.map fun p => RecordField.fname p.2)).Nodup := by
    have : (fs.enum.map fun p => RecordField.fname p.2)
        = (fs.enum.map Prod.snd).map RecordField.fname := by
      rw [List.map_map]
      rfl
    rw [this, List.enum_map_snd]
    exact hnd
  have := buildLookupGo_eq fs.enum [] (by simp) hnd'
  simp only [List.nil_append] at this
  exact this

theorem buildLookup_consistent (fs : List RecordField)
    (hnd : (fs.map RecordField.fname).Nodup)
    (hpos : ∀ i f, fs.get? i = some f → RecordField.fpos f = i) :
    recordConsistent fs (buildLookup fs) := by
  rw [buildLookup_eq fs hnd]
  have hkeys : (fs.enum.map (fun p => (RecordField.fname p.2, p.1))).map Prod.fst
      = fs.map RecordField.fname := by
    rw [List.map_map]
    have : ((fun p : Nat × RecordField => (RecordField.fname p.2, p.1)).comp
        id ∘ id) = id ∘ (fun p : Nat × RecordField => (RecordField.fname p.2, p.1)) := rfl
    have h2 : (Prod.fst ∘ fun p : Nat × RecordField => (RecordField.fname p.2, p.1))
        = (fun p : Nat × RecordField => RecordField.fname p.2) := rfl
    rw [h2]
    have : (fs.enum.map fun p => RecordField.fname p.2)
        = (fs.enum.map Prod.snd).map RecordField.fname := by
      rw [List.map_map]
      rfl
    rw [this, List.enum_map_snd]
  refine recordConsistent_of_get _ _ ?_ ?_ ?_ ?_
  · intro i f hf
    refine ⟨hpos i f hf, ?_⟩
    refine lookupFind_of_mem_nodup _ _ _ ?_ (by rw [hkeys]; exact hnd)
    have henum : (i, f) ∈ fs.enum := List.mem_enum_iff_get?.mpr hf
    exact List.mem_map.mpr ⟨(i, f), henum, rfl⟩
  · intro q hq
    simp only [List.mem_map] at hq
    obtain ⟨p, hp, hpq⟩ := hq
    rw [← hpq]
    have : p.2 ∈ fs := List.get?_mem (List.mem_enum_iff_get?.mp hp)
    exact List.mem_map_of_mem RecordField.fname this
  · exact hnd
  · rw [hkeys]
    exact hnd

/-- Structure of the object loop's output: names in entry order after the
accumulator, positions equal to indices, and new schemas from the
element-wise inference. -/
theorem inferObjGo_shape (inf : JsonValue → String → Except MErr Schema) :
    ∀ (entries : List (String × JsonValue)) (fs out : List RecordField),
    inferObjGo inf entries fs = .ok out →
    out.map RecordField.fname
        = fs.map RecordField.fname ++ entries.map Prod.fst
    ∧ (∀ f ∈ out, f ∈ fs ∨ ∃ e ∈ entries, ∃ s, inf e.2 e.1 = .ok s ∧
        RecordField.fschema f = s)
    ∧ ((∀ i f, fs.get? i = some f → RecordField.fpos f = i) →
        ∀ i f, out.get? i = some f → RecordField.fpos f = i) := by
  intro entries
  induction entries with
  | nil =>
      intro fs out h
      simp only [inferObjGo, Except.ok.injEq] at h
      subst h
      exact ⟨by simp, fun f hf => Or.inl hf, fun hp => hp⟩
  | cons e rest ih =>
      obtain ⟨name, v⟩ := e
      intro fs out h
      obtain ⟨s, hs, h⟩ := bindExceptOk.mp h
      obtain ⟨hmap, hprov, hpos⟩ := ih (fs ++ [(name, none, s, fs.length)]) out h
      refine ⟨?_, ?_, ?_⟩
      · rw [hmap]
        simp only [List.map_append, List.map_cons, List.map_nil]
        rw [List.append_assoc]
        rfl
      · intro f hf
        rcases hprov f hf with hf' | ⟨e, he, s', hs', hfs⟩
        · rcases List.mem_append.mp hf' with hf' | hf'
          · exact Or.inl hf'
          · simp only [List.mem_cons, List.not_mem_nil, or_false] at hf'
            refine Or.inr ⟨(name, v), by simp, s, hs, ?_⟩
            rw [hf']
            rfl
        · exact Or.inr ⟨e, List.mem_cons_of_mem _ he, s', hs', hfs⟩
      · intro hp
        refine hpos ?_
        intro i f hf
        have hbound : i < fs.length + 1 := by
          have := List.get?_eq_some.mp hf |>.1
          simpa using this
        rcases Nat.lt_succ_iff_lt_or_eq.mp hbound with hlt | heq
        · rw [List.get?_append hlt] at hf
          exact hp i f hf
        · subst heq
          rw [List.get?_concat_length] at hf
          simp only [Option.some.injEq] at hf
          rw [← hf]
          rfl

theorem inferFoldGo_wf (inf : JsonValue → String → Except MErr Schema) :
    ∀ (els : List JsonValue) (name : String) (base : Schema),
    Schema.mergeSafeB base = true → Schema.recordsOKB base = true →
    (∀ el ∈ els, ∃ s, inf el name = .ok s ∧ Schema.mergeSafeB s = true ∧
      Schema.recordsOKB s = true) →
    ∃ out, inferFoldGo inf els name base = .ok out ∧
      Schema.mergeSafeB out = true ∧ Schema.recordsOKB out = true := by
  intro els
  induction els with
  | nil => intro name base hb hrb _; exact ⟨base, rfl, hb, hrb⟩
  | cons el rest ih =>
      intro name base hb hrb hels
      obtain ⟨s, hs, hsafe, hrok⟩ := hels el (by simp)
      obtain ⟨base', hm, hbsafe⟩ := merge_schemas_total base s hb hsafe
      have hbrok : Schema.recordsOKB base' = true :=
        mergeFuel_recordsOK _ base s base' hm hrb hrok
      obtain ⟨out, hout, hosafe, horok⟩ :=
        ih name base' hbsafe hbrok (fun e he => hels e (by simp [he]))
      refine ⟨out, ?_, hosafe, horok⟩
      show (do
        let s ← inf el name
        let base' ← merge_schemas base s
        inferFoldGo inf rest name base') = .ok out
      rw [hs]
      show (do
        let base' ← merge_schemas base s
        inferFoldGo inf rest name base') = .ok out
      rw [hm]
      exact hout

/-- `infer_schema` (with enough fuel) on a duplicate-free-keys document always
succeeds, and every record in the produced schema is lookup-consistent
(and the schema is MergeSafe). -/
theorem inferFuel_wf : ∀ (n : Nat) (v : JsonValue) (name : String),
    JsonValue.vsz v ≤ n → JsonValue.keysOKB v = true →
    ∃ s, inferFuel n v name = .ok s ∧ Schema.mergeSafeB s = true ∧
      Schema.recordsOKB s = true := by
  intro n
  induction n with
  | zero =>
      intro v name hsz _
      cases v <;> simp [JsonValue.vsz] at hsz
  | succ m ih =>
      intro v name hsz hkeys
      cases v with
      | null => exact ⟨.null, rfl, rfl, rfl⟩
      | short s => exact ⟨.long, rfl, rfl, rfl⟩
      | str s => exact ⟨.string, rfl, rfl, rfl⟩
      | boolean b => exact ⟨.boolean, rfl, rfl, rfl⟩
      | number pos mant expo =>
          by_cases he : expo = 0
          · refine ⟨.long, ?_, rfl, rfl⟩
            simp [inferFuel, he]
          · refine ⟨.double, ?_, rfl, rfl⟩
            simp [inferFuel, he]
      | array items =>
          have hka : JsonValue.keysOKBA items = true := hkeys
          cases items with
          | nil => exact ⟨.array .null, rfl, rfl, rfl⟩
          | cons first rest =>
              have hszm : JsonValue.vsz first + JsonValue.vszA rest ≤ m := by
                simp only [JsonValue.vsz, JsonValue.vszA] at hsz
                omega
              have hkfirst : JsonValue.keysOKB first = true :=
                keysOKBA_mem _ hka first (by simp)
              obtain ⟨initial, hinit, hisafe, hirok⟩ :=
                ih first name (by omega) hkfirst
              have hrest : ∀ el ∈ rest, ∃ s, inferFuel m el name = .ok s ∧
                  Schema.mergeSafeB s = true ∧ Schema.recordsOKB s = true := by
                intro el hel
                have := vszA_mem rest el hel
                exact ih el name (by omega)
                  (keysOKBA_mem _ hka el (List.mem_cons_of_mem _ hel))
              obtain ⟨items', hfold, hfsafe, hfrok⟩ :=
                inferFoldGo_wf (inferFuel m) rest name initial hisafe hirok hrest
              refine ⟨.array items', ?_, hfsafe, hfrok⟩
              show (do
                let initial ← inferFuel m first name
                let items ← inferFoldGo (inferFuel m) rest name initial
                Except.ok (Schema.array items)) = .ok (.array items')
              rw [hinit]
              show (do
                let items ← inferFoldGo (inferFuel m) rest name initial
                Except.ok (Schema.array items)) = .ok (.array items')
              rw [hfold]
              rfl
      | object entries =>
          simp only [JsonValue.keysOKB, Bool.and_eq_true, decide_eq_true_eq] at hkeys
          obtain ⟨hknd, hko⟩ := hkeys
          have hents : ∀ e ∈ entries, ∃ s, inferFuel m e.2 e.1 = .ok s ∧
              Schema.mergeSafeB s = true ∧ Schema.recordsOKB s = true := by
            intro e he
            have := vszO_mem entries e he
            simp only [JsonValue.vsz] at hsz
            exact ih e.2 e.1 (by omega) (keysOKBO_mem _ hko e he)
          have hents2 : ∀ e ∈ entries, ∃ s, inferFuel m e.2 e.1 = .ok s ∧
              Schema.mergeSafeB s = true := by
            intro e he
            obtain ⟨s, hs, hsafe, _⟩ := hents e he
            exact ⟨s, hs, hsafe⟩
          obtain ⟨fields, hobj, hfsafe⟩ :=
            inferObjGo_total (inferFuel m) entries [] (by simp) hents2
          obtain ⟨hmap, hprov, hpos⟩ :=
            inferObjGo_shape (inferFuel m) entries [] fields hobj
          have hndf : (fields.map RecordField.fname).Nodup := by
            rw [hmap]
            simp only [List.map_nil, List.nil_append]
            exact hknd
          have hposf : ∀ i f, fields.get? i = some f → RecordField.fpos f = i :=
            hpos (fun i f hf => by simp at hf)
          have hcons : recordConsistent fields (buildLookup fields) :=
            buildLookup_consistent fields hndf hposf
          have hfrok : ∀ f ∈ fields,
              Schema.recordsOKB (RecordField.fschema f) = true := by
            intro f hf
            rcases hprov f hf with hf' | ⟨e, he, s, hs, hfs⟩
            · simp at hf'
            · obtain ⟨s', hs', _, hrok'⟩ := hents e he
              rw [hs'] at hs
              simp only [Except.ok.injEq] at hs
              rw [hfs, ← hs]
              exact hrok'
          refine ⟨.record name none fields (buildLookup fields), ?_, ?_, ?_⟩
          · show (do
              let fields ← inferObjGo (inferFuel m) entries []
              Except.ok (Schema.record name none fields (buildLookup fields))) =
                .ok (.record name none fields (buildLookup fields))
            rw [hobj]
            rfl
          · exact mergeSafeB_record_intro name none fields (buildLookup fields)
              (buildLookup_bounds fields) hfsafe
          · exact recordsOKB_record_intro name none fields (buildLookup fields)
              hcons (recordsOKBF_intro fields hfrok)

/-- C8 counterexample: `infer_schema_serde` leaves every record lookup at
`Default::default()` (empty), so already a one-field object produces a
record violating lookup consistency: the lookup has no entry for the field
at all. -/
theorem C8_counterexample :
    infer_schema_serde (.object [("a", .number (.uintVal 1))]) "doc"
      = .ok (.record "doc" none [("a", none, .long, 0)] [])
    ∧ ¬ recordConsistent [("a", none, .long, 0)] [] :=
  ⟨rfl, by decide⟩

/-- C8 (amended): every record in a schema produced by `infer_schema` (from
a document with duplicate-free object keys, as the json parser guarantees)
satisfies lookup consistency — `lookup[f.name] = f.position` for every
field, lookup keys exactly the field names, positions equal to indices —
and a successful merge of two deeply consistent schemas is again deeply
consistent.  `infer_schema_serde` does not satisfy this: it leaves every
lookup empty. -/
theorem C8_record_consistency :
    (∀ (v : JsonValue) (name : String), JsonValue.keysOKB v = true →
      ∃ s, infer_schema v name = .ok s ∧ Schema.recordsOKB s = true)
    ∧ (∀ a b c : Schema, merge_schemas a b = .ok c →
        Schema.recordsOKB a = true → Schema.recordsOKB b = true →
        Schema.recordsOKB c = true) := by
  constructor
  · intro v name hk
    obtain ⟨s, hs, _, hrok⟩ := inferFuel_wf _ v name (Nat.le_refl _) hk
    exact ⟨s, hs, hrok⟩
  · intro a b c h h1 h2
    exact mergeFuel_recordsOK _ a b c h h1 h2

/-- Witness for C8: the amended consistency theorem applied to a concrete
one-field document. -/
theorem C8_witness :
    ∃ s, infer_schema (.object [("a", .boolean true)]) "doc" = .ok s ∧
      Schema.recordsOKB s = true :=
  C8_record_consistency.1 (.object [("a", .boolean true)]) "doc" (by decide)

theorem unionsOKBL_mem (vs : List Schema) (h : Schema.unionsOKBL vs = true) :
    ∀ v ∈ vs, Schema.unionsOKB v = true := by
  induction vs with
  | nil => intro v hv; simp at hv
  | cons x rest ih =>
      simp only [Schema.unionsOKBL, Bool.and_eq_true] at h
      intro v hv
      rcases List.mem_cons.mp hv with hv | hv
      · rw [hv]; exact h.1
      · exact ih h.2 v hv

theorem unionsOKBF_mem (fs : List RecordField) (h : Schema.unionsOKBF fs = true) :
    ∀ f ∈ fs, Schema.unionsOKB (RecordField.fschema f) = true := by
  induction fs with
  | nil => intro f hf; simp at hf
  | cons x rest ih =>
      obtain ⟨n0, d0, s0, p0⟩ := x
      simp only [Schema.unionsOKBF, Bool.and_eq_true] at h
      intro f hf
      rcases List.mem_cons.mp hf with hf | hf
      · rw [hf]; exact h.1
      · exact ih h.2 f hf

theorem unionsOKB_union_elim (vs : List Schema)
    (h : Schema.unionsOKB (.union vs) = true) :
    (vs.map Schema.kind).Nodup ∧ (∀ v ∈ vs, v.isUnionB = false) ∧
    Schema.unionsOKBL vs = true := by
  simp only [Schema.unionsOKB, Bool.and_eq_true, decide_eq_true_eq,
    List.all_eq_true, Bool.not_eq_true'] at h
  exact ⟨h.1.1, h.1.2, h.2⟩

/-- The full §3.3 invariant implies the MergeSafe precondition. -/
theorem mergeSafeB_of_wf : ∀ (n : Nat) (s : Schema), Schema.sz s ≤ n →
    Schema.recordsOKB s = true → Schema.unionsOKB s = true →
    Schema.mergeSafeB s = true := by
  intro n
  induction n with
  | zero => intro s hsz; have := Schema.sz_pos s; omega
  | succ m ih =>
      intro s hsz hrec huni
      cases s with
      | null => rfl
      | boolean => rfl
      | int => rfl
      | long => rfl
      | float => rfl
      | double => rfl
      | bytes => rfl
      | string => rfl
      | array s1 =>
          show Schema.mergeSafeB s1 = true
          simp only [Schema.sz] at hsz
          exact ih s1 (by omega) hrec huni
      | map s1 =>
          show Schema.mergeSafeB s1 = true
          simp only [Schema.sz] at hsz
          exact ih s1 (by omega) hrec huni
      | union vs =>
          obtain ⟨hnd, hnu, hl⟩ := unionsOKB_union_elim vs huni
          have hrl : ∀ v ∈ vs, Schema.recordsOKB v = true := recordsOKBL_mem vs hrec
          refine mergeSafeB_union_intro vs hnd hnu ?_
          intro v hv
          have := szL_mem vs v hv
          simp only [Schema.sz] at hsz
          exact ih v (by omega) (hrl v hv) (unionsOKBL_mem vs hl v hv)
      | record nm d fs lk =>
          obtain ⟨hc, hf⟩ := recordsOKB_record_elim _ _ _ _ hrec
          have hfu : Schema.unionsOKBF fs = true := huni
          refine mergeSafeB_record_intro _ _ _ _ (recordConsistent_bounds fs lk hc) ?_
          intro f hfmem
          have := szF_mem fs f hfmem
          simp only [Schema.sz] at hsz
          exact ih _ (by omega) (recordsOKBF_mem fs hf f hfmem)
            (unionsOKBF_mem fs hfu f hfmem)

theorem SEquivL_refl_of (vs : List Schema)
    (h : ∀ v ∈ vs, SEquiv v v) : SEquivL vs vs := by
  induction vs with
  | nil => exact SEquivL.nil
  | cons x rest ih =>
      exact SEquivL.cons (h x (by simp)) (ih (fun v hv => h v (by simp [hv])))

theorem SEquivF_refl_of (fs : List RecordField)
    (h : ∀ f ∈ fs, SEquiv (RecordField.fschema f) (RecordField.fschema f)) :
    SEquivF fs fs := by
  induction fs with
  | nil => exact SEquivF.nil
  | cons x rest ih =>
      obtain ⟨n0, d0, s0, p0⟩ := x
      exact SEquivF.cons (h (n0, d0, s0, p0) (by simp))
        (ih (fun f hf => h f (by simp [hf])))

theorem SEquiv_refl_fuel : ∀ (n : Nat) (s : Schema), Schema.sz s ≤ n →
    SEquiv s s := by
  intro n
  induction n with
  | zero => intro s hsz; have := Schema.sz_pos s; omega
  | succ m ih =>
      intro s hsz
      cases s with
      | null => exact SEquiv.null
      | boolean => exact SEquiv.boolean
      | int => exact SEquiv.int
      | long => exact SEquiv.long
      | float => exact SEquiv.float
      | double => exact SEquiv.double
      | bytes => exact SEquiv.bytes
      | string => exact SEquiv.string
      | array s1 =>
          simp only [Schema.sz] at hsz
          exact SEquiv.array (ih s1 (by omega))
      | map s1 =>
          simp only [Schema.sz] at hsz
          exact SEquiv.map (ih s1 (by omega))
      | union vs =>
          simp only [Schema.sz] at hsz
          refine SEquiv.union (SEquivL_refl_of vs ?_) (List.Perm.refl vs)
          intro v hv
          have := szL_mem vs v hv
          exact ih v (by omega)
      | record nm d fs lk =>
          simp only [Schema.sz] at hsz
          refine SEquiv.record (SEquivF_refl_of fs ?_)
          intro f hf
          have := szF_mem fs f hf
          exact ih _ (by omega)

theorem SEquiv_refl (s : Schema) : SEquiv s s :=
  SEquiv_refl_fuel (Schema.sz s) s (Nat.le_refl _)

theorem lookupRemove_fst_eq_find (lk : List (String × Nat)) (key : String) :
    (lookupRemove lk key).1 = lookupFind lk key := by
  induction lk with
  | nil => rfl
  | cons p rest ih =>
      obtain ⟨k', v'⟩ := p
      by_cases hk : k' = key
      · subst hk
        rw [lookupFind_cons_pos]
        simp [lookupRemove]
      · simp only [lookupRemove, if_neg hk]
        rw [lookupFind_cons_neg _ _ _ _ hk]
        exact ih

theorem lookupRemove_sublist (lk : List (String × Nat)) (key : String) :
    ((lookupRemove lk key).2).Sublist lk := by
  induction lk with
  | nil => simp [lookupRemove]
  | cons p rest ih =>
      obtain ⟨k', v'⟩ := p
      by_cases hk : k' = key
      · simp only [lookupRemove, if_pos hk]
        exact List.sublist_cons_self _ _
      · simp only [lookupRemove, if_neg hk]
        exact List.Sublist.cons₂ _ ih

/-- Self-merge of a consistent record: the first loop pairs every field with
its own schema and consumes the whole lookup. -/
theorem extractPairs_diag : ∀ (rest : List RecordField)
    (fs2 : List RecordField) (lk : List (String × Nat)),
    (lk.map Prod.fst).Nodup →
    (lk.map Prod.snd).Nodup →
    (∀ q ∈ lk, q.1 ∈ rest.map RecordField.fname) →
    (∀ f ∈ rest, ∃ j, (RecordField.fname f, j) ∈ lk ∧ fs2.get? j = some f) →
    (rest.map RecordField.fname).Nodup →
    ∃ fs2x, extractPairs rest fs2 lk
      = some (rest.map (fun f => (f, RecordField.fschema f)), fs2x, []) := by
  intro rest
  induction rest with
  | nil =>
      intro fs2 lk h1 h2 h3 h4 h5
      have hlk : lk = [] := by
        cases lk with
        | nil => rfl
        | cons q t => exact absurd (h3 q (by simp)) (by simp)
      subst hlk
      exact ⟨fs2, rfl⟩
  | cons f rest' ih =>
      intro fs2 lk h1 h2 h3 h4 h5
      simp only [List.map_cons, List.nodup_cons] at h5
      obtain ⟨j, hjmem, hjget⟩ := h4 f (by simp)
      have hfind : lookupFind lk (RecordField.fname f) = some j :=
        lookupFind_of_mem_nodup lk _ j hjmem h1
      have hr1 : (lookupRemove lk (RecordField.fname f)).1 = some j := by
        rw [lookupRemove_fst_eq_find]
        exact hfind
      have hsub := lookupRemove_sublist lk (RecordField.fname f)
      have h1' : (((lookupRemove lk (RecordField.fname f)).2).map Prod.fst).Nodup :=
        h1.sublist (List.Sublist.map Prod.fst hsub)
      have h2' : (((lookupRemove lk (RecordField.fname f)).2).map Prod.snd).Nodup :=
        h2.sublist (List.Sublist.map Prod.snd hsub)
      have hgone : RecordField.fname f ∉
          ((lookupRemove lk (RecordField.fname f)).2).map Prod.fst :=
        lookupRemove_key_not_mem lk _ h1
      have h3' : ∀ q ∈ (lookupRemove lk (RecordField.fname f)).2,
          q.1 ∈ rest'.map RecordField.fname := by
        intro q hq
        have hqlk : q ∈ lk := hsub.subset hq
        have := h3 q hqlk
        simp only [List.map_cons, List.mem_cons] at this
        rcases this with hh | hh
        · have hm2 : q.1 ∈ ((lookupRemove lk (RecordField.fname f)).2).map Prod.fst :=
            List.mem_map_of_mem Prod.fst hq
          rw [hh] at hm2
          exact absurd hm2 hgone
        · exact hh
      have h4' : ∀ g ∈ rest', ∃ j',
          (RecordField.fname g, j') ∈ (lookupRemove lk (RecordField.fname f)).2 ∧
          (fs2.set j (RecordField.setSchema f .null)).get? j' = some g := by
        intro g hg
        obtain ⟨j', hj'mem, hj'get⟩ := h4 g (List.mem_cons_of_mem _ hg)
        have hgn : RecordField.fname g ≠ RecordField.fname f := by
          intro habs
          exact h5.1 (habs ▸ List.mem_map_of_mem RecordField.fname hg)
        have hmemr : (RecordField.fname g, j') ∈
            (lookupRemove lk (RecordField.fname f)).2 :=
          lookupRemove_mem_rest lk _ _ hj'mem hgn
        have hjne : j ≠ j' := by
          intro habs
          have hpair := List.inj_on_of_nodup_map h2 hj'mem hjmem (by rw [habs])
          simp only [Prod.mk.injEq] at hpair
          exact hgn hpair.1
        refine ⟨j', hmemr, ?_⟩
        rw [List.get?_set_ne _ _ hjne]
        exact hj'get
      obtain ⟨fs2x, hrec⟩ :=
        ih (fs2.set j (RecordField.setSchema f .null))
          (lookupRemove lk (RecordField.fname f)).2 h1' h2' h3' h4' h5.2
      refine ⟨fs2x, ?_⟩
      simp only [extractPairs, hr1, hjget, hrec, List.map_cons]

theorem mergePairsGo_diag (mrg : Schema → Schema → Except MErr Schema) :
    ∀ (fs : List RecordField),
    (∀ f ∈ fs, ∃ c, mrg (RecordField.fschema f) (RecordField.fschema f) = .ok c ∧
      SEquiv c (RecordField.fschema f)) →
    ∃ fs1', mergePairsGo mrg (fs.map (fun f => (f, RecordField.fschema f)))
      = .ok fs1' ∧ SEquivF fs1' fs := by
  intro fs
  induction fs with
  | nil => intro _; exact ⟨[], rfl, SEquivF.nil⟩
  | cons f rest ih =>
      intro h
      obtain ⟨c, hc, hce⟩ := h f (by simp)
      obtain ⟨tl, htl, hte⟩ := ih (fun g hg => h g (List.mem_cons_of_mem _ hg))
      refine ⟨RecordField.setSchema f c :: tl, ?_, ?_⟩
      · show (do
          let m ← mrg (RecordField.fschema f) (RecordField.fschema f)
          let tl' ← mergePairsGo mrg (rest.map (fun g => (g, RecordField.fschema g)))
          Except.ok (RecordField.setSchema f m :: tl'))
            = .ok (RecordField.setSchema f c :: tl)
        rw [hc]
        show (do
          let tl' ← mergePairsGo mrg (rest.map (fun g => (g, RecordField.fschema g)))
          Except.ok (RecordField.setSchema f c :: tl'))
            = .ok (RecordField.setSchema f c :: tl)
        rw [htl]
        rfl
      · obtain ⟨n0, d0, s0, p0⟩ := f
        exact SEquivF.cons hce hte

theorem bucketInsert_fresh (bs : List (SchemaKind × List Schema))
    (k : SchemaKind) (v : List Schema) (h : k ∉ bs.map Prod.fst) :
    bucketInsert bs k v = bs ++ [(k, v)] := by
  induction bs with
  | nil => rfl
  | cons p rest ih =>
      obtain ⟨k', v'⟩ := p
      have hk : k' ≠ k := by
        intro habs
        exact h (by simp [habs])
      simp only [bucketInsert, if_neg hk, List.cons_append, List.cons.injEq]
      exact ⟨trivial, ih (fun habs => h (List.mem_cons_of_mem _ habs))⟩

theorem bucketPush_append_fresh (accA : List (SchemaKind × List Schema))
    (k : SchemaKind) (v : List Schema) (tail : List (SchemaKind × List Schema))
    (s : Schema) (h : k ∉ accA.map Prod.fst) :
    bucketPush (accA ++ (k, v) :: tail) k s = accA ++ (k, s :: v) :: tail := by
  induction accA with
  | nil => simp [bucketPush]
  | cons p rest ih =>
      obtain ⟨k', v'⟩ := p
      have hk : k' ≠ k := by
        intro habs
        exact h (by simp [habs])
      simp only [List.cons_append, bucketPush, if_neg hk, List.cons.injEq]
      exact ⟨trivial, ih (fun habs => h (List.mem_cons_of_mem _ habs))⟩

theorem insertPhase_eq :
    ∀ (l : List Schema) (acc : List (SchemaKind × List Schema)),
    (∀ s ∈ l, s.kind ∉ acc.map Prod.fst) →
    ((l.map Schema.kind).Nodup) →
    l.foldl (fun m s => bucketInsert m s.kind [s]) acc
      = acc ++ l.map (fun s => (s.kind, [s])) := by
  intro l
  induction l with
  | nil => intro acc _ _; simp
  | cons s rest ih =>
      intro acc hfresh hnd
      simp only [List.map_cons, List.nodup_cons] at hnd
      simp only [List.foldl_cons]
      rw [bucketInsert_fresh acc s.kind [s] (hfresh s (by simp))]
      rw [ih (acc ++ [(s.kind, [s])]) ?_ hnd.2]
      · simp
      · intro t ht
        rw [List.map_append]
        intro habs
        rcases List.mem_append.mp habs with habs | habs
        · exact hfresh t (List.mem_cons_of_mem _ ht) habs
        · simp only [List.map_cons, List.map_nil, List.mem_cons,
            List.not_mem_nil, or_false] at habs
          exact hnd.1 (habs ▸ List.mem_map_of_mem Schema.kind ht)

theorem pushPhase_eq :
    ∀ (l : List Schema) (acc : List (SchemaKind × List Schema)),
    (∀ s ∈ l, s.kind ∉ acc.map Prod.fst) →
    ((l.map Schema.kind).Nodup) →
    l.foldl (fun m s => bucketPush m s.kind s)
        (acc ++ l.map (fun s => (s.kind, [s])))
      = acc ++ l.map (fun s => (s.kind, [s, s])) := by
  intro l
  induction l with
  | nil => intro acc _ _; simp
  | cons s rest ih =>
      intro acc hfresh hnd
      simp only [List.map_cons, List.nodup_cons] at hnd
      simp only [List.foldl_cons, List.map_cons]
      rw [show acc ++ (s.kind, [s]) :: rest.map (fun t => (t.kind, [t]))
          = acc ++ ((s.kind, [s]) :: rest.map (fun t => (t.kind, [t]))) from rfl]
      rw [bucketPush_append_fresh acc s.kind [s] _ s (hfresh s (by simp))]
      have hstep : acc ++ (s.kind, [s, s]) :: rest.map (fun t => (t.kind, [t]))
          = (acc ++ [(s.kind, [s, s])]) ++ rest.map (fun t => (t.kind, [t])) := by
        simp
      rw [hstep]
      rw [ih (acc ++ [(s.kind, [s, s])]) ?_ hnd.2]
      · simp
      · intro t ht
        rw [List.map_append]
        intro habs
        rcases List.mem_append.mp habs with habs | habs
        · exact hfresh t (List.mem_cons_of_mem _ ht) habs
        · simp only [List.map_cons, List.map_nil, List.mem_cons,
            List.not_mem_nil, or_false] at habs
          exact hnd.1 (habs ▸ List.mem_map_of_mem Schema.kind ht)

/-- Self-merge of a well-formed union: every kind's bucket holds the variant
twice, in reversed variant order. -/
theorem buildBuckets_diag (vs : List Schema)
    (hnd : (vs.map Schema.kind).Nodup) :
    buildBuckets vs vs = vs.reverse.map (fun s => (s.kind, [s, s])) := by
  have hndr : (vs.reverse.map Schema.kind).Nodup := by
    rw [List.map_reverse]
    exact List.nodup_reverse.mpr hnd
  show vs.reverse.foldl (fun m s => bucketPush m s.kind s)
      (vs.reverse.foldl (fun m s => bucketInsert m s.kind [s]) [])
    = vs.reverse.map (fun s => (s.kind, [s, s]))
  rw [insertPhase_eq vs.reverse [] (by simp) hndr]
  rw [show ([] : List (SchemaKind × List Schema))
      ++ vs.reverse.map (fun s => (s.kind, [s])) = [] ++ vs.reverse.map
      (fun s => (s.kind, [s])) from rfl]
  rw [pushPhase_eq vs.reverse [] (by simp) hndr]
  simp

theorem bucketRemove_none_full (bs : List (SchemaKind × List Schema))
    (key : SchemaKind) (h : key ∉ bs.map Prod.fst) :
    bucketRemove bs key = (none, bs) := by
  induction bs with
  | nil => rfl
  | cons p rest ih =>
      obtain ⟨k', v'⟩ := p
      have hk : k' ≠ key := by
        intro habs
        exact h (by simp [habs])
      simp only [bucketRemove, if_neg hk]
      rw [ih (fun habs => h (List.mem_cons_of_mem _ habs))]

theorem bucketRemove_append_fresh (accA : List (SchemaKind × List Schema))
    (key : SchemaKind) (v : List Schema) (tail : List (SchemaKind × List Schema))
    (h : key ∉ accA.map Prod.fst) :
    bucketRemove (accA ++ (key, v) :: tail) key = (some v, accA ++ tail) := by
  induction accA with
  | nil => simp [bucketRemove]
  | cons p rest ih =>
      obtain ⟨k', v'⟩ := p
      have hk : k' ≠ key := by
        intro habs
        exact h (by simp [habs])
      simp only [List.cons_append, bucketRemove, if_neg hk, List.append_eq]
      rw [ih (fun habs => h (List.mem_cons_of_mem _ habs))]

theorem SEquiv_kind : ∀ {s t : Schema}, SEquiv s t → s.kind = t.kind := by
  intro s t h
  cases h <;> rfl

theorem SEquivL_kinds : ∀ (l m : List Schema), SEquivL l m →
    l.map Schema.kind = m.map Schema.kind := by
  intro l
  induction l with
  | nil => intro m h; cases h; rfl
  | cons s rest ih =>
      intro m h
      cases h with
      | cons hst hlm =>
          simp only [List.map_cons]
          rw [SEquiv_kind hst, ih _ hlm]

theorem mergeBucketsGo_diag (m : Nat) :
    ∀ (l : List Schema) (acc : List Schema),
    (∀ s ∈ l, ∃ c, mergeFuel m s s = .ok c ∧ SEquiv c s) →
    ∃ out, mergeBucketsGo (mergeFuel m) (l.map (fun s => (s.kind, [s, s]))) acc
      = .ok out ∧ ∃ tail, out = acc ++ tail ∧ SEquivL tail l := by
  intro l
  induction l with
  | nil =>
      intro acc _
      exact ⟨acc, rfl, [], by simp, SEquivL.nil⟩
  | cons s rest ih =>
      intro acc h
      by_cases hp : s.kind ∈ PRIMITIVES
      · obtain ⟨out, hout, tail, hres, hte⟩ :=
          ih (acc ++ [s]) (fun t ht => h t (List.mem_cons_of_mem _ ht))
        refine ⟨out, ?_, s :: tail, ?_, SEquivL.cons (SEquiv_refl s) hte⟩
        · show mergeBucketsGo (mergeFuel m)
            ((s.kind, [s, s]) :: rest.map (fun t => (t.kind, [t, t]))) acc = .ok out
          simp only [mergeBucketsGo, if_pos (Or.inr hp)]
          exact hout
        · rw [hres]
          simp
      · obtain ⟨c, hc, hce⟩ := h s (by simp)
        obtain ⟨out, hout, tail, hres, hte⟩ :=
          ih (acc ++ [c]) (fun t ht => h t (List.mem_cons_of_mem _ ht))
        refine ⟨out, ?_, c :: tail, ?_, SEquivL.cons hce hte⟩
        · show mergeBucketsGo (mergeFuel m)
            ((s.kind, [s, s]) :: rest.map (fun t => (t.kind, [t, t]))) acc = .ok out
          have hcond : ¬ (([s, s] : List Schema).length = 1 ∨ s.kind ∈ PRIMITIVES) := by
            intro hor
            rcases hor with hor | hor
            · simp at hor
            · exact hp hor
          simp only [mergeBucketsGo, if_neg hcond]
          rw [hc]
          exact hout
        · rw [hres]
          simp

/-- Self-merge at sufficient fuel: on a §3.3-well-formed schema, merging a
schema with itself succeeds and returns the schema up to union-variant
permutation. -/
theorem mergeFuel_diag : ∀ (n : Nat) (s : Schema),
    2 * Schema.sz s ≤ n → Schema.wfB s = true →
    ∃ t, mergeFuel n s s = .ok t ∧ SEquiv t s := by
  intro n
  induction n with
  | zero => intro s hsz _; have := Schema.sz_pos s; omega
  | succ m ih =>
      intro s hsz hwf
      simp only [Schema.wfB, Bool.and_eq_true] at hwf
      obtain ⟨hrec, huni⟩ := hwf
      cases s with
      | null => exact ⟨.null, rfl, SEquiv.null⟩
      | boolean => exact ⟨.boolean, rfl, SEquiv.boolean⟩
      | int => exact ⟨.int, rfl, SEquiv.int⟩
      | long => exact ⟨.long, rfl, SEquiv.long⟩
      | float => exact ⟨.float, rfl, SEquiv.float⟩
      | double => exact ⟨.double, rfl, SEquiv.double⟩
      | bytes => exact ⟨.bytes, rfl, SEquiv.bytes⟩
      | string => exact ⟨.string, rfl, SEquiv.string⟩
      | array s1 =>
          have hsz1 : 2 * Schema.sz s1 ≤ m := by
            simp only [Schema.sz] at hsz
            omega
          obtain ⟨c, hc, hce⟩ := ih s1 hsz1 (by
            simp only [Schema.wfB, Bool.and_eq_true]
            exact ⟨hrec, huni⟩)
          refine ⟨.array c, ?_, SEquiv.array hce⟩
          show (do
            let mm ← mergeFuel m s1 s1
            Except.ok (Schema.array mm)) = .ok (.array c)
          rw [hc]
          rfl
      | map s1 =>
          have hsz1 : 2 * Schema.sz s1 ≤ m := by
            simp only [Schema.sz] at hsz
            omega
          obtain ⟨c, hc, hce⟩ := ih s1 hsz1 (by
            simp only [Schema.wfB, Bool.and_eq_true]
            exact ⟨hrec, huni⟩)
          refine ⟨.map c, ?_, SEquiv.map hce⟩
          show (do
            let mm ← mergeFuel m s1 s1
            Except.ok (Schema.map mm)) = .ok (.map c)
          rw [hc]
          rfl
      | record nm d fs lk =>
          obtain ⟨hc, hf⟩ := recordsOKB_record_elim _ _ _ _ hrec
          have hfu : Schema.unionsOKBF fs = true := huni
          have h1 : (lk.map Prod.fst).Nodup := hc.2.2.2
          have hvfun : ∀ q1 ∈ lk, ∀ q2 ∈ lk, q1.2 = q2.2 → q1.1 = q2.1 := by
            intro q1 hq1 q2 hq2 hval
            obtain ⟨g1, hg1, hgn1⟩ := recordConsistent_entry fs lk hc q1 hq1
            obtain ⟨g2, hg2, hgn2⟩ := recordConsistent_entry fs lk hc q2 hq2
            rw [hval] at hg1
            rw [hg2] at hg1
            simp only [Option.some.injEq] at hg1
            rw [← hgn1, ← hgn2, hg1]
          have h2 : (lk.map Prod.snd).Nodup := snd_nodup_of_fst_nodup lk h1 hvfun
          have h4 : ∀ f ∈ fs, ∃ j, (RecordField.fname f, j) ∈ lk ∧
              fs.get? j = some f := by
            intro f hfmem
            obtain ⟨j, hj⟩ := List.mem_iff_get?.mp hfmem
            have henum : (j, f) ∈ fs.enum := List.mem_enum_iff_get?.mpr hj
            have hfind : lookupFind lk (RecordField.fname f) = some j :=
              (hc.1 (j, f) henum).2
            exact ⟨j, lookupFind_mem lk _ j hfind, hj⟩
          obtain ⟨fs2x, hEP⟩ := extractPairs_diag fs fs lk h1 h2 hc.2.1 h4 hc.2.2.1
          have hpair : ∀ f ∈ fs, ∃ c, mergeFuel m (RecordField.fschema f)
              (RecordField.fschema f) = .ok c ∧ SEquiv c (RecordField.fschema f) := by
            intro f hfmem
            have hszf := szF_mem fs f hfmem
            refine ih _ (by simp only [Schema.sz] at hsz; omega) ?_
            simp only [Schema.wfB, Bool.and_eq_true]
            exact ⟨recordsOKBF_mem fs hf f hfmem, unionsOKBF_mem fs hfu f hfmem⟩
          obtain ⟨fs1', hPG, hte⟩ := mergePairsGo_diag (mergeFuel m) fs hpair
          refine ⟨.record nm d fs1' lk, ?_, SEquiv.record hte⟩
          simp only [mergeFuel, hEP]
          refine bindExceptOk.mpr ⟨fs1', hPG, rfl⟩
      | union vs =>
          obtain ⟨hnd, hnu, hl⟩ := unionsOKB_union_elim vs huni
          have hrl : ∀ v ∈ vs, Schema.recordsOKB v = true := recordsOKBL_mem vs hrec
          have hBB := buildBuckets_diag vs hnd
          have hndr : (vs.reverse.map Schema.kind).Nodup := by
            rw [List.map_reverse]
            exact List.nodup_reverse.mpr hnd
          have hmemdiag : ∀ v ∈ vs, ∃ c, mergeFuel m v v = .ok c ∧ SEquiv c v := by
            intro v hv
            have hszv := szL_mem vs v hv
            refine ih v (by simp only [Schema.sz] at hsz; omega) ?_
            simp only [Schema.wfB, Bool.and_eq_true]
            exact ⟨hrl v hv, unionsOKBL_mem vs hl v hv⟩
          by_cases hnull : Schema.null ∈ vs
          · have hnullr : Schema.null ∈ vs.reverse := List.mem_reverse.mpr hnull
            obtain ⟨A, B, hsplit⟩ := List.append_of_mem hnullr
            have hkindsr : ((A ++ Schema.null :: B).map Schema.kind).Nodup := by
              rw [← hsplit]
              exact hndr
            simp only [List.map_append, List.map_cons] at hkindsr
            rw [List.nodup_append] at hkindsr
            obtain ⟨hndA, hndNB, hdisj⟩ := hkindsr
            have hnullnotA : SchemaKind.null ∉ A.map Schema.kind := by
              intro habs
              exact hdisj habs (List.mem_cons_self _ _)
            have hkeysA : ((A.map (fun s => (s.kind, [s, s]))).map Prod.fst)
                = A.map Schema.kind := by
              rw [List.map_map]
              rfl
            have hrem : bucketRemove (buildBuckets vs vs) SchemaKind.null
                = (some [Schema.null, Schema.null],
                   (A ++ B).map (fun s => (s.kind, [s, s]))) := by
              rw [hBB, hsplit]
              simp only [List.map_append, List.map_cons]
              rw [show Schema.kind Schema.null = SchemaKind.null from rfl]
              rw [bucketRemove_append_fresh _ SchemaKind.null _ _
                (by rw [hkeysA]; exact hnullnotA)]
            have hmemAB : ∀ v ∈ A ++ B, v ∈ vs := by
              intro v hv
              refine List.mem_reverse.mp ?_
              rw [hsplit]
              rcases List.mem_append.mp hv with hv | hv
              · exact List.mem_append_left _ hv
              · exact List.mem_append_right _ (List.mem_cons_of_mem _ hv)
            obtain ⟨out, hBG, tail, hout, htail⟩ :=
              mergeBucketsGo_diag m (A ++ B) [Schema.null]
                (fun v hv => hmemdiag v (hmemAB v hv))
            have hr1 : (bucketRemove (buildBuckets vs vs) SchemaKind.null).1
                = some [Schema.null, Schema.null] := by
              rw [hrem]
            have hBG2 : mergeBucketsGo (mergeFuel m)
                (bucketRemove (buildBuckets vs vs) SchemaKind.null).2
                [Schema.null] = .ok out := by
              rw [hrem]
              exact hBG
            have hkindsAB : ((A ++ B).map Schema.kind).Nodup := by
              have hperm : (A.map Schema.kind ++ SchemaKind.null :: B.map Schema.kind).Nodup := by
                rw [List.nodup_append]
                exact ⟨hndA, hndNB, hdisj⟩
              have hperm2 := (@List.perm_middle _ SchemaKind.null
                (A.map Schema.kind) (B.map Schema.kind)).nodup hperm
              rw [List.map_append]
              exact (List.nodup_cons.mp hperm2).2
            have hnullAB : SchemaKind.null ∉ (A ++ B).map Schema.kind := by
              have hperm : (A.map Schema.kind ++ SchemaKind.null :: B.map Schema.kind).Nodup := by
                rw [List.nodup_append]
                exact ⟨hndA, hndNB, hdisj⟩
              have hperm2 := (@List.perm_middle _ SchemaKind.null
                (A.map Schema.kind) (B.map Schema.kind)).nodup hperm
              rw [List.map_append]
              exact (List.nodup_cons.mp hperm2).1
            have htailkinds : tail.map Schema.kind = (A ++ B).map Schema.kind :=
              SEquivL_kinds tail (A ++ B) htail
            have houtform : out = Schema.null :: tail := by
              rw [hout]
              rfl
            have hndout : (out.map Schema.kind).Nodup := by
              rw [houtform]
              simp only [List.map_cons]
              rw [List.nodup_cons, htailkinds]
              exact ⟨hnullAB, hkindsAB⟩
            have hnuout : ∀ e ∈ out, e.isUnionB = false := by
              intro e he
              rw [houtform] at he
              rcases List.mem_cons.mp he with he | he
              · rw [he]; rfl
              · have hek : e.kind ∈ tail.map Schema.kind :=
                  List.mem_map_of_mem Schema.kind he
                rw [htailkinds] at hek
                simp only [List.mem_map] at hek
                obtain ⟨v, hv, hvk⟩ := hek
                have hvnu : v.isUnionB = false := hnu v (hmemAB v hv)
                cases hbe : e.isUnionB
                · rfl
                · have : v.kind = SchemaKind.union := by
                    rw [hvk]
                    exact (Schema.kind_eq_union_iff e).mpr hbe
                  rw [(Schema.kind_eq_union_iff v).mp this] at hvnu
                  simp at hvnu
            refine ⟨.union out, ?_, ?_⟩
            · simp only [mergeFuel, hr1]
              refine bindExceptOk.mpr ⟨out, hBG2, ?_⟩
              refine bindExceptOk.mpr ⟨out, unionNew_ok_of out hnuout hndout, rfl⟩
            · refine @SEquiv.union out (Schema.null :: (A ++ B)) vs ?_ ?_
              · rw [houtform]
                exact SEquivL.cons SEquiv.null htail
              · refine List.Perm.trans List.perm_middle.symm ?_
                rw [← hsplit]
                exact List.reverse_perm vs
          · have hnullk : SchemaKind.null ∉ (buildBuckets vs vs).map Prod.fst := by
              rw [hBB]
              rw [show ((vs.reverse.map (fun s => (s.kind, [s, s]))).map Prod.fst)
                  = vs.reverse.map Schema.kind from by rw [List.map_map]; rfl]
              intro habs
              simp only [List.mem_map] at habs
              obtain ⟨v, hv, hvk⟩ := habs
              have : v = Schema.null := (Schema.kind_eq_null_iff v).mp hvk
              rw [this] at hv
              exact hnull (List.mem_reverse.mp hv)
            have hrem : bucketRemove (buildBuckets vs vs) SchemaKind.null
                = (none, vs.reverse.map (fun s => (s.kind, [s, s]))) := by
              rw [hBB]
              exact bucketRemove_none_full _ _ (by rw [← hBB]; exact hnullk)
            obtain ⟨out, hBG, tail, hout, htail⟩ :=
              mergeBucketsGo_diag m vs.reverse []
                (fun v hv => hmemdiag v (List.mem_reverse.mp hv))
            have hr1 : (bucketRemove (buildBuckets vs vs) SchemaKind.null).1 = none := by
              rw [hrem]
            have hBG2 : mergeBucketsGo (mergeFuel m)
                (bucketRemove (buildBuckets vs vs) SchemaKind.null).2 [] = .ok out := by
              rw [hrem]
              exact hBG
            have houtform : out = tail := by
              rw [hout]
              rfl
            have htailkinds : tail.map Schema.kind = vs.reverse.map Schema.kind :=
              SEquivL_kinds tail vs.reverse htail
            have hndout : (out.map Schema.kind).Nodup := by
              rw [houtform, htailkinds]
              exact hndr
            have hnuout : ∀ e ∈ out, e.isUnionB = false := by
              intro e he
              rw [houtform] at he
              have hek : e.kind ∈ tail.map Schema.kind :=
                List.mem_map_of_mem Schema.kind he
              rw [htailkinds] at hek
              simp only [List.mem_map] at hek
              obtain ⟨v, hv, hvk⟩ := hek
              have hvnu : v.isUnionB = false := hnu v (List.mem_reverse.mp hv)
              cases hbe : e.isUnionB
              · rfl
              · have : v.kind = SchemaKind.union := by
                  rw [hvk]
                  exact (Schema.kind_eq_union_iff e).mpr hbe
                rw [(Schema.kind_eq_union_iff v).mp this] at hvnu
                simp at hvnu
            refine ⟨.union out, ?_, ?_⟩
            · simp only [mergeFuel, hr1]
              refine bindExceptOk.mpr ⟨out, hBG2, ?_⟩
              refine bindExceptOk.mpr ⟨out, unionNew_ok_of out hnuout hndout, rfl⟩
            · refine @SEquiv.union out vs.reverse vs ?_ ?_
              · rw [houtform]
                exact htail
              · exact List.reverse_perm vs

/-- C5: for every schema satisfying the §3.3 invariants (record lookup
consistency and union well-formedness, recursively, plus Null-first
ordering), merging the schema with itself succeeds and returns the schema
itself up to union-variant order (positions are in fact unchanged): the
result is `SEquiv` to the input. -/
theorem C5_idempotent (s : Schema)
    (hwf : Schema.wfB s = true) (hnf : Schema.nullFirstAllB s = true) :
    ∃ t, merge_schemas s s = .ok t ∧ SEquiv t s := by
  obtain ⟨t, ht, hte⟩ :=
    mergeFuel_diag (Schema.sz s + Schema.sz s) s (by omega) hwf
  exact ⟨t, ht, hte⟩

/-- Witness for C5: idempotence applied to the concrete nullable-Long
union. -/
theorem C5_witness :
    ∃ t, merge_schemas (Schema.union [Schema.null, Schema.long])
        (Schema.union [Schema.null, Schema.long]) = .ok t ∧
      SEquiv t (Schema.union [Schema.null, Schema.long]) :=
  C5_idempotent (Schema.union [Schema.null, Schema.long]) (by decide) (by decide)
